import Mathlib

/-!
# Decentrify chaincode: a shallow embedding

The chaincode `decentrify01.go` keeps one JSON-encoded `degree` record per
integer id in the Fabric world state and meters how often it may be viewed.
This file embeds the four transactions (`createDegree`, `invokeDegreeAccess`,
`viewDegree`, `revokeDegreeAccess`) and the dispatcher `Invoke`, together with
the parts of the Go standard library they call (`strconv.Atoi`,
`strconv.Itoa`, `strconv.ParseFloat`, `strings.ToLower`, `json.Marshal`,
`json.Unmarshal`), and proves properties of them.

Conventions.
* Go `string` and `[]byte` values are Unicode text (`String`); byte sequences
  that are not valid UTF-8 are outside the model.
* Go `int` is the 64-bit signed integer: values are `Int`, arithmetic wraps
  with `wrapInt`.
* A `float32` is its IEEE-754 binary32 bit pattern, see `Float32`.
* The ledger stub is a record of the world state and of the failure behaviour
  of its two calls, see `Stub`.
-/

namespace Decentrify

/-! ## strconv: integers -/

/-- The two error kinds of `strconv.NumError`. -/
inductive NumError
  | ErrSyntax
  | ErrRange
  deriving DecidableEq, Repr

/-- Whether the character is an ASCII decimal digit. -/
def isDigit (c : Char) : Bool := 48 ≤ c.toNat && c.toNat ≤ 57

/-- The value of an ASCII decimal digit. -/
def digitVal (c : Char) : Nat := c.toNat - 48

/-- Worker of `natDigits`: most significant digit first, `fuel` bounds the
number of digits. -/
def natDigitsAux : Nat → Nat → List Char → List Char
  | 0, _, acc => acc
  | fuel + 1, n, acc =>
    if n < 10 then Nat.digitChar n :: acc
    else natDigitsAux fuel (n / 10) (Nat.digitChar (n % 10) :: acc)

/-- The decimal digits of a natural number, without leading zeros (`0` is
`"0"`). -/
def natDigits (n : Nat) : List Char := natDigitsAux (n + 1) n []

/-- The value of a run of decimal digits read left to right from `acc`. -/
def digitsValue : List Char → Nat → Nat
  | [], acc => acc
  | c :: cs, acc => digitsValue cs (acc * 10 + digitVal c)

/-- The largest `uint64`. -/
def maxUint64 : Nat := 2 ^ 64 - 1

/-- The digit loop of `strconv.ParseUint(s, 10, 64)`: a character that is not
a digit is a syntax error with value 0; an overflow is a range error with the
largest value, reported as soon as it is met. -/
def parseUintLoop : List Char → Nat → Nat × Option NumError
  | [], n => (n, none)
  | c :: cs, n =>
    if isDigit c then
      if n ≥ maxUint64 / 10 + 1 then (maxUint64, some NumError.ErrRange)
      else
        let n1 := n * 10 + digitVal c
        if n1 > maxUint64 then (maxUint64, some NumError.ErrRange)
        else parseUintLoop cs n1
    else (0, some NumError.ErrSyntax)

/-- Go `strconv.ParseUint(s, 10, 64)`. -/
def ParseUint (s : List Char) : Nat × Option NumError :=
  match s with
  | [] => (0, some NumError.ErrSyntax)
  | _ => parseUintLoop s 0

/-- Go `strconv.ParseInt(s, 10, 64)` on the characters of `s`: an optional
sign, then `ParseUint`; a syntax error gives 0, a range error the nearest
bound. -/
def ParseInt (s : List Char) : Int × Option NumError :=
  match s with
  | [] => (0, some NumError.ErrSyntax)
  | c :: cs =>
    let neg := c == '-'
    let body := if c == '+' || c == '-' then cs else c :: cs
    match ParseUint body with
    | (_, some NumError.ErrSyntax) => (0, some NumError.ErrSyntax)
    | (un, _) =>
      if !neg && un ≥ 2 ^ 63 then ((2 : Int) ^ 63 - 1, some NumError.ErrRange)
      else if neg && un > 2 ^ 63 then (-(2 : Int) ^ 63, some NumError.ErrRange)
      else (if neg then -(un : Int) else (un : Int), none)

/-- Go `strconv.Atoi`: the value and the error, if any. -/
def Atoi (s : String) : Int × Option NumError := ParseInt s.data

/-- The characters of `strconv.Itoa(i)`. -/
def itoaChars (i : Int) : List Char :=
  if i < 0 then '-' :: natDigits i.natAbs else natDigits i.natAbs

/-- Go `strconv.Itoa`. The chaincode uses it for the key of a degree in the
world state. -/
def Itoa (i : Int) : String := String.mk (itoaChars i)

/-- The range of a Go `int` (64 bits). -/
def inIntRange (i : Int) : Prop := -(2 : Int) ^ 63 ≤ i ∧ i < (2 : Int) ^ 63

instance (i : Int) : Decidable (inIntRange i) := by
  unfold inIntRange; infer_instance

/-- Two's-complement wrap-around of Go `int` arithmetic. -/
def wrapInt (i : Int) : Int := (i + 2 ^ 63) % 2 ^ 64 - 2 ^ 63

/-! ## strconv: 32-bit floats -/

/-- A Go `float32` as its IEEE-754 binary32 bit pattern: the sign bit and the
remaining 31 bits (8 exponent bits, then 23 fraction bits). Patterns below
`infBits` are the finite numbers, in increasing order of magnitude; `infBits`
is infinity and the patterns above it are NaNs. -/
structure Float32 where
  neg : Bool
  bits : Nat
  deriving DecidableEq, Repr

/-- The bit pattern `0x7F800000` of infinity. -/
def infBits : Nat := 255 * 2 ^ 23

/-- The bit pattern `0x7FC00000` of the NaN that `math.NaN()` converts to. -/
def nanBits : Nat := 255 * 2 ^ 23 + 2 ^ 22

/-- Whether the float is neither an infinity nor a NaN. -/
def Float32.isFinite (f : Float32) : Bool := decide (f.bits < infBits)

/-- The magnitude of a finite bit pattern in units of `2^-149` (the smallest
subnormal): the fraction when the exponent field is 0, the fraction with its
implicit leading bit shifted by the exponent otherwise. -/
def scaled (bits : Nat) : Nat :=
  if bits / 2 ^ 23 = 0 then bits % 2 ^ 23
  else (2 ^ 23 + bits % 2 ^ 23) * 2 ^ (bits / 2 ^ 23 - 1)

/-- Binary search, from bit `b - 1` down, for the largest pattern `k` whose
magnitude is at most `N / D`. -/
def searchBits (N D : Nat) : Nat → Nat → Nat
  | 0, k => k
  | b + 1, k =>
    if scaled (k + 2 ^ b) * D ≤ N * 2 ^ 149 then searchBits N D b (k + 2 ^ b)
    else searchBits N D b k

/-- The bit pattern nearest to the rational `N / D`, ties to the even pattern
(IEEE-754 round-to-nearest-even). A result of `infBits` or more is an
overflow. -/
def roundBits (N D : Nat) : Nat :=
  let k := searchBits N D 31 0
  if 2 * N * 2 ^ 149 > (scaled k + scaled (k + 1)) * D
      ∨ (2 * N * 2 ^ 149 = (scaled k + scaled (k + 1)) * D ∧ k % 2 = 1) then k + 1
  else k

/-- The bit pattern nearest to `N * 10^p`, where `N` is written with `nd`
digits. Exponents so large or so small that the result is an overflow or zero
whatever the digits are answered without computing the power. -/
def decimalBits (N nd : Nat) (p : Int) : Nat :=
  if N = 0 then 0
  else if p > 400 then infBits
  else if p + nd < -400 then 0
  else if 0 ≤ p then roundBits (N * 10 ^ p.toNat) 1
  else roundBits N (10 ^ (-p).toNat)

/-- ASCII lower case of a character. -/
def lowerAscii (c : Char) : Char :=
  if 65 ≤ c.toNat ∧ c.toNat ≤ 90 then Char.ofNat (c.toNat + 32) else c

/-- The longest run of decimal digits at the front, and the rest. -/
def spanDigits : List Char → List Char × List Char
  | [] => ([], [])
  | c :: cs =>
    if isDigit c then ((spanDigits cs).1.cons c, (spanDigits cs).2)
    else ([], c :: cs)

/-- Whether the text starts with a minus sign. -/
def startsWithMinus : List Char → Bool
  | [] => false
  | c :: _ => c == '-'

/-- The text without its leading sign, if it has one. -/
def dropSign : List Char → List Char
  | [] => []
  | c :: r => if c == '+' || c == '-' then r else c :: r

/-- The exponent part of a decimal float literal, which must end the text:
nothing, or `e`/`E`, an optional sign and at least one digit. -/
def parseExponent : List Char → Option Int
  | [] => some 0
  | c :: r =>
    if c == 'e' || c == 'E' then
      if (spanDigits (dropSign r)).1 ≠ [] ∧ (spanDigits (dropSign r)).2 = [] then
        some (if startsWithMinus r then -(digitsValue (dropSign r) 0 : Int)
          else (digitsValue (dropSign r) 0 : Int))
      else none
    else none

/-- The text after a decimal point, if the text starts with one. -/
def afterPoint : List Char → Option (List Char)
  | [] => none
  | c :: r => if c = '.' then some r else none

/-- The unsigned decimal part of `ParseFloat`: digits with at most one point
and at least one digit, then the exponent. The result is the bit pattern of
the nearest float32, or `none` on a syntax error. -/
def parseDecimal (body : List Char) : Option Nat :=
  let ip := (spanDigits body).1
  let r1 := (spanDigits body).2
  let fp := match afterPoint r1 with
    | some r => (spanDigits r).1
    | none => []
  let r2 := match afterPoint r1 with
    | some r => (spanDigits r).2
    | none => r1
  if ip ++ fp = [] then none
  else
    match parseExponent r2 with
    | none => none
    | some e => some (decimalBits (digitsValue (ip ++ fp) 0) (ip ++ fp).length (e - fp.length))

/-- The value of a hexadecimal digit. -/
def hexVal (c : Char) : Option Nat :=
  if 48 ≤ c.toNat ∧ c.toNat ≤ 57 then some (c.toNat - 48)
  else if 97 ≤ c.toNat ∧ c.toNat ≤ 102 then some (c.toNat - 87)
  else if 65 ≤ c.toNat ∧ c.toNat ≤ 70 then some (c.toNat - 55)
  else none

/-- The longest run of hexadecimal digits at the front, and the rest. -/
def spanHex : List Char → List Char × List Char
  | [] => ([], [])
  | c :: cs =>
    if (hexVal c).isSome then ((spanHex cs).1.cons c, (spanHex cs).2)
    else ([], c :: cs)

/-- The value of a run of hexadecimal digits, continuing from `acc`. -/
def hexDigitsValue : List Char → Nat → Nat
  | [], acc => acc
  | c :: cs, acc => hexDigitsValue cs (acc * 16 + (hexVal c).getD 0)

/-- The bit pattern nearest to `N * 2^p`, where `N` is written with `nd`
hexadecimal digits. Exponents so large or so small that the result is an
overflow or zero whatever the digits are answered without computing the
power. -/
def binaryBits (N nd : Nat) (p : Int) : Nat :=
  if N = 0 then 0
  else if p > 200 then infBits
  else if p + 4 * nd < -200 then 0
  else if 0 ≤ p then roundBits (N * 2 ^ p.toNat) 1
  else roundBits N (2 ^ (-p).toNat)

/-- The exponent part of a hexadecimal float literal, which must be there and
end the text: `p`/`P`, an optional sign and at least one decimal digit. -/
def parseBinaryExponent : List Char → Option Int
  | [] => none
  | c :: r =>
    if c == 'p' || c == 'P' then
      if (spanDigits (dropSign r)).1 ≠ [] ∧ (spanDigits (dropSign r)).2 = [] then
        some (if startsWithMinus r then -(digitsValue (dropSign r) 0 : Int)
          else (digitsValue (dropSign r) 0 : Int))
      else none
    else none

/-- The hexadecimal part of `ParseFloat`, after the prefix `0x`: hexadecimal
digits with at most one point and at least one digit, then the binary
exponent. The result is the bit pattern of the nearest float32, or `none` on a
syntax error. -/
def parseHex (body : List Char) : Option Nat :=
  let ip := (spanHex body).1
  let r1 := (spanHex body).2
  let fp := match afterPoint r1 with
    | some r => (spanHex r).1
    | none => []
  let r2 := match afterPoint r1 with
    | some r => (spanHex r).2
    | none => r1
  if ip ++ fp = [] then none
  else
    match parseBinaryExponent r2 with
    | none => none
    | some e =>
      some (binaryBits (hexDigitsValue (ip ++ fp) 0) (ip ++ fp).length (e - 4 * fp.length))

/-- The unsigned part of `ParseFloat` without underscores: a hexadecimal
literal when it starts with `0x` or `0X`, a decimal literal otherwise. -/
def parseUnsigned (body : List Char) : Option Nat :=
  match body with
  | c0 :: c1 :: rest =>
    if c0 = '0' ∧ (c1 = 'x' ∨ c1 = 'X') then parseHex rest else parseDecimal body
  | _ => parseDecimal body

/-- What `underscoreOK` saw last: the start of the number, a digit (or the
base prefix), an underscore, or something else. -/
inductive Saw
  | start
  | digit
  | underscore
  | other
  deriving DecidableEq, Repr

/-- The loop of Go `underscoreOK` over the number proper: an underscore must
follow a digit and be followed by a digit; with `hex` the letters `a` to `f`
count as digits. -/
def underscoreLoop (hex : Bool) : Saw → List Char → Bool
  | saw, [] => decide (saw ≠ Saw.underscore)
  | saw, c :: cs =>
    if isDigit c || (hex && (hexVal c).isSome) then underscoreLoop hex Saw.digit cs
    else if c = '_' then
      (if saw = Saw.digit then underscoreLoop hex Saw.underscore cs else false)
    else if saw = Saw.underscore then false
    else underscoreLoop hex Saw.other cs

/-- Go `underscoreOK`: whether the underscores of a number text are allowed.
After the optional sign, a base prefix (`0b`, `0o`, `0x`, any case) counts as a
digit, and only `0x` makes the letters digits. -/
def underscoreOK (s : List Char) : Bool :=
  match dropSign s with
  | c0 :: c1 :: rest =>
    if c0 = '0' ∧ (lowerAscii c1 = 'b' ∨ lowerAscii c1 = 'o' ∨ lowerAscii c1 = 'x') then
      underscoreLoop (decide (lowerAscii c1 = 'x')) Saw.digit rest
    else underscoreLoop false Saw.start (c0 :: c1 :: rest)
  | body => underscoreLoop false Saw.start body

/-- The number literal of `ParseFloat`: underscores must be allowed by
`underscoreOK` and are skipped; the optional sign is dropped and the rest is
read as a hexadecimal or decimal literal. -/
def parseLiteral (s : List Char) : Option Nat :=
  if s.any (fun c => c == '_') && !underscoreOK s then none
  else parseUnsigned ((dropSign s).filter (fun c => c != '_'))

/-- Go `strconv.ParseFloat(s, 32)`, as the float32 the chaincode stores and
the error. Accepted are `NaN`, an optionally signed `Inf` or `Infinity` (any
case) and optionally signed decimal and hexadecimal literals, with
underscores between digits; the value is the exact value of the literal
rounded to the nearest float32. A syntax error gives 0; a magnitude that
rounds to infinity gives the infinity with a range error. -/
def ParseFloat32 (s : String) : Float32 × Option NumError :=
  if s.data.map lowerAscii = "nan".data then (⟨false, nanBits⟩, none)
  else if (dropSign s.data).map lowerAscii = "inf".data
      ∨ (dropSign s.data).map lowerAscii = "infinity".data then
    (⟨startsWithMinus s.data, infBits⟩, none)
  else
    match parseLiteral s.data with
    | none => (⟨false, 0⟩, some NumError.ErrSyntax)
    | some b =>
      if b ≥ infBits then (⟨startsWithMinus s.data, infBits⟩, some NumError.ErrRange)
      else (⟨startsWithMinus s.data, b⟩, none)

/-- Whether `S / 2^149 < 10^e`. -/
def belowPow10 (S : Nat) (e : Int) : Bool :=
  if 0 ≤ e then decide (S < 2 ^ 149 * 10 ^ e.toNat)
  else decide (S * 10 ^ (-e).toNat < 2 ^ 149)

/-- The decimal exponent of a positive magnitude `S / 2^149`: the least `e`
with `S / 2^149 < 10^e` (between -45 and 40 for a float32). -/
def decExponent (S : Nat) : Int :=
  match (List.range 86).find? (fun i => belowPow10 S ((i : Int) - 45)) with
  | some i => (i : Int) - 45
  | none => 40

/-- Drop trailing decimal zeros of `M`, raising the exponent `q`. -/
def stripZeros : Nat → Nat → Int → Nat × Int
  | 0, M, q => (M, q)
  | fuel + 1, M, q =>
    if M ≠ 0 ∧ M % 10 = 0 then stripZeros fuel (M / 10) (q + 1) else (M, q)

/-- The `%e` layout of the digits `ds` with the decimal point after `dp`
digits, as json writes it: `d.ddd`, `e`, a sign and the exponent without
leading zero. -/
def layoutE (ds : List Char) (dp : Int) : List Char :=
  (match ds with
    | [] => ['0']
    | [d] => [d]
    | d :: rest => d :: '.' :: rest)
  ++ 'e' :: (if dp - 1 < 0 then '-' else '+') :: natDigits (dp - 1).natAbs

/-- The `%f` layout of the digits `ds` with the decimal point after `dp`
digits. -/
def layoutF (ds : List Char) (dp : Int) : List Char :=
  if dp ≤ 0 then '0' :: '.' :: (List.replicate (-dp).toNat '0' ++ ds)
  else if dp.toNat < ds.length then ds.take dp.toNat ++ '.' :: ds.drop dp.toNat
  else ds ++ List.replicate (dp.toNat - ds.length) '0'

/-- The text of `M * 10^q` (`M > 0`) in the chosen layout, with its sign. -/
def decimalText (neg useE : Bool) (M : Nat) (q : Int) : List Char :=
  let ds := natDigits (stripZeros 10 M q).1
  let dp : Int := ds.length + (stripZeros 10 M q).2
  (if neg then ['-'] else []) ++ (if useE then layoutE ds dp else layoutF ds dp)

/-- Whether the text parses back to the finite float with this sign and
bits. -/
def parsesTo (t : List Char) (neg : Bool) (bits : Nat) : Bool :=
  decide (ParseFloat32 (String.mk t) = (⟨neg, bits⟩, none))

/-- Choose between the two decimals `L * 10^q` and `(L + 1) * 10^q` around
the value: those that parse back to the float are kept, and of two the
preferred one is taken. A lower decimal of 0 has no digits to write and is no
candidate. -/
def pickCandidate (neg useE : Bool) (bits L : Nat) (q : Int) (preferLo : Bool) :
    Option (List Char) :=
  if L = 0 then none
  else if parsesTo (decimalText neg useE L q) neg bits
      ∧ parsesTo (decimalText neg useE (L + 1) q) neg bits then
    (if preferLo then some (decimalText neg useE L q) else some (decimalText neg useE (L + 1) q))
  else if parsesTo (decimalText neg useE L q) neg bits then some (decimalText neg useE L q)
  else if parsesTo (decimalText neg useE (L + 1) q) neg bits then
    some (decimalText neg useE (L + 1) q)
  else none

/-- The `n`-digit decimal that identifies the float, if there is one: of the
two `n`-digit decimals around the value (the value cut after `n` digits, and
the next one up) those that parse back to the float are kept, and the nearer
one is taken (the even one on a tie). -/
def shortestAt (neg useE : Bool) (bits n : Nat) : Option (List Char) :=
  let q : Int := decExponent (scaled bits) - n
  let A := if 0 ≤ q then scaled bits else scaled bits * 10 ^ (-q).toNat
  let B := if 0 ≤ q then 2 ^ 149 * 10 ^ q.toNat else 2 ^ 149
  pickCandidate neg useE bits (A / B) q
    (decide (2 * (A % B) < B ∨ (2 * (A % B) = B ∧ (A / B) % 2 = 0)))

/-- The number text json writes for a finite float32: the shortest decimal
that parses back to the same float (`strconv.AppendFloat` with precision -1),
in `%e` layout when the magnitude is below `1e-6` or at least `1e21` and in
`%f` layout otherwise. Nine digits always identify a float32; the exact
expansion after the search keeps the function total without an appeal to
that fact. -/
def formatFloat32 (f : Float32) : List Char :=
  if f.bits = 0 then (if f.neg then ['-', '0'] else ['0'])
  else
    let useE := decide (f.bits < roundBits 1 (10 ^ 6)) || decide (roundBits (10 ^ 21) 1 ≤ f.bits)
    match (List.range 9).findSome? (fun i => shortestAt f.neg useE f.bits (i + 1)) with
    | some t => t
    | none =>
      (if f.neg then ['-'] else []) ++ natDigits (scaled f.bits * 5 ^ 149) ++ "e-149".data

/-! ## strings -/

/-- Go `strings.ToLower`: every code point is mapped to its lower case. ASCII
letters are mapped as `unicode.ToLower` maps them; the lower-case table of the
other code points is the parameter `table`. -/
def ToLower (table : Char → Char) (s : String) : String :=
  String.mk (s.data.map (fun c => if c.toNat < 128 then lowerAscii c else table c))

/-! ## encoding/json for the `degree` struct -/

/-- The degree asset object of the chaincode (`type degree struct`). -/
structure degree where
  ObjectType : String
  DegreeId : Int
  StudentName : String
  InstituteName : String
  Duration : Int
  PassingYear : Int
  Cgpa : Float32
  AllowedViews : Int
  deriving DecidableEq, Repr

/-- The errors of `json.Marshal` and `json.Unmarshal`. A syntax error has its
message; a type error has the description of the json value, the json name of
the struct field it was meant for (empty for the top-level value) and the Go
type of the target. -/
inductive JsonError
  | UnsupportedValueError (value : String)
  | SyntaxError (msg : String)
  | UnmarshalTypeError (value field type : String)
  deriving DecidableEq, Repr

/-- The message of a json error (`err.Error()`). -/
def JsonError.Error : JsonError → String
  | JsonError.UnsupportedValueError v => "json: unsupported value: " ++ v
  | JsonError.SyntaxError msg => msg
  | JsonError.UnmarshalTypeError v f t =>
    if f = "" then "json: cannot unmarshal " ++ v ++ " into Go value of type " ++ t
    else "json: cannot unmarshal " ++ v ++ " into Go struct field degree." ++ f ++ " of type " ++ t

deriving instance DecidableEq for Except

/-- A lower-case hexadecimal digit. -/
def hexDigit (n : Nat) : Char := if n < 10 then Char.ofNat (48 + n) else Char.ofNat (87 + n)

/-- How json writes one character of a string (HTML escaping on, as in
`json.Marshal`): the quote and the backslash get a backslash; backspace, form
feed, newline, carriage return and tab their short escapes; other control
characters and `<`, `>`, `&` become `\u00XX`, and U+2028 and U+2029 are
escaped. -/
def escapeChar (c : Char) : List Char :=
  if c = '"' then ['\\', '"']
  else if c = '\\' then ['\\', '\\']
  else if c.toNat = 8 then ['\\', 'b']
  else if c.toNat = 12 then ['\\', 'f']
  else if c = '\n' then ['\\', 'n']
  else if c = '\r' then ['\\', 'r']
  else if c = '\t' then ['\\', 't']
  else if c.toNat < 32 ∨ c = '<' ∨ c = '>' ∨ c = '&' then
    ['\\', 'u', '0', '0', hexDigit (c.toNat / 16), hexDigit (c.toNat % 16)]
  else if c.toNat = 0x2028 then ['\\', 'u', '2', '0', '2', '8']
  else if c.toNat = 0x2029 then ['\\', 'u', '2', '0', '2', '9']
  else [c]

/-- The escaped characters of a string. -/
def escapeChars : List Char → List Char
  | [] => []
  | c :: cs => escapeChar c ++ escapeChars cs

/-- A json string literal: the escaped characters between quotes. -/
def encodeString (s : String) : List Char :=
  '"' :: (escapeChars s.data ++ ['"'])

/-- The text of a json object after its opening brace: each member is the
quoted key, a colon and the text of the value; the members are separated by
commas and followed by the closing brace. -/
def objectText : List (String × List Char) → List Char
  | [] => ['\x7d']
  | [(k, v)] => encodeString k ++ ':' :: (v ++ ['\x7d'])
  | (k, v) :: m :: ms => encodeString k ++ ':' :: (v ++ ',' :: objectText (m :: ms))

/-- The members json writes for a `degree`: the eight tagged fields in
declaration order. -/
def degreeMembers (d : degree) : List (String × List Char) :=
  [("docType", encodeString d.ObjectType),
   ("degreeid", itoaChars d.DegreeId),
   ("studentname", encodeString d.StudentName),
   ("institutename", encodeString d.InstituteName),
   ("duration", itoaChars d.Duration),
   ("passingyear", itoaChars d.PassingYear),
   ("cgpa", formatFloat32 d.Cgpa),
   ("allowedviews", itoaChars d.AllowedViews)]

/-- Go `json.Marshal` of a `degree`: the object of its members, or
`UnsupportedValueError` when the float is an infinity or a NaN. -/
def Marshal (d : degree) : Except JsonError String :=
  if d.Cgpa.isFinite then Except.ok (String.mk ('\x7b' :: objectText (degreeMembers d)))
  else
    Except.error (JsonError.UnsupportedValueError
      (if d.Cgpa.bits = infBits then (if d.Cgpa.neg then "-Inf" else "+Inf") else "NaN"))

/-- The value of four hexadecimal digits. -/
def hex4 (a b c d : Char) : Option Nat :=
  match hexVal a, hexVal b, hexVal c, hexVal d with
  | some x, some y, some z, some w => some (((x * 16 + y) * 16 + z) * 16 + w)
  | _, _, _, _ => none

/-- Put a character in front of a scanned string. -/
def pushChar (c : Char) (r : Option (List Char × List Char)) : Option (List Char × List Char) :=
  match r with
  | none => none
  | some (s, rest) => some (c :: s, rest)

/-- Emit the replacement character U+FFFD for a pending unpaired high
surrogate, if there is one. -/
def flushPending (pending : Option Nat) (r : Option (List Char × List Char)) :
    Option (List Char × List Char) :=
  match pending with
  | none => r
  | some _ => pushChar (Char.ofNat 0xFFFD) r

/-- Scan a json string literal after its opening quote: the decoded text and
the input after the closing quote. A raw control character, an unknown escape
or a missing quote is a syntax error. `pending` is the high surrogate of a
`\u` escape just read: followed at once by the `\u` escape of a low surrogate
it gives the paired code point; a surrogate escape without its partner gives
U+FFFD. -/
def scanStringFrom : Option Nat → List Char → Option (List Char × List Char)
  | _, [] => none
  | p, c :: rest =>
    if c = '"' then flushPending p (some ([], rest))
    else if c = '\\' then
      match rest with
      | [] => none
      | e :: r =>
        if e = '"' then flushPending p (pushChar '"' (scanStringFrom none r))
        else if e = '\\' then flushPending p (pushChar '\\' (scanStringFrom none r))
        else if e = '/' then flushPending p (pushChar '/' (scanStringFrom none r))
        else if e = 'b' then flushPending p (pushChar (Char.ofNat 8) (scanStringFrom none r))
        else if e = 'f' then flushPending p (pushChar (Char.ofNat 12) (scanStringFrom none r))
        else if e = 'n' then flushPending p (pushChar '\n' (scanStringFrom none r))
        else if e = 'r' then flushPending p (pushChar '\r' (scanStringFrom none r))
        else if e = 't' then flushPending p (pushChar '\t' (scanStringFrom none r))
        else if e = 'u' then
          match r with
          | a :: b :: c1 :: d :: r1 =>
            match hex4 a b c1 d with
            | none => none
            | some u =>
              if 0xDC00 ≤ u ∧ u < 0xE000 then
                match p with
                | some h =>
                  pushChar (Char.ofNat ((h - 0xD800) * 1024 + (u - 0xDC00) + 0x10000))
                    (scanStringFrom none r1)
                | none => pushChar (Char.ofNat 0xFFFD) (scanStringFrom none r1)
              else if 0xD800 ≤ u ∧ u < 0xDC00 then flushPending p (scanStringFrom (some u) r1)
              else flushPending p (pushChar (Char.ofNat u) (scanStringFrom none r1))
          | _ => none
        else none
    else if c.toNat < 32 then none
    else flushPending p (pushChar c (scanStringFrom none rest))

/-- Scan a json string literal after its opening quote. -/
def scanString (cs : List Char) : Option (List Char × List Char) := scanStringFrom none cs

/-- Skip json white space (space, tab, carriage return, newline). -/
def skipWS : List Char → List Char
  | [] => []
  | c :: cs => if c = ' ' ∨ c = '\t' ∨ c = '\r' ∨ c = '\n' then skipWS cs else c :: cs

/-- The characters a json number is made of. -/
def isNumChar (c : Char) : Bool :=
  isDigit c || c == '-' || c == '+' || c == '.' || c == 'e' || c == 'E'

/-- The longest run of number characters at the front, and the rest. -/
def spanNumber : List Char → List Char × List Char
  | [] => ([], [])
  | c :: cs =>
    if isNumChar c then ((spanNumber cs).1.cons c, (spanNumber cs).2)
    else ([], c :: cs)

/-- The exponent part of a json number: nothing, or `e`/`E`, an optional sign
and at least one digit, to the end of the token. -/
def validExp : List Char → Bool
  | [] => true
  | c :: r =>
    (c == 'e' || c == 'E') &&
      decide ((spanDigits (dropSign r)).1 ≠ [] ∧ (spanDigits (dropSign r)).2 = [])

/-- The fraction part of a json number, then the exponent part. -/
def validFrac : List Char → Bool
  | [] => true
  | c :: r =>
    if c = '.' then decide ((spanDigits r).1 ≠ []) && validExp (spanDigits r).2
    else validExp (c :: r)

/-- The json number grammar after the optional minus sign: `0` or a digit run
without leading zero, then fraction and exponent. -/
def validUnsigned : List Char → Bool
  | [] => false
  | c :: r =>
    if c = '0' then validFrac r
    else if isDigit c then validFrac (spanDigits r).2
    else false

/-- The json number grammar. -/
def validNumber : List Char → Bool
  | [] => false
  | c :: r => if c = '-' then validUnsigned r else validUnsigned (c :: r)

/-- An unsigned number text: it follows the json number grammar, consists of
number characters and starts with a digit. -/
def UnsignedNumberText (u : List Char) : Prop :=
  validUnsigned u = true ∧ (∀ x ∈ u, isNumChar x = true) ∧
    ∃ h t, u = h :: t ∧ isDigit h = true

/-- A number token: it follows the json number grammar and consists of number
characters. -/
def NumberToken (t : List Char) : Prop :=
  validNumber t = true ∧ ∀ x ∈ t, isNumChar x = true

/-- A scanned json value, as far as decoding into a `degree` looks at it:
arrays and objects are checked and skipped. -/
inductive JValue
  | null
  | bool
  | number (token : List Char)
  | string (text : List Char)
  | object
  | array
  deriving DecidableEq, Repr

/-- The input after a literal, if the input starts with it. -/
def dropLiteral : List Char → List Char → Option (List Char)
  | [], cs => some cs
  | _ :: _, [] => none
  | l :: ls, c :: cs => if c = l then dropLiteral ls cs else none

mutual

/-- Scan one json value at the front of the input. -/
def parseValue : Nat → List Char → Option (JValue × List Char)
  | 0, _ => none
  | fuel + 1, cs =>
    if cs.head? = some '\x7b' then
      if (skipWS cs.tail).head? = some '\x7d' then some (JValue.object, (skipWS cs.tail).tail)
      else
        match parseMembers fuel (skipWS cs.tail) with
        | none => none
        | some (_, r2) => some (JValue.object, r2)
    else if cs.head? = some '[' then
      if (skipWS cs.tail).head? = some ']' then some (JValue.array, (skipWS cs.tail).tail)
      else
        match parseElements fuel (skipWS cs.tail) with
        | none => none
        | some r2 => some (JValue.array, r2)
    else if cs.head? = some '"' then
      match scanString cs.tail with
      | none => none
      | some (s, r1) => some (JValue.string s, r1)
    else if cs.head? = some 't' then
      match dropLiteral ['r', 'u', 'e'] cs.tail with
      | none => none
      | some r1 => some (JValue.bool, r1)
    else if cs.head? = some 'f' then
      match dropLiteral ['a', 'l', 's', 'e'] cs.tail with
      | none => none
      | some r1 => some (JValue.bool, r1)
    else if cs.head? = some 'n' then
      match dropLiteral ['u', 'l', 'l'] cs.tail with
      | none => none
      | some r1 => some (JValue.null, r1)
    else if validNumber (spanNumber cs).1 then
      some (JValue.number (spanNumber cs).1, (spanNumber cs).2)
    else none

/-- Scan the members of an object, from the first key to the closing brace:
the keys with their values, and the input after the brace. -/
def parseMembers : Nat → List Char → Option (List (List Char × JValue) × List Char)
  | 0, _ => none
  | fuel + 1, cs =>
    if cs.head? = some '"' then
      match scanString cs.tail with
      | none => none
      | some (k, r1) =>
        if (skipWS r1).head? = some ':' then
          match parseValue fuel (skipWS (skipWS r1).tail) with
          | none => none
          | some (v, r3) =>
            if (skipWS r3).head? = some ',' then
              match parseMembers fuel (skipWS (skipWS r3).tail) with
              | none => none
              | some (ms, r5) => some ((k, v) :: ms, r5)
            else if (skipWS r3).head? = some '\x7d' then some ([(k, v)], (skipWS r3).tail)
            else none
        else none
    else none

/-- Scan the elements of an array, from the first element to the closing
bracket: the input after the bracket. -/
def parseElements : Nat → List Char → Option (List Char)
  | 0, _ => none
  | fuel + 1, cs =>
    match parseValue fuel cs with
    | none => none
    | some (_, r1) =>
      if (skipWS r1).head? = some ',' then parseElements fuel (skipWS (skipWS r1).tail)
      else if (skipWS r1).head? = some ']' then some (skipWS r1).tail
      else none

end

/-- The top-level value of a json text: `null`, an object with its members,
or another value. -/
inductive JTop
  | null
  | object (members : List (List Char × JValue))
  | other (value : JValue)
  deriving DecidableEq, Repr

/-- Scan a whole json text (`checkValid` and the top-level value): `none` on
a syntax error, which includes anything but white space after the value. The
recursion is bounded by the length of the text; the nesting limit of the Go
scanner is not modelled. -/
def parseTop (cs : List Char) : Option JTop :=
  if (skipWS cs).head? = some '\x7b' then
    if (skipWS (skipWS cs).tail).head? = some '\x7d' then
      (if skipWS (skipWS (skipWS cs).tail).tail = [] then some (JTop.object []) else none)
    else
      match parseMembers (cs.length + 1) (skipWS (skipWS cs).tail) with
      | none => none
      | some (ms, r2) => if skipWS r2 = [] then some (JTop.object ms) else none
  else
    match parseValue (cs.length + 1) (skipWS cs) with
    | none => none
    | some (JValue.null, r2) => if skipWS r2 = [] then some JTop.null else none
    | some (v, r2) => if skipWS r2 = [] then some (JTop.other v) else none

/-! ### The messages of `json.Unmarshal` errors -/

/-- The first byte of the UTF-8 encoding of a character: the scanner of
`encoding/json` reads bytes, and its message names the byte it stops at. -/
def firstByte (c : Char) : Nat :=
  if c.toNat < 0x80 then c.toNat
  else if c.toNat < 0x800 then 0xC0 + c.toNat / 64
  else if c.toNat < 0x10000 then 0xE0 + c.toNat / 4096
  else 0xF0 + c.toNat / 262144

/-- Go `strconv.Quote` of the one-character string of a byte value, without
its quotes: the backslash is doubled, a printable character stands for
itself, the control characters have their short or `\x` escapes. The first
byte of a character outside ASCII is 0xC2 to 0xF4, a printable Latin-1
letter. -/
def quoteBody (b : Nat) : List Char :=
  if b = 92 then ['\\', '\\']
  else if (0x20 ≤ b ∧ b < 0x7F) ∨ (0xA1 ≤ b ∧ b ≤ 0xFF ∧ b ≠ 0xAD) then [Char.ofNat b]
  else if b = 7 then ['\\', 'a']
  else if b = 8 then ['\\', 'b']
  else if b = 12 then ['\\', 'f']
  else if b = 10 then ['\\', 'n']
  else if b = 13 then ['\\', 'r']
  else if b = 9 then ['\\', 't']
  else if b = 11 then ['\\', 'v']
  else if b < 0x20 ∨ b = 0x7F then ['\\', 'x', hexDigit (b / 16), hexDigit (b % 16)]
  else ['\\', 'u', '0', '0', hexDigit (b / 16), hexDigit (b % 16)]

/-- Go `quoteChar` of `scanner.go`: the byte as a quoted character
literal. -/
def quoteChar (b : Nat) : String :=
  if b = 39 then "'\\''"
  else if b = 34 then "'\"'"
  else String.mk (Char.ofNat 39 :: (quoteBody b ++ [Char.ofNat 39]))

/-- The message of the scanner's `error(c, context)`. -/
def scanError (c : Char) (context : String) : String :=
  "invalid character " ++ quoteChar (firstByte c) ++ " " ++ context

/-- The step functions of the scanner (`stateBeginValue`, `stateInString`,
...), as states. `inStringEscU n` is the state after `\u` and `n` hexadecimal
digits; `literal name todo` is the state inside `true`, `false` or `null` with
the characters still to come. -/
inductive ScanState
  | beginValue
  | beginValueOrEmpty
  | beginStringOrEmpty
  | beginString
  | endValue
  | endTop
  | inString
  | inStringEsc
  | inStringEscU (seen : Nat)
  | neg
  | zero
  | one
  | dot
  | dot0
  | exp
  | expSign
  | exp0
  | literal (name : String) (todo : List Char)
  deriving DecidableEq, Repr

/-- The entries of the scanner's parse stack: inside an object before the
colon, inside an object after the colon, inside an array. -/
inductive ParseState
  | objectKey
  | objectValue
  | arrayValue
  deriving DecidableEq, Repr

/-- Go `isSpace`. -/
def isSpace (c : Char) : Bool := c == ' ' || c == '\t' || c == '\r' || c == '\n'

/-- The state after closing an object or array (`popParseState`): the top
level is finished when the stack is empty. -/
def afterPop (stack : List ParseState) : ScanState × List ParseState :=
  if stack = [] then (ScanState.endTop, []) else (ScanState.endValue, stack)

/-- Go `stateEndValue` (with `stateEndTop` when the stack is empty): the byte
after a complete value. -/
def endValueStep (stack : List ParseState) (c : Char) :
    Except String (ScanState × List ParseState) :=
  match stack with
  | [] =>
    if isSpace c then Except.ok (ScanState.endTop, [])
    else Except.error (scanError c "after top-level value")
  | ParseState.objectKey :: rest =>
    if isSpace c then Except.ok (ScanState.endValue, stack)
    else if c = ':' then Except.ok (ScanState.beginValue, ParseState.objectValue :: rest)
    else Except.error (scanError c "after object key")
  | ParseState.objectValue :: rest =>
    if isSpace c then Except.ok (ScanState.endValue, stack)
    else if c = ',' then Except.ok (ScanState.beginString, ParseState.objectKey :: rest)
    else if c = '\x7d' then Except.ok (afterPop rest)
    else Except.error (scanError c "after object key:value pair")
  | ParseState.arrayValue :: rest =>
    if isSpace c then Except.ok (ScanState.endValue, stack)
    else if c = ',' then Except.ok (ScanState.beginValue, stack)
    else if c = ']' then Except.ok (afterPop rest)
    else Except.error (scanError c "after array element")

/-- Go `stateBeginValue` on a byte that is not white space. -/
def beginValueStep (stack : List ParseState) (c : Char) :
    Except String (ScanState × List ParseState) :=
  if c = '\x7b' then Except.ok (ScanState.beginStringOrEmpty, ParseState.objectKey :: stack)
  else if c = '[' then Except.ok (ScanState.beginValueOrEmpty, ParseState.arrayValue :: stack)
  else if c = '"' then Except.ok (ScanState.inString, stack)
  else if c = '-' then Except.ok (ScanState.neg, stack)
  else if c = '0' then Except.ok (ScanState.zero, stack)
  else if c = 't' then Except.ok (ScanState.literal "true" ['r', 'u', 'e'], stack)
  else if c = 'f' then Except.ok (ScanState.literal "false" ['a', 'l', 's', 'e'], stack)
  else if c = 'n' then Except.ok (ScanState.literal "null" ['u', 'l', 'l'], stack)
  else if isDigit c then Except.ok (ScanState.one, stack)
  else Except.error (scanError c "looking for beginning of value")

/-- Go `stateBeginString` on a byte that is not white space. -/
def beginStringStep (stack : List ParseState) (c : Char) :
    Except String (ScanState × List ParseState) :=
  if c = '"' then Except.ok (ScanState.inString, stack)
  else Except.error (scanError c "looking for beginning of object key string")

/-- Go `state0`: after the integer part of a number. -/
def zeroStep (stack : List ParseState) (c : Char) :
    Except String (ScanState × List ParseState) :=
  if c = '.' then Except.ok (ScanState.dot, stack)
  else if c = 'e' ∨ c = 'E' then Except.ok (ScanState.exp, stack)
  else endValueStep stack c

/-- Go `stateESign`: after the `e` of a number and its optional sign. -/
def expSignStep (stack : List ParseState) (c : Char) :
    Except String (ScanState × List ParseState) :=
  if isDigit c then Except.ok (ScanState.exp0, stack)
  else Except.error (scanError c "in exponent of numeric literal")

/-- One step of the scanner: the state and the parse stack after the
character, or the message of the syntax error. A character outside ASCII is
several bytes; inside a string each of them is accepted, elsewhere the first
one is the error. -/
def scanStep (st : ScanState) (stack : List ParseState) (c : Char) :
    Except String (ScanState × List ParseState) :=
  match st with
  | ScanState.beginValue =>
    if isSpace c then Except.ok (st, stack) else beginValueStep stack c
  | ScanState.beginValueOrEmpty =>
    if isSpace c then Except.ok (st, stack)
    else if c = ']' then endValueStep stack c
    else beginValueStep stack c
  | ScanState.beginStringOrEmpty =>
    if isSpace c then Except.ok (st, stack)
    else if c = '\x7d' then Except.ok (afterPop stack.tail)
    else beginStringStep stack c
  | ScanState.beginString =>
    if isSpace c then Except.ok (st, stack) else beginStringStep stack c
  | ScanState.endValue => endValueStep stack c
  | ScanState.endTop =>
    if isSpace c then Except.ok (st, stack)
    else Except.error (scanError c "after top-level value")
  | ScanState.inString =>
    if c = '"' then Except.ok (ScanState.endValue, stack)
    else if c = '\\' then Except.ok (ScanState.inStringEsc, stack)
    else if c.toNat < 0x20 then Except.error (scanError c "in string literal")
    else Except.ok (st, stack)
  | ScanState.inStringEsc =>
    if c = 'b' ∨ c = 'f' ∨ c = 'n' ∨ c = 'r' ∨ c = 't' ∨ c = '\\' ∨ c = '/' ∨ c = '"' then
      Except.ok (ScanState.inString, stack)
    else if c = 'u' then Except.ok (ScanState.inStringEscU 0, stack)
    else Except.error (scanError c "in string escape code")
  | ScanState.inStringEscU seen =>
    if (hexVal c).isSome then
      (if seen < 3 then Except.ok (ScanState.inStringEscU (seen + 1), stack)
        else Except.ok (ScanState.inString, stack))
    else Except.error (scanError c "in \\u hexadecimal character escape")
  | ScanState.neg =>
    if c = '0' then Except.ok (ScanState.zero, stack)
    else if isDigit c then Except.ok (ScanState.one, stack)
    else Except.error (scanError c "in numeric literal")
  | ScanState.one =>
    if isDigit c then Except.ok (st, stack) else zeroStep stack c
  | ScanState.zero => zeroStep stack c
  | ScanState.dot =>
    if isDigit c then Except.ok (ScanState.dot0, stack)
    else Except.error (scanError c "after decimal point in numeric literal")
  | ScanState.dot0 =>
    if isDigit c then Except.ok (st, stack)
    else if c = 'e' ∨ c = 'E' then Except.ok (ScanState.exp, stack)
    else endValueStep stack c
  | ScanState.exp =>
    if c = '+' ∨ c = '-' then Except.ok (ScanState.expSign, stack) else expSignStep stack c
  | ScanState.expSign => expSignStep stack c
  | ScanState.exp0 =>
    if isDigit c then Except.ok (st, stack) else endValueStep stack c
  | ScanState.literal name todo =>
    match todo with
    | [] => endValueStep stack c
    | x :: rest =>
      if c = x then
        (if rest = [] then Except.ok (ScanState.endValue, stack)
          else Except.ok (ScanState.literal name rest, stack))
      else
        Except.error (scanError c
          ("in literal " ++ name ++ " (expecting " ++ quoteChar x.toNat ++ ")"))

/-- The end of the input (Go `eof`): the text is valid when the top-level
value is finished, also after the space the scanner feeds itself; else the
error of that space, or the message for an input that breaks off. -/
def scanEnd (st : ScanState) (stack : List ParseState) : Option String :=
  if st = ScanState.endTop then none
  else
    match scanStep st stack ' ' with
    | Except.error msg => some msg
    | Except.ok (st1, _) =>
      if st1 = ScanState.endTop then none else some "unexpected end of JSON input"

/-- Run the scanner over the text from a state. -/
def scanFrom : ScanState → List ParseState → List Char → Option String
  | st, stack, [] => scanEnd st stack
  | st, stack, c :: cs =>
    match scanStep st stack c with
    | Except.error msg => some msg
    | Except.ok (st1, stack1) => scanFrom st1 stack1 cs

/-- Go `checkValid`: the message of the syntax error of a text, `none` for a
valid json text. The nesting limit of the scanner is not modelled. -/
def checkValid (cs : List Char) : Option String := scanFrom ScanState.beginValue [] cs

/-- The states of the scanner in which a number may end. -/
def NumFinal (st : ScanState) : Prop :=
  st = ScanState.zero ∨ st = ScanState.one ∨ st = ScanState.dot0 ∨ st = ScanState.exp0

/-- Case folding of a key character: ASCII letters to lower case, and the two
code points Go folds onto ASCII letters, the long s (U+017F) onto `s` and the
Kelvin sign (U+212A) onto `k`. -/
def foldChar (c : Char) : Char :=
  if c.toNat = 0x17F then 's' else if c.toNat = 0x212A then 'k' else lowerAscii c

/-- Whether an object key names the field with this json tag: json matches
keys to tags ignoring case. -/
def keyMatches (tag : String) (key : List Char) : Bool :=
  decide (key.map foldChar = tag.data.map lowerAscii)

/-- Store a string value in a string field: `null` leaves the field as it
is, anything but a string is a type error. -/
def stringValue (old : String) : JValue → Option String
  | JValue.null => some old
  | JValue.string s => some (String.mk s)
  | _ => none

/-- Store a number in an `int` field: `null` leaves the field as it is; the
token must be an integer literal in range. -/
def intValue (old : Int) : JValue → Option Int
  | JValue.null => some old
  | JValue.number t =>
    match ParseInt t with
    | (n, none) => some n
    | _ => none
  | _ => none

/-- Store a number in a `float32` field: `null` leaves the field as it is;
the token must not overflow. -/
def floatValue (old : Float32) : JValue → Option Float32
  | JValue.null => some old
  | JValue.number t =>
    match ParseFloat32 (String.mk t) with
    | (f, none) => some f
    | _ => none
  | _ => none

/-- Decode one object member into the struct: the field whose tag matches the
key is set, a key that matches no tag is ignored. -/
def setField (d : degree) (key : List Char) (v : JValue) : Option degree :=
  if keyMatches "docType" key then
    (stringValue d.ObjectType v).map (fun x => { d with ObjectType := x })
  else if keyMatches "degreeid" key then
    (intValue d.DegreeId v).map (fun x => { d with DegreeId := x })
  else if keyMatches "studentname" key then
    (stringValue d.StudentName v).map (fun x => { d with StudentName := x })
  else if keyMatches "institutename" key then
    (stringValue d.InstituteName v).map (fun x => { d with InstituteName := x })
  else if keyMatches "duration" key then
    (intValue d.Duration v).map (fun x => { d with Duration := x })
  else if keyMatches "passingyear" key then
    (intValue d.PassingYear v).map (fun x => { d with PassingYear := x })
  else if keyMatches "cgpa" key then
    (floatValue d.Cgpa v).map (fun x => { d with Cgpa := x })
  else if keyMatches "allowedviews" key then
    (intValue d.AllowedViews v).map (fun x => { d with AllowedViews := x })
  else some d

/-- Decode the members of an object in order; a later member overrides an
earlier one with the same key. -/
def setFields : degree → List (List Char × JValue) → Option degree
  | d, [] => some d
  | d, (k, v) :: ms =>
    match setField d k v with
    | none => none
    | some d1 => setFields d1 ms

/-- The zero value `degree{}`. -/
def zeroDegree : degree := ⟨"", 0, "", "", 0, 0, ⟨false, 0⟩, 0⟩

/-- The json tag and the Go type of the field an object key names, if it
names one. -/
def fieldOf (key : List Char) : Option (String × String) :=
  if keyMatches "docType" key then some ("docType", "string")
  else if keyMatches "degreeid" key then some ("degreeid", "int")
  else if keyMatches "studentname" key then some ("studentname", "string")
  else if keyMatches "institutename" key then some ("institutename", "string")
  else if keyMatches "duration" key then some ("duration", "int")
  else if keyMatches "passingyear" key then some ("passingyear", "int")
  else if keyMatches "cgpa" key then some ("cgpa", "float32")
  else if keyMatches "allowedviews" key then some ("allowedviews", "int")
  else none

/-- How an `UnmarshalTypeError` names the json value that does not fit a
target of the given Go type: a number that does not fit an `int` or a
`float32` is named with its literal. -/
def describeValue (type : String) : JValue → String
  | JValue.null => "null"
  | JValue.bool => "bool"
  | JValue.number t =>
    if type = "int" ∨ type = "float32" then "number " ++ String.mk t else "number"
  | JValue.string _ => "string"
  | JValue.object => "object"
  | JValue.array => "array"

/-- The type error of the first object member that does not fit its field
(the decoder keeps the first error it meets). -/
def firstTypeError : degree → List (List Char × JValue) → JsonError
  | _, [] => JsonError.UnmarshalTypeError "" "" ""
  | d, (k, v) :: ms =>
    match setField d k v with
    | some d1 => firstTypeError d1 ms
    | none =>
      match fieldOf k with
      | some (tag, type) => JsonError.UnmarshalTypeError (describeValue type v) tag type
      | none => JsonError.UnmarshalTypeError "" "" ""

/-- Go `json.Unmarshal(data, &updatedDegree)` into a zero `degree`: the syntax
error of the scanner for a text that is not json; `null` decodes to the zero
struct; an object sets the fields its keys name and leaves the others zero;
any other value, or a member value of the wrong type, is a type error. Go
runs the scanner over the whole text before it decodes; here the parser
decides, and it accepts only texts the scanner accepts
(`checkValid_of_parseTop`). -/
def Unmarshal (data : String) : Except JsonError degree :=
  match parseTop data.data with
  | none =>
    Except.error
      (JsonError.SyntaxError ((checkValid data.data).getD "unexpected end of JSON input"))
  | some JTop.null => Except.ok zeroDegree
  | some (JTop.other v) =>
    Except.error (JsonError.UnmarshalTypeError (describeValue "main.degree" v) "" "main.degree")
  | some (JTop.object ms) =>
    match setFields zeroDegree ms with
    | none => Except.error (firstTypeError zeroDegree ms)
    | some d => Except.ok d

/-- The text scans as the value, when a comma or a closing brace follows
it. -/
def ScansAs (vt : List Char) (v : JValue) : Prop :=
  ∀ (fuel : Nat) (d : Char) (rest : List Char), d = ',' ∨ d = '\x7d' →
    skipWS (vt ++ d :: rest) = vt ++ d :: rest ∧
      parseValue (fuel + 1) (vt ++ d :: rest) = some (v, d :: rest)

/-- A degree as Go can hold it and json can write it: the integers are in the
range of `int` and the float is finite. -/
def degree.Valid (d : degree) : Prop :=
  inIntRange d.DegreeId ∧ inIntRange d.Duration ∧ inIntRange d.PassingYear ∧
    inIntRange d.AllowedViews ∧ d.Cgpa.bits < infBits

/-! ## The ledger stub and the response -/

/-- The chaincode stub, as far as the chaincode uses it: the world state (the
value under each key, if any) and, for each of the two calls, the error it
fails with, if it fails, as a function of the arguments of the call. A
transaction returns its response together with the stub it leaves. -/
structure Stub where
  state : String → Option String
  getFailure : String → Option String
  putFailure : String → String → Option String

/-- The call `stub.GetState(key)`: the error, or the value under the key (`none` is
Go's `nil`: the key is absent). -/
def Stub.GetState (stub : Stub) (key : String) : Except String (Option String) :=
  match stub.getFailure key with
  | some e => Except.error e
  | none => Except.ok (stub.state key)

/-- The stub whose world state has the value under the key and is otherwise
as before. -/
def Stub.withValue (stub : Stub) (key value : String) : Stub :=
  { stub with state := fun k => if k = key then some value else stub.state k }

/-- The call `stub.PutState(key, value)`: the error, or the stub with the value under
the key. -/
def Stub.PutState (stub : Stub) (key value : String) : Except String Stub :=
  match stub.putFailure key value with
  | some e => Except.error e
  | none => Except.ok (stub.withValue key value)

/-- A `peer.Response`: `shim.Success(payload)` or `shim.Error(message)`. -/
inductive Response
  | Success (payload : Option String)
  | Error (message : String)
  deriving DecidableEq, Repr

/-- The bytes of a marshalled degree where the chaincode discards the error
of `json.Marshal` (`degreeJSONasBytes, _ := json.Marshal(updatedDegree)`):
the empty slice on an error. -/
def marshalBytes (d : degree) : String :=
  match Marshal d with
  | Except.ok b => b
  | Except.error _ => ""

/-! ## The chaincode -/

/-- The transaction `createDegree` (lines 71-176). `strings.ToLower` returns
no error, so the checks of `err1` and `err2` never fire and are left out; the
`float64` of `ParseFloat(_, 32)` is the `float32` stored. The id in the
message of an existing degree is written in decimal. -/
def createDegree (table : Char → Char) (stub : Stub) (args : List String) : Response × Stub :=
  match args with
  | [a0, a1, a2, a3, a4, a5, a6] =>
    if a0.length ≤ 0 then (Response.Error "1st argument must be a non-empty string", stub)
    else if a1.length ≤ 0 then (Response.Error "2nd argument must be a non-empty string", stub)
    else if a2.length ≤ 0 then (Response.Error "3rd argument must be a non-empty string", stub)
    else if a3.length ≤ 0 then (Response.Error "4th argument must be a non-empty string", stub)
    else if a4.length ≤ 0 then (Response.Error "5th argument must be a non-empty string", stub)
    else if a5.length ≤ 0 then (Response.Error "6th argument must be a non-empty string", stub)
    else if a6.length ≤ 0 then (Response.Error "7th argument must be a non-empty string", stub)
    else
      let degreeId := (Atoi a0).1
      let studentName := ToLower table a1
      let instituteName := ToLower table a2
      let duration := (Atoi a3).1
      let passingYear := (Atoi a4).1
      let cgpa := (ParseFloat32 a5).1
      let allowedViews := (Atoi a6).1
      if (Atoi a0).2 ≠ none then (Response.Error "1st argument must be a numeric string", stub)
      else if (Atoi a3).2 ≠ none then (Response.Error "4th argument must be a numeric string", stub)
      else if (Atoi a4).2 ≠ none then (Response.Error "5th argument must be a numeric string", stub)
      else if (ParseFloat32 a5).2 ≠ none then
        (Response.Error "6th argument must be a numeric string", stub)
      else if (Atoi a6).2 ≠ none then (Response.Error "7th argument must be a numeric string", stub)
      else
        match stub.GetState (Itoa degreeId) with
        | Except.error e => (Response.Error ("Failed to get degree: " ++ e), stub)
        | Except.ok (some _) =>
          (Response.Error ("This degree already exists: " ++ Itoa degreeId), stub)
        | Except.ok none =>
          match Marshal ⟨"degree", degreeId, studentName, instituteName, duration, passingYear,
              cgpa, allowedViews⟩ with
          | Except.error e => (Response.Error e.Error, stub)
          | Except.ok degreeJSONasBytes =>
            match stub.PutState (Itoa degreeId) degreeJSONasBytes with
            | Except.error e => (Response.Error e, stub)
            | Except.ok stub1 => (Response.Success none, stub1)
  | _ => (Response.Error "Incorrect number of arguments. Expecting 7", stub)

/-- The transaction `invokeDegreeAccess` (lines 180-218). The errors of the
two `strconv.Atoi` calls are not looked at: an argument that does not parse
counts as the value `Atoi` returns with the error. -/
def invokeDegreeAccess (stub : Stub) (args : List String) : Response × Stub :=
  match args with
  | a0 :: a1 :: _ =>
    let degreeId := (Atoi a0).1
    let newAllowedViews := (Atoi a1).1
    match stub.GetState (Itoa degreeId) with
    | Except.error e => (Response.Error ("Failed to get degree:" ++ e), stub)
    | Except.ok none => (Response.Error "Degree does not exist", stub)
    | Except.ok (some degreeAsBytes) =>
      match Unmarshal degreeAsBytes with
      | Except.error e => (Response.Error e.Error, stub)
      | Except.ok updatedDegree =>
        match stub.PutState (Itoa degreeId) (marshalBytes { updatedDegree with
            AllowedViews := wrapInt (updatedDegree.AllowedViews + newAllowedViews) }) with
        | Except.error e => (Response.Error e, stub)
        | Except.ok stub1 => (Response.Success none, stub1)
  | _ => (Response.Error "Incorrect number of arguments. Expecting 2", stub)

/-- The transaction `viewDegree` (lines 222-260). The error of `strconv.Atoi`
is not looked at; the id in the messages is written in decimal. On success the
payload is `valAsbytes`, the bytes read before the decrement. -/
def viewDegree (stub : Stub) (args : List String) : Response × Stub :=
  match args with
  | [a0] =>
    let degreeId := (Atoi a0).1
    match stub.GetState (Itoa degreeId) with
    | Except.error _ =>
      (Response.Error ("\x7b\"Error\":\"Failed to get state for " ++ Itoa degreeId ++ "\"\x7d"),
        stub)
    | Except.ok none =>
      (Response.Error ("\x7b\"Error\":\"Degree does not exist: " ++ Itoa degreeId ++ "\"\x7d"),
        stub)
    | Except.ok (some valAsbytes) =>
      match Unmarshal valAsbytes with
      | Except.error e => (Response.Error e.Error, stub)
      | Except.ok updatedDegree =>
        if updatedDegree.AllowedViews ≤ 0 then
          (Response.Error ("\x7b\"Error\":\"No rights to view degree " ++ Itoa degreeId
            ++ "\"\x7d"), stub)
        else
          match stub.PutState (Itoa degreeId) (marshalBytes { updatedDegree with
              AllowedViews := wrapInt (updatedDegree.AllowedViews - 1) }) with
          | Except.error e => (Response.Error e, stub)
          | Except.ok stub1 => (Response.Success (some valAsbytes), stub1)
  | _ => (Response.Error "Incorrect number of arguments. Expecting ID of the Degree to query",
      stub)

/-- The transaction `revokeDegreeAccess` (lines 264-301). The error of
`strconv.Atoi` is not looked at. -/
def revokeDegreeAccess (stub : Stub) (args : List String) : Response × Stub :=
  match args with
  | [a0] =>
    let degreeId := (Atoi a0).1
    match stub.GetState (Itoa degreeId) with
    | Except.error e => (Response.Error ("Failed to get degree:" ++ e), stub)
    | Except.ok none => (Response.Error "Degree does not exist", stub)
    | Except.ok (some degreeAsBytes) =>
      match Unmarshal degreeAsBytes with
      | Except.error e => (Response.Error e.Error, stub)
      | Except.ok updatedDegree =>
        match stub.PutState (Itoa degreeId) (marshalBytes { updatedDegree with
            AllowedViews := 0 }) with
        | Except.error e => (Response.Error e, stub)
        | Except.ok stub1 => (Response.Success none, stub1)
  | _ => (Response.Error "Incorrect number of arguments. Expecting ID of the Degree to query",
      stub)

/-- The entry point `Invoke` (lines 50-67) on the function name and the
parameters of the invocation. The name `revokeAccess` is routed to the method
the source defines as `revokeDegreeAccess`. -/
def Invoke (table : Char → Char) (stub : Stub) (function : String) (args : List String) :
    Response × Stub :=
  if function = "createDegree" then createDegree table stub args
  else if function = "invokeDegreeAccess" then invokeDegreeAccess stub args
  else if function = "viewDegree" then viewDegree stub args
  else if function = "revokeAccess" then revokeDegreeAccess stub args
  else (Response.Error "Received unknown function invocation", stub)

/-- The calls of `stub.PutState` that `createDegree` makes, each with its key
and its value. The transaction has one call site (line 168): it is reached
when no check of lines 80 to 142 fails, `GetState` finds nothing under the key
and `json.Marshal` succeeds; every return before it makes no call. A call that
fails counts as a call. The stub `createDegree` returns is the stub after
these calls, see `createDegree_applyPuts`. -/
def createDegreePuts (table : Char → Char) (stub : Stub) (args : List String) :
    List (String × String) :=
  match args with
  | [a0, a1, a2, a3, a4, a5, a6] =>
    if a0.length ≤ 0 ∨ a1.length ≤ 0 ∨ a2.length ≤ 0 ∨ a3.length ≤ 0 ∨ a4.length ≤ 0 ∨
        a5.length ≤ 0 ∨ a6.length ≤ 0 then []
    else if (Atoi a0).2 ≠ none ∨ (Atoi a3).2 ≠ none ∨ (Atoi a4).2 ≠ none ∨
        (ParseFloat32 a5).2 ≠ none ∨ (Atoi a6).2 ≠ none then []
    else
      match stub.GetState (Itoa (Atoi a0).1) with
      | Except.error _ => []
      | Except.ok (some _) => []
      | Except.ok none =>
        match Marshal ⟨"degree", (Atoi a0).1, ToLower table a1, ToLower table a2, (Atoi a3).1,
            (Atoi a4).1, (ParseFloat32 a5).1, (Atoi a6).1⟩ with
        | Except.error _ => []
        | Except.ok degreeJSONasBytes => [(Itoa (Atoi a0).1, degreeJSONasBytes)]
  | _ => []

/-- The stub after a list of `PutState` calls, of which those that fail leave
it as it is. -/
def applyPuts : Stub → List (String × String) → Stub
  | stub, [] => stub
  | stub, (k, v) :: puts =>
    match stub.PutState k v with
    | Except.ok stub1 => applyPuts stub1 puts
    | Except.error _ => applyPuts stub puts

/-! ## Runs and sample stubs -/

/-- The stub holds the degree under the key: `GetState` succeeds there with
bytes that decode to the degree. -/
def Holds (stub : Stub) (key : String) (d : degree) : Prop :=
  stub.getFailure key = none ∧ ∃ b, stub.state key = some b ∧ Unmarshal b = Except.ok d

/-- Viewing is blocked under the key: the stub holds a degree there whose
number of views is not positive. -/
def Blocked (stub : Stub) (key : String) : Prop :=
  ∃ r, Holds stub key r ∧ r.AllowedViews ≤ 0

/-- The id a transaction's arguments name: the value `strconv.Atoi` gives for
the first argument. -/
def argsId (args : List String) : Int := (Atoi (args.headD "")).1

/-- The stub after `n` consecutive `viewDegree` calls with the same
argument. -/
def viewTimes (arg : String) : Nat → Stub → Stub
  | 0, stub => stub
  | n + 1, stub => viewTimes arg n (viewDegree stub [arg]).2

/-- The stub after a sequence of invocations, each a function name with its
parameters. -/
def runCalls (table : Char → Char) : Stub → List (String × List String) → Stub
  | stub, [] => stub
  | stub, call :: calls => runCalls table (Invoke table stub call.1 call.2).2 calls

/-- Whether an invocation is an `invokeDegreeAccess` that reaches the degree
with this id. -/
def grantsTo (id : Int) (call : String × List String) : Prop :=
  call.1 = "invokeDegreeAccess" ∧ ∃ a0 a1 rest, call.2 = a0 :: a1 :: rest ∧ (Atoi a0).1 = id

/-- The arguments `createDegree` validates: seven non-empty strings of which
the first, fourth, fifth and seventh parse as `int` and the sixth as a
float. -/
def wellFormedArgs (args : List String) : Prop :=
  ∃ a0 a1 a2 a3 a4 a5 a6, args = [a0, a1, a2, a3, a4, a5, a6] ∧
    0 < a0.length ∧ 0 < a1.length ∧ 0 < a2.length ∧ 0 < a3.length ∧ 0 < a4.length ∧
    0 < a5.length ∧ 0 < a6.length ∧
    (Atoi a0).2 = none ∧ (Atoi a3).2 = none ∧ (Atoi a4).2 = none ∧
    (ParseFloat32 a5).2 = none ∧ (Atoi a6).2 = none

/-- A stub with an empty world state whose calls never fail. -/
def emptyStub : Stub := ⟨fun _ => none, fun _ => none, fun _ _ => none⟩

/-- The arguments of the scenario of the specification. -/
def janeArgs : List String := ["1", "Jane Doe", "MIT", "4", "2020", "3.9", "2"]

/-- The stub after creating the degree of the scenario. -/
def janeStub : Stub := (createDegree id emptyStub janeArgs).2

/-- The bytes of the degree of the scenario with the given number of
views. -/
def janeBytes (views : String) : String :=
  "\x7b\"docType\":\"degree\",\"degreeid\":1,\"studentname\":\"jane doe\"," ++
  "\"institutename\":\"mit\",\"duration\":4,\"passingyear\":2020,\"cgpa\":3.9," ++
  "\"allowedviews\":" ++ views ++ "\x7d"

/-- The degree of the scenario with the given number of views. -/
def janeDegree (views : Int) : degree :=
  ⟨"degree", 1, "jane doe", "mit", 4, 2020, ⟨false, 1081711002⟩, views⟩

/-- The stub of the scenario after its views are used up. -/
def exhaustedStub : Stub := viewTimes "1" 2 janeStub

/-- The arguments of the example in the comments of `createDegree`. -/
def anasArgs : List String := ["1", "muhammad anas", "BU", "4", "2019", "3.42", "0"]

/-- A stub whose degree 1 has the largest number of allowed views. -/
def maxViewsStub : Stub :=
  (createDegree id emptyStub ["1", "a", "b", "4", "2020", "3.5", "9223372036854775807"]).2

/-- A stub whose degree 7 has a negative number of allowed views. -/
def negativeViewsStub : Stub :=
  (createDegree id emptyStub ["7", "Ann", "X", "3", "2021", "2.5", "-3"]).2

/-- The degree 7 of `negativeViewsStub`. -/
def annDegree : degree := ⟨"degree", 7, "ann", "x", 3, 2021, ⟨false, 1075838976⟩, -3⟩

/-- The degree 1 of `maxViewsStub`. -/
def maxViewsDegree : degree :=
  ⟨"degree", 1, "a", "b", 4, 2020, ⟨false, 1080033280⟩, 9223372036854775807⟩

/-- Arguments for a second degree with the id of the scenario. -/
def johnArgs : List String := ["1", "John Roe", "Yale", "3", "2019", "2.1", "9"]

/-- Well-formed arguments whose grade point average is not a number. -/
def nanArgs : List String := ["1", "Jane Doe", "MIT", "4", "2020", "NaN", "2"]

/-- One degree agrees with another on every field but the number of allowed
views. -/
def SameButViews (r r1 : degree) : Prop :=
  r1.ObjectType = r.ObjectType ∧ r1.DegreeId = r.DegreeId ∧ r1.StudentName = r.StudentName ∧
    r1.InstituteName = r.InstituteName ∧ r1.Duration = r.Duration ∧
    r1.PassingYear = r.PassingYear ∧ r1.Cgpa = r.Cgpa

/-- A stub with an empty world state whose `GetState` fails with the given
error. -/
def failingGetStub (e : String) : Stub := ⟨fun _ => none, fun _ => some e, fun _ _ => none⟩

/-- The stub after creating a degree with the id 0 and 2 allowed views. -/
def zeroIdStub : Stub :=
  (createDegree id emptyStub ["0", "Jane Doe", "MIT", "4", "2020", "3.9", "2"]).2

/-- The bytes of the degree of `zeroIdStub` with the given number of
views. -/
def zeroIdBytes (views : String) : String :=
  "\x7b\"docType\":\"degree\",\"degreeid\":0,\"studentname\":\"jane doe\"," ++
  "\"institutename\":\"mit\",\"duration\":4,\"passingyear\":2020,\"cgpa\":3.9," ++
  "\"allowedviews\":" ++ views ++ "\x7d"

/-- Whether a message can name an argument by its position counted from 1,
as the messages of `createDegree` do (`1st argument must be ...`): it has a
decimal digit in it. The test is generous: it also passes a message that
names a count. -/
def namesPosition (m : String) : Bool := m.data.any isDigit

/-- The degree of the scenario with a grade point average that is not a
number. -/
def nanDegree : degree := ⟨"degree", 1, "jane doe", "mit", 4, 2020, ⟨false, nanBits⟩, 2⟩

/-- A degree whose strings need escaping and whose numbers are zero or
negative. -/
def oddDegree : degree := ⟨"degree", -5, "o\"neil <b>\n", "\\x & y", 0, -44, ⟨true, 0⟩, -1⟩

/-- A json object that has two of the eight fields of a degree. -/
def partialBytes : String := "\x7b\"degreeid\":1,\"allowedviews\":2\x7d"

/-- A stub whose key 1 holds the object of `partialBytes`. -/
def partialStub : Stub := emptyStub.withValue "1" partialBytes

/-- What `partialBytes` decodes to: the fields it lacks are zero. -/
def partialDegree (views : Int) : degree := ⟨"", 1, "", "", 0, 0, ⟨false, 0⟩, views⟩

/-- The bytes json writes for `partialDegree` with the given views. -/
def partialWritten (views : String) : String :=
  "\x7b\"docType\":\"\",\"degreeid\":1,\"studentname\":\"\",\"institutename\":\"\"," ++
  "\"duration\":0,\"passingyear\":0,\"cgpa\":0,\"allowedviews\":" ++ views ++ "\x7d"

/-- A text that breaks off inside an object. -/
def truncatedBytes : String := "\x7b\"docType\":\"degree\",\"degreeid\":1"

/-- A stub whose key 1 holds the text of `truncatedBytes`. -/
def truncatedStub : Stub := emptyStub.withValue "1" truncatedBytes

/-- An object whose `degreeid` is a string. -/
def wrongTypeBytes : String := "\x7b\"docType\":\"degree\",\"degreeid\":\"1\"\x7d"

/-- A stub whose key 1 holds the object of `wrongTypeBytes`. -/
def wrongTypeStub : Stub := emptyStub.withValue "1" wrongTypeBytes

/-- The world state is consistent: every present key holds bytes that decode
to a degree whose `docType` is `degree` and whose id has that key as its
decimal string. -/
def Consistent (stub : Stub) : Prop :=
  ∀ k b, stub.state k = some b →
    ∃ r, Unmarshal b = Except.ok r ∧ r.ObjectType = "degree" ∧ Itoa r.DegreeId = k

/-- A run that creates a degree and then calls with an id that does not
parse, with its own id, with an unknown name and with a second creation. -/
def sampleCalls : List (String × List String) :=
  [("createDegree", janeArgs), ("viewDegree", ["abc"]), ("viewDegree", ["1"]),
   ("deleteDegree", ["1"]), ("createDegree", johnArgs), ("invokeDegreeAccess", ["x", "5"])]

/-! ## Decimal digits -/

theorem digitChar_isDigit (k : Nat) (h : k < 10) : isDigit (Nat.digitChar k) = true := by
  interval_cases k <;> rfl

theorem digitChar_val (k : Nat) (h : k < 10) : digitVal (Nat.digitChar k) = k := by
  interval_cases k <;> rfl

theorem digitChar_ne_zero (k : Nat) (h : k < 10) (hk : 0 < k) : Nat.digitChar k ≠ '0' := by
  interval_cases k <;> decide

theorem natDigitsAux_acc (fuel : Nat) : ∀ (n : Nat) (acc : List Char),
    natDigitsAux fuel n acc = natDigitsAux fuel n [] ++ acc := by
  induction fuel with
  | zero => intro n acc; simp [natDigitsAux]
  | succ f ih =>
    intro n acc
    by_cases h : n < 10
    · simp [natDigitsAux, h]
    · simp only [natDigitsAux, h, if_false]
      rw [ih (n / 10) (Nat.digitChar (n % 10) :: acc), ih (n / 10) [Nat.digitChar (n % 10)]]
      simp

theorem natDigitsAux_fuel (f1 : Nat) : ∀ (f2 n : Nat) (acc : List Char), n < f1 → n < f2 →
    natDigitsAux f1 n acc = natDigitsAux f2 n acc := by
  induction f1 with
  | zero => intro f2 n acc h; omega
  | succ f ih =>
    intro f2 n acc h1 h2
    cases f2 with
    | zero => omega
    | succ g =>
      by_cases h : n < 10
      · simp [natDigitsAux, h]
      · simp only [natDigitsAux, h, if_false]
        exact ih g (n / 10) _ (by omega) (by omega)

theorem natDigits_small (n : Nat) (h : n < 10) : natDigits n = [Nat.digitChar n] := by
  simp [natDigits, natDigitsAux, h]

theorem natDigits_step (n : Nat) (h : 10 ≤ n) :
    natDigits n = natDigits (n / 10) ++ [Nat.digitChar (n % 10)] := by
  have h10 : ¬ n < 10 := by omega
  have h1 : natDigits n = natDigitsAux n (n / 10) [Nat.digitChar (n % 10)] := by
    simp [natDigits, natDigitsAux, h10]
  rw [h1, natDigitsAux_acc,
    natDigitsAux_fuel n (n / 10 + 1) (n / 10) [] (by omega) (by omega)]
  rfl

theorem digitsValue_append (a b : List Char) : ∀ acc : Nat,
    digitsValue (a ++ b) acc = digitsValue b (digitsValue a acc) := by
  induction a with
  | nil => intro acc; rfl
  | cons c cs ih => intro acc; simp [digitsValue, ih]

theorem natDigits_value (n : Nat) : digitsValue (natDigits n) 0 = n := by
  induction n using Nat.strong_induction_on with
  | _ n ih =>
    by_cases h : n < 10
    · rw [natDigits_small n h]; simp [digitsValue, digitChar_val n h]
    · rw [natDigits_step n (by omega), digitsValue_append, ih (n / 10) (by omega)]
      simp only [digitsValue]
      rw [digitChar_val _ (Nat.mod_lt _ (by omega))]
      omega

theorem natDigits_allDigits (n : Nat) : ∀ c ∈ natDigits n, isDigit c = true := by
  induction n using Nat.strong_induction_on with
  | _ n ih =>
    by_cases h : n < 10
    · rw [natDigits_small n h]
      intro c hc
      simp only [List.mem_singleton] at hc
      rw [hc]; exact digitChar_isDigit n h
    · rw [natDigits_step n (by omega)]
      intro c hc
      rcases List.mem_append.mp hc with h1 | h1
      · exact ih (n / 10) (by omega) c h1
      · simp only [List.mem_singleton] at h1
        rw [h1]; exact digitChar_isDigit _ (Nat.mod_lt _ (by omega))

/-- The digits of a number start with a digit, which is not `0` unless the
number is 0. -/
theorem natDigits_head (n : Nat) : ∃ c cs, natDigits n = c :: cs ∧ isDigit c = true ∧
    (0 < n → c ≠ '0') := by
  induction n using Nat.strong_induction_on with
  | _ n ih =>
    by_cases h : n < 10
    · exact ⟨Nat.digitChar n, [], natDigits_small n h, digitChar_isDigit n h,
        fun hn => digitChar_ne_zero n h hn⟩
    · obtain ⟨c, cs, hcs, hd, hz⟩ := ih (n / 10) (by omega)
      refine ⟨c, cs ++ [Nat.digitChar (n % 10)], ?_, hd, fun _ => hz (by omega)⟩
      rw [natDigits_step n (by omega), hcs]; rfl

theorem natDigits_ne_nil (n : Nat) : natDigits n ≠ [] := by
  obtain ⟨c, cs, h, _⟩ := natDigits_head n
  rw [h]; simp

theorem natDigits_injective (a b : Nat) (h : natDigits a = natDigits b) : a = b := by
  rw [← natDigits_value a, ← natDigits_value b, h]

theorem digitsValue_ge (ds : List Char) : ∀ acc : Nat, acc ≤ digitsValue ds acc := by
  induction ds with
  | nil => intro acc; exact Nat.le_refl _
  | cons c cs ih =>
    intro acc
    simp only [digitsValue]
    exact Nat.le_trans (by omega) (ih _)

theorem parseUintLoop_digits (ds : List Char) : ∀ acc : Nat,
    (∀ c ∈ ds, isDigit c = true) → digitsValue ds acc ≤ maxUint64 →
    parseUintLoop ds acc = (digitsValue ds acc, none) := by
  induction ds with
  | nil => intro acc _ _; rfl
  | cons c cs ih =>
    intro acc hd hle
    have hc : isDigit c = true := hd c (List.mem_cons_self _ _)
    have h1 : acc * 10 + digitVal c ≤ maxUint64 :=
      Nat.le_trans (digitsValue_ge cs _) hle
    have h2 : ¬ acc ≥ maxUint64 / 10 + 1 := by
      have : maxUint64 = 18446744073709551615 := by rfl
      omega
    have h3 : ¬ acc * 10 + digitVal c > maxUint64 := by omega
    simp only [parseUintLoop, hc, if_true, h2, if_false, h3]
    exact ih _ (fun x hx => hd x (List.mem_cons_of_mem _ hx)) hle

theorem ParseUint_natDigits (n : Nat) (h : n ≤ maxUint64) :
    ParseUint (natDigits n) = (n, none) := by
  obtain ⟨c, cs, hcs, _, _⟩ := natDigits_head n
  have := parseUintLoop_digits (natDigits n) 0 (natDigits_allDigits n)
    (by rw [natDigits_value]; exact h)
  rw [natDigits_value] at this
  rw [hcs] at this ⊢
  exact this

theorem isDigit_ne_sign (c : Char) (h : isDigit c = true) : c ≠ '+' ∧ c ≠ '-' := by
  constructor
  · intro hc; rw [hc] at h; exact absurd h (by decide)
  · intro hc; rw [hc] at h; exact absurd h (by decide)

/-- Parsing the decimal text of an `int` gives the `int` back, without
error. -/
theorem ParseInt_itoaChars (i : Int) (h : inIntRange i) : ParseInt (itoaChars i) = (i, none) := by
  obtain ⟨hlo, hhi⟩ := h
  obtain ⟨c, cs, hcs, hd, _⟩ := natDigits_head i.natAbs
  have hmax : maxUint64 = 18446744073709551615 := by rfl
  have hu : ParseUint (natDigits i.natAbs) = (i.natAbs, none) :=
    ParseUint_natDigits _ (by rw [hmax]; omega)
  by_cases hneg : i < 0
  · have hb : ParseUint (natDigits i.natAbs) = (i.natAbs, none) := hu
    simp only [itoaChars, hneg, if_true, ParseInt]
    simp only [beq_self_eq_true, Bool.or_true, if_true, hb]
    have h4 : ¬ (9223372036854775808 < i.natAbs) := by omega
    simp [h4]
    rw [abs_of_neg hneg, neg_neg]
  · obtain ⟨hp, hm⟩ := isDigit_ne_sign c hd
    simp only [itoaChars, hneg, if_false, hcs, ParseInt]
    have hb1 : (c == '+') = false := by simpa using hp
    have hb2 : (c == '-') = false := by simpa using hm
    rw [hcs] at hu
    simp only [hb1, hb2, Bool.or_false, Bool.false_eq_true, if_false, hu]
    have h4 : ¬ (9223372036854775808 ≤ i.natAbs) := by omega
    simp [h4]
    exact not_lt.mp hneg

theorem itoaChars_injective (i j : Int) (h : itoaChars i = itoaChars j) : i = j := by
  obtain ⟨c, cs, hcs, hd, _⟩ := natDigits_head i.natAbs
  obtain ⟨c', cs', hcs', hd', _⟩ := natDigits_head j.natAbs
  unfold itoaChars at h
  by_cases hi : i < 0 <;> by_cases hj : j < 0
  · simp only [hi, hj, if_true, List.cons.injEq, true_and] at h
    have := natDigits_injective _ _ h
    omega
  · simp only [hi, hj, if_true, if_false] at h
    rw [hcs'] at h
    simp only [List.cons.injEq] at h
    exact absurd h.1.symm (isDigit_ne_sign c' hd').2
  · simp only [hi, hj, if_true, if_false] at h
    rw [hcs] at h
    simp only [List.cons.injEq] at h
    exact absurd h.1 (isDigit_ne_sign c hd).2
  · simp only [hi, hj, if_false] at h
    have := natDigits_injective _ _ h
    omega

/-- Distinct ids have distinct keys. -/
theorem Itoa_injective (i j : Int) (h : Itoa i = Itoa j) : i = j := by
  unfold Itoa at h
  exact itoaChars_injective i j (by injection h)

theorem Atoi_Itoa (i : Int) (h : inIntRange i) : Atoi (Itoa i) = (i, none) := by
  unfold Atoi Itoa
  exact ParseInt_itoaChars i h

/-! ## Rounding to float32 -/

theorem scaled_split (e m : Nat) (hm : m < 2 ^ 23) :
    scaled (e * 2 ^ 23 + m) = if e = 0 then m else (2 ^ 23 + m) * 2 ^ (e - 1) := by
  have h1 : (e * 2 ^ 23 + m) / 2 ^ 23 = e := by
    rw [Nat.add_comm, Nat.add_mul_div_right _ _ (by norm_num), Nat.div_eq_of_lt hm, Nat.zero_add]
  have h2 : (e * 2 ^ 23 + m) % 2 ^ 23 = m := by
    rw [Nat.add_comm, Nat.add_mul_mod_self_right, Nat.mod_eq_of_lt hm]
  unfold scaled
  rw [h1, h2]

theorem scaled_lt_succ (k : Nat) : scaled k < scaled (k + 1) := by
  have hk : k = k / 2 ^ 23 * 2 ^ 23 + k % 2 ^ 23 := by
    rw [Nat.mul_comm]; exact (Nat.div_add_mod k (2 ^ 23)).symm
  have hm : k % 2 ^ 23 < 2 ^ 23 := Nat.mod_lt _ (by norm_num)
  generalize k / 2 ^ 23 = e at hk
  generalize k % 2 ^ 23 = m at hk hm
  subst hk
  by_cases hlast : m + 1 < 2 ^ 23
  · rw [Nat.add_assoc, scaled_split e m hm, scaled_split e (m + 1) hlast]
    by_cases he : e = 0
    · simp [he]
    · simp only [he, if_false]
      have hp : 0 < 2 ^ (e - 1) := Nat.pow_pos (by norm_num)
      exact Nat.mul_lt_mul_of_pos_right (by omega) hp
  · have hm1 : m + 1 = 2 ^ 23 := by omega
    have hnext : e * 2 ^ 23 + m + 1 = (e + 1) * 2 ^ 23 + 0 := by
      rw [Nat.add_assoc, hm1]; ring
    rw [hnext, scaled_split e m hm, scaled_split (e + 1) 0 (by norm_num)]
    by_cases he : e = 0
    · simp [he]; omega
    · simp only [he, if_false, Nat.succ_ne_zero, Nat.add_sub_cancel, Nat.add_zero]
      obtain ⟨e', rfl⟩ : ∃ e', e = e' + 1 := ⟨e - 1, by omega⟩
      simp only [Nat.add_sub_cancel]
      have hp : 0 < 2 ^ e' := Nat.pow_pos (by norm_num)
      rw [pow_succ]
      calc (2 ^ 23 + m) * 2 ^ e' < (2 ^ 23 * 2) * 2 ^ e' :=
            Nat.mul_lt_mul_of_pos_right (by omega) hp
        _ = 2 ^ 23 * (2 ^ e' * 2) := by ring

theorem scaled_strictMono : StrictMono scaled := strictMono_nat_of_lt_succ scaled_lt_succ

theorem scaled_pos (k : Nat) (h : 0 < k) : 0 < scaled k := by
  have h0 : scaled 0 = 0 := by decide
  have := scaled_strictMono h
  omega

/-- The binary search finds the pattern `t` when the patterns at most `N / D`
are exactly those up to `t`. -/
theorem searchBits_eq (N D t : Nat) (hP : ∀ k, scaled k * D ≤ N * 2 ^ 149 ↔ k ≤ t) :
    ∀ (b k0 : Nat), k0 ≤ t → t < k0 + 2 ^ b → searchBits N D b k0 = t := by
  intro b
  induction b with
  | zero => intro k0 h1 h2; simp only [searchBits]; simp at h2; omega
  | succ b ih =>
    intro k0 h1 h2
    simp only [searchBits]
    by_cases hk : k0 + 2 ^ b ≤ t
    · rw [if_pos ((hP _).mpr hk)]
      exact ih _ hk (by rw [pow_succ] at h2; omega)
    · rw [if_neg (fun h => hk ((hP _).mp h))]
      exact ih _ h1 (by omega)

/-- Rounding the exact value of a float gives the float: `N / D` is the
magnitude of the pattern `t`. -/
theorem roundBits_exact (N D t : Nat) (hD : 0 < D) (ht : t < 2 ^ 31)
    (hND : N * 2 ^ 149 = scaled t * D) : roundBits N D = t := by
  have hP : ∀ k, scaled k * D ≤ N * 2 ^ 149 ↔ k ≤ t := by
    intro k
    rw [hND]
    constructor
    · intro h
      exact scaled_strictMono.le_iff_le.mp (Nat.le_of_mul_le_mul_right h hD)
    · intro h
      exact Nat.mul_le_mul_right _ (scaled_strictMono.le_iff_le.mpr h)
  have hs : searchBits N D 31 0 = t := searchBits_eq N D t hP 31 0 (Nat.zero_le _) (by omega)
  have hlt : scaled t < scaled (t + 1) := scaled_lt_succ t
  have hmid : 2 * N * 2 ^ 149 < (scaled t + scaled (t + 1)) * D := by
    have : 2 * N * 2 ^ 149 = (scaled t + scaled t) * D := by
      rw [Nat.mul_assoc, hND]; ring
    rw [this]
    exact Nat.mul_lt_mul_of_pos_right (by omega) hD
  unfold roundBits
  simp only [hs]
  rw [if_neg]
  rintro (h | ⟨h, _⟩) <;> omega

/-! ## Parsing float text -/

theorem spanDigits_digits (ds : List Char) (h : ∀ c ∈ ds, isDigit c = true) :
    spanDigits ds = (ds, []) := by
  induction ds with
  | nil => rfl
  | cons c cs ih =>
    have hc := h c (List.mem_cons_self _ _)
    have ih' := ih (fun x hx => h x (List.mem_cons_of_mem _ hx))
    simp [spanDigits, hc, ih']

theorem spanDigits_append_cons (ds : List Char) (c : Char) (r : List Char)
    (h : ∀ x ∈ ds, isDigit x = true) (hc : isDigit c = false) :
    spanDigits (ds ++ c :: r) = (ds, c :: r) := by
  induction ds with
  | nil => simp [spanDigits, hc]
  | cons d ds ih =>
    have hd := h d (List.mem_cons_self _ _)
    have ih' := ih (fun x hx => h x (List.mem_cons_of_mem _ hx))
    simp [spanDigits, hd, ih']

theorem lowerAscii_digit (c : Char) (h : isDigit c = true) : lowerAscii c = c := by
  unfold isDigit at h
  simp only [Bool.and_eq_true, decide_eq_true_eq] at h
  unfold lowerAscii
  rw [if_neg]
  omega

/-- A text that starts with a digit, or with a minus sign and a digit, is not
one of the special names of `ParseFloat`, so it is read as a number
literal. -/
theorem ParseFloat32_signed_digit (neg : Bool) (c : Char) (cs : List Char)
    (hc : isDigit c = true) :
    ParseFloat32 (String.mk ((if neg then ['-'] else []) ++ c :: cs)) =
      match parseLiteral ((if neg then ['-'] else []) ++ c :: cs) with
      | none => (⟨false, 0⟩, some NumError.ErrSyntax)
      | some b =>
        if b ≥ infBits then (⟨neg, infBits⟩, some NumError.ErrRange) else (⟨neg, b⟩, none) := by
  have hlow := lowerAscii_digit c hc
  have hn : c ≠ 'n' := by intro h; rw [h] at hc; exact absurd hc (by decide)
  have hi : c ≠ 'i' := by intro h; rw [h] at hc; exact absurd hc (by decide)
  obtain ⟨hp, hm⟩ := isDigit_ne_sign c hc
  have hb1 : (c == '+') = false := by simpa using hp
  have hb2 : (c == '-') = false := by simpa using hm
  have hinf1 : ¬ (List.map lowerAscii (c :: cs) = "inf".data) := by
    intro h
    have : lowerAscii c = 'i' := by
      have h' : (lowerAscii c :: List.map lowerAscii cs) = 'i' :: ['n', 'f'] := h
      exact (List.cons.inj h').1
    rw [hlow] at this; exact hi this
  have hinf2 : ¬ (List.map lowerAscii (c :: cs) = "infinity".data) := by
    intro h
    have : lowerAscii c = 'i' := by
      have h' : (lowerAscii c :: List.map lowerAscii cs) = 'i' :: "nfinity".data := h
      exact (List.cons.inj h').1
    rw [hlow] at this; exact hi this
  cases neg with
  | true =>
    have hnan : ¬ (List.map lowerAscii ('-' :: c :: cs) = "nan".data) := by
      intro h
      have h' : (lowerAscii '-' :: List.map lowerAscii (c :: cs)) = 'n' :: ['a', 'n'] := h
      exact absurd (List.cons.inj h').1 (by decide)
    have hds : dropSign ('-' :: c :: cs) = c :: cs := by simp [dropSign]
    have hsm : startsWithMinus ('-' :: c :: cs) = true := by simp [startsWithMinus]
    simp only [ParseFloat32, if_true, List.singleton_append, hnan, if_false, hds, hinf1, hinf2,
      or_self, hsm]
  | false =>
    have hnan : ¬ (List.map lowerAscii (c :: cs) = "nan".data) := by
      intro h
      have h' : (lowerAscii c :: List.map lowerAscii cs) = 'n' :: ['a', 'n'] := h
      have := (List.cons.inj h').1
      rw [hlow] at this; exact hn this
    have hds : dropSign (c :: cs) = c :: cs := by simp [dropSign, hb1, hb2]
    have hsm : startsWithMinus (c :: cs) = false := by simp [startsWithMinus, hb2]
    simp only [ParseFloat32, Bool.false_eq_true, if_false, List.nil_append, hnan, hds, hinf1,
      hinf2, or_self, hsm]

/-- A literal that starts with a digit, has no underscore and no `x` after
its first digit is read as a decimal. -/
theorem parseLiteral_decimal (neg : Bool) (c : Char) (cs : List Char) (hc : isDigit c = true)
    (hu : ∀ x ∈ cs, x ≠ '_') (hx : ∀ x ∈ cs.head?, x ≠ 'x' ∧ x ≠ 'X') :
    parseLiteral ((if neg then ['-'] else []) ++ c :: cs) = parseDecimal (c :: cs) := by
  obtain ⟨hp, hm⟩ := isDigit_ne_sign c hc
  have hcu : c ≠ '_' := by intro h; rw [h] at hc; exact absurd hc (by decide)
  have hall : ∀ x ∈ c :: cs, x ≠ '_' := by
    intro x hx'
    rcases List.mem_cons.mp hx' with h | h
    · rw [h]; exact hcu
    · exact hu x h
  have hds : dropSign ((if neg then ['-'] else []) ++ c :: cs) = c :: cs := by
    cases neg
    · simp [dropSign, hp, hm]
    · simp [dropSign]
  have hany : ((if neg then ['-'] else []) ++ c :: cs).any (fun c => c == '_') = false := by
    cases neg
    · simpa using hall
    · simp only [if_true, List.singleton_append, List.any_cons, Bool.or_eq_false_iff]
      exact ⟨by decide, by simpa using hall⟩
  have hfil : (c :: cs).filter (fun c => c != '_') = c :: cs := by
    rw [List.filter_eq_self]
    intro x hx'
    simpa using hall x hx'
  unfold parseLiteral
  rw [hany, hds, hfil]
  simp only [Bool.false_and, Bool.false_eq_true, if_false]
  unfold parseUnsigned
  cases cs with
  | nil => rfl
  | cons c1 rest =>
    have h1 := hx c1 (by simp)
    simp only
    rw [if_neg]
    rintro ⟨_, h | h⟩
    · exact h1.1 h
    · exact h1.2 h

theorem parseDecimal_exact (N : Nat) (hN : 0 < N) :
    parseDecimal (natDigits N ++ "e-149".data) = some (roundBits N (10 ^ 149)) := by
  have hspan : spanDigits (natDigits N ++ "e-149".data) = (natDigits N, "e-149".data) :=
    spanDigits_append_cons (natDigits N) 'e' ['-', '1', '4', '9'] (natDigits_allDigits N)
      (by decide)
  have hexp : parseExponent "e-149".data = some (-149) := by decide
  have hap : afterPoint "e-149".data = none := by decide
  unfold parseDecimal
  simp only [hspan, hap, List.append_nil, hexp, natDigits_value]
  rw [if_neg (natDigits_ne_nil N)]
  simp only [List.length_nil, Nat.cast_zero, sub_zero, Option.some.injEq]
  unfold decimalBits
  rw [if_neg (by omega), if_neg (by omega), if_neg (by omega), if_neg (by omega)]
  rfl

/-- The exact expansion of a finite non-zero float parses back to it. -/
theorem ParseFloat32_exact (neg : Bool) (bits : Nat) (h0 : bits ≠ 0) (hfin : bits < infBits) :
    ParseFloat32 (String.mk ((if neg then ['-'] else []) ++ natDigits (scaled bits * 5 ^ 149)
      ++ "e-149".data)) = (⟨neg, bits⟩, none) := by
  have hS : 0 < scaled bits := scaled_pos bits (Nat.pos_of_ne_zero h0)
  have hN : 0 < scaled bits * 5 ^ 149 := Nat.mul_pos hS (by norm_num)
  obtain ⟨c, cs, hcs, hd, _⟩ := natDigits_head (scaled bits * 5 ^ 149)
  have hinf : infBits = 2139095040 := by rfl
  have hround : roundBits (scaled bits * 5 ^ 149) (10 ^ 149) = bits := by
    apply roundBits_exact _ _ _ (by norm_num) (by omega)
    have : (10 : Nat) ^ 149 = 5 ^ 149 * 2 ^ 149 := by norm_num
    rw [this]; ring
  have hdec := parseDecimal_exact _ hN
  rw [hround, hcs] at hdec
  have := ParseFloat32_signed_digit neg c (cs ++ "e-149".data) hd
  have hdig : ∀ x ∈ cs, isDigit x = true := by
    intro x hx
    exact natDigits_allDigits (scaled bits * 5 ^ 149) x (by rw [hcs]; exact List.mem_cons_of_mem _ hx)
  have hlit := parseLiteral_decimal neg c (cs ++ "e-149".data) hd
    (by
      have he : ∀ x ∈ "e-149".data, x ≠ '_' := by decide
      intro x hx
      rcases List.mem_append.mp hx with h | h
      · intro hxu; subst hxu; exact absurd (hdig '_' h) (by decide)
      · exact he x h)
    (by
      cases cs with
      | nil => decide
      | cons c1 rest =>
        intro x hx
        simp only [List.cons_append, List.head?_cons, Option.mem_def, Option.some.injEq] at hx
        subst hx
        have := hdig c1 (by simp)
        constructor <;> intro h <;> rw [h] at this <;> exact absurd this (by decide))
  rw [List.append_assoc, hcs]
  rw [List.cons_append] at hdec ⊢
  rw [this, hlit, hdec]
  simp only [ge_iff_le]
  rw [if_neg (by omega)]

/-- A candidate the search picks is the text of a positive decimal and
parses back to the float. -/
theorem pickCandidate_spec (neg useE : Bool) (bits L : Nat) (q : Int) (p : Bool)
    (t : List Char) (h : pickCandidate neg useE bits L q p = some t) :
    (∃ M, 0 < M ∧ t = decimalText neg useE M q) ∧
      ParseFloat32 (String.mk t) = (⟨neg, bits⟩, none) := by
  unfold pickCandidate at h
  by_cases hL : L = 0
  · simp [hL] at h
  · have hLpos : 0 < L := Nat.pos_of_ne_zero hL
    by_cases hlo : parsesTo (decimalText neg useE L q) neg bits = true <;>
      by_cases hhi : parsesTo (decimalText neg useE (L + 1) q) neg bits = true
    · cases p
      · simp [hL, hlo, hhi] at h; rw [← h]
        exact ⟨⟨L + 1, by omega, rfl⟩, by simpa [parsesTo] using hhi⟩
      · simp [hL, hlo, hhi] at h; rw [← h]
        exact ⟨⟨L, hLpos, rfl⟩, by simpa [parsesTo] using hlo⟩
    · simp [hL, hlo, hhi] at h; rw [← h]
      exact ⟨⟨L, hLpos, rfl⟩, by simpa [parsesTo] using hlo⟩
    · simp [hL, hlo, hhi] at h; rw [← h]
      exact ⟨⟨L + 1, by omega, rfl⟩, by simpa [parsesTo] using hhi⟩
    · simp [hL, hlo, hhi] at h

theorem shortestAt_spec (neg useE : Bool) (bits n : Nat) (t : List Char)
    (h : shortestAt neg useE bits n = some t) :
    (∃ M q, 0 < M ∧ t = decimalText neg useE M q) ∧
      ParseFloat32 (String.mk t) = (⟨neg, bits⟩, none) := by
  unfold shortestAt at h
  obtain ⟨⟨M, hM, ht⟩, hp⟩ := pickCandidate_spec _ _ _ _ _ _ _ h
  exact ⟨⟨M, _, hM, ht⟩, hp⟩

/-- The number text of a finite float parses back to the float, without
error. -/
theorem ParseFloat32_formatFloat32 (f : Float32) (hfin : f.bits < infBits) :
    ParseFloat32 (String.mk (formatFloat32 f)) = (f, none) := by
  obtain ⟨neg, bits⟩ := f
  simp only at hfin
  unfold formatFloat32
  by_cases h0 : bits = 0
  · subst h0
    cases neg <;> decide
  · simp only [h0, if_false]
    split
    · rename_i t ht
      obtain ⟨i, _, hi⟩ := List.exists_of_findSome?_eq_some ht
      exact (shortestAt_spec _ _ _ _ _ hi).2
    · exact ParseFloat32_exact neg bits h0 hfin

/-! ## The number text is a json number -/

theorem spanDigits_append (ds tail : List Char) (h : ∀ x ∈ ds, isDigit x = true)
    (ht : spanDigits tail = ([], tail)) : spanDigits (ds ++ tail) = (ds, tail) := by
  induction ds with
  | nil => simpa using ht
  | cons d ds ih =>
    have hd := h d (List.mem_cons_self _ _)
    have ih' := ih (fun x hx => h x (List.mem_cons_of_mem _ hx))
    simp [spanDigits, hd, ih']

theorem spanDigits_stop (c : Char) (r : List Char) (hc : isDigit c = false) :
    spanDigits (c :: r) = ([], c :: r) := by
  simp [spanDigits, hc]

theorem isNumChar_of_isDigit (c : Char) (h : isDigit c = true) : isNumChar c = true := by
  simp [isNumChar, h]

theorem validExp_signed (sg : Char) (xs : List Char) (hsg : sg = '+' ∨ sg = '-')
    (hx : ∀ x ∈ xs, isDigit x = true) (hne : xs ≠ []) : validExp ('e' :: sg :: xs) = true := by
  have hds : dropSign (sg :: xs) = xs := by
    rcases hsg with h | h <;> simp [dropSign, h]
  simp [validExp, hds, spanDigits_digits xs hx, hne]

theorem validFrac_point (fs tail : List Char) (hf : ∀ x ∈ fs, isDigit x = true) (hne : fs ≠ [])
    (ht : spanDigits tail = ([], tail)) : validFrac ('.' :: (fs ++ tail)) = validExp tail := by
  simp [validFrac, spanDigits_append fs tail hf ht, hne]

theorem validUnsigned_digits (c : Char) (ds tail : List Char) (hc : isDigit c = true)
    (h0 : c ≠ '0') (hd : ∀ x ∈ ds, isDigit x = true) (ht : spanDigits tail = ([], tail)) :
    validUnsigned (c :: (ds ++ tail)) = validFrac tail := by
  simp [validUnsigned, h0, hc, spanDigits_append ds tail hd ht]

theorem stripZeros_pos (fuel : Nat) : ∀ (M : Nat) (q : Int), 0 < M → 0 < (stripZeros fuel M q).1 := by
  induction fuel with
  | zero => intro M q h; simpa [stripZeros] using h
  | succ f ih =>
    intro M q h
    simp only [stripZeros]
    split
    · rename_i hz
      exact ih _ _ (by omega)
    · exact h

/-- The json number grammar without the sign, and the characters a number
token is scanned by. -/
theorem layoutE_valid (c : Char) (cs : List Char) (dp : Int) (hc : isDigit c = true)
    (h0 : c ≠ '0') (hd : ∀ x ∈ cs, isDigit x = true) :
    validUnsigned (layoutE (c :: cs) dp) = true ∧
      ∀ x ∈ layoutE (c :: cs) dp, isNumChar x = true := by
  have hX := natDigits_allDigits (dp - 1).natAbs
  have hXne := natDigits_ne_nil (dp - 1).natAbs
  have hsg : (if dp - 1 < 0 then '-' else '+') = '+' ∨ (if dp - 1 < 0 then '-' else '+') = '-' := by
    split <;> simp
  have hexp := validExp_signed _ _ hsg hX hXne
  have hstop : spanDigits ('e' :: (if dp - 1 < 0 then '-' else '+') :: natDigits (dp - 1).natAbs)
      = ([], 'e' :: (if dp - 1 < 0 then '-' else '+') :: natDigits (dp - 1).natAbs) :=
    spanDigits_stop _ _ (by decide)
  have hsgnum : isNumChar (if dp - 1 < 0 then '-' else '+') = true := by split <;> decide
  cases cs with
  | nil =>
    constructor
    · have := validUnsigned_digits c [] _ hc h0 (by simp) hstop
      simp only [List.nil_append] at this
      simp only [layoutE, List.cons_append, List.nil_append]
      rw [this]
      simpa [validFrac] using hexp
    · intro x hx
      simp only [layoutE, List.cons_append, List.nil_append, List.mem_cons] at hx
      rcases hx with h | h | h | h
      · rw [h]; exact isNumChar_of_isDigit c hc
      · rw [h]; decide
      · rw [h]; exact hsgnum
      · exact isNumChar_of_isDigit x (hX x h)
  | cons c1 cs1 =>
    constructor
    · have h1 := validUnsigned_digits c [] ('.' :: ((c1 :: cs1) ++
          'e' :: (if dp - 1 < 0 then '-' else '+') :: natDigits (dp - 1).natAbs)) hc h0 (by simp)
          (spanDigits_stop _ _ (by decide))
      have h2 := validFrac_point (c1 :: cs1)
          ('e' :: (if dp - 1 < 0 then '-' else '+') :: natDigits (dp - 1).natAbs) hd (by simp) hstop
      simp only [List.nil_append] at h1
      simp only [layoutE, List.cons_append, List.nil_append]
      simp only [List.cons_append] at h1 h2
      rw [h1, h2]
      exact hexp
    · intro x hx
      simp only [layoutE, List.cons_append, List.nil_append, List.mem_cons, List.mem_append] at hx
      rcases hx with h | h | h | h | h | h | h
      · rw [h]; exact isNumChar_of_isDigit c hc
      · rw [h]; decide
      · rw [h]; exact isNumChar_of_isDigit c1 (hd c1 (List.mem_cons_self _ _))
      · exact isNumChar_of_isDigit x (hd x (List.mem_cons_of_mem _ h))
      · rw [h]; decide
      · rw [h]; exact hsgnum
      · exact isNumChar_of_isDigit x (hX x h)

theorem layoutE_number (c : Char) (cs : List Char) (dp : Int) (hc : isDigit c = true)
    (h0 : c ≠ '0') (hd : ∀ x ∈ cs, isDigit x = true) :
    UnsignedNumberText (layoutE (c :: cs) dp) := by
  obtain ⟨h1, h2⟩ := layoutE_valid c cs dp hc h0 hd
  refine ⟨h1, h2, ?_⟩
  cases cs with
  | nil => exact ⟨c, _, rfl, hc⟩
  | cons c1 cs1 => exact ⟨c, _, rfl, hc⟩

theorem replicate_zero_digits (k : Nat) : ∀ x ∈ List.replicate k '0', isDigit x = true := by
  intro x hx
  rw [(List.mem_replicate.mp hx).2]; rfl

theorem layoutF_number (c : Char) (cs : List Char) (dp : Int) (hc : isDigit c = true)
    (h0 : c ≠ '0') (hd : ∀ x ∈ cs, isDigit x = true) :
    UnsignedNumberText (layoutF (c :: cs) dp) := by
  have hall : ∀ x ∈ c :: cs, isDigit x = true := by
    intro x hx
    rcases List.mem_cons.mp hx with h | h
    · rw [h]; exact hc
    · exact hd x h
  unfold layoutF
  by_cases h1 : dp ≤ 0
  · rw [if_pos h1]
    have hzd : ∀ x ∈ List.replicate (-dp).toNat '0' ++ c :: cs, isDigit x = true := by
      intro x hx
      rcases List.mem_append.mp hx with h | h
      · exact replicate_zero_digits _ x h
      · exact hall x h
    refine ⟨?_, ?_, '0', _, rfl, by decide⟩
    · have := validFrac_point (List.replicate (-dp).toNat '0' ++ c :: cs) [] hzd (by simp) rfl
      simp only [List.append_nil] at this
      simp only [validUnsigned, if_true]
      rw [this]; rfl
    · intro x hx
      rcases List.mem_cons.mp hx with h | h
      · rw [h]; decide
      · rcases List.mem_cons.mp h with h | h
        · rw [h]; decide
        · exact isNumChar_of_isDigit x (hzd x h)
  · rw [if_neg h1]
    by_cases h2 : dp.toNat < (c :: cs).length
    · rw [if_pos h2]
      obtain ⟨k, hk⟩ : ∃ k, dp.toNat = k + 1 := ⟨dp.toNat - 1, by omega⟩
      rw [hk] at h2 ⊢
      have htake : ∀ x ∈ List.take k cs, isDigit x = true :=
        fun x hx => hd x (List.mem_of_mem_take hx)
      have hdrop : ∀ x ∈ List.drop (k + 1) (c :: cs), isDigit x = true :=
        fun x hx => hall x (List.mem_of_mem_drop hx)
      have hdne : List.drop (k + 1) (c :: cs) ≠ [] := by
        intro h
        have := congrArg List.length h
        simp only [List.length_drop, List.length_nil] at this
        omega
      refine ⟨?_, ?_, c, _, rfl, hc⟩
      · have a1 := validUnsigned_digits c (List.take k cs)
          ('.' :: List.drop (k + 1) (c :: cs)) hc h0 htake (spanDigits_stop _ _ (by decide))
        have a2 := validFrac_point (List.drop (k + 1) (c :: cs)) [] hdrop hdne rfl
        simp only [List.append_nil] at a2
        simp only [List.take_succ_cons, List.cons_append]
        rw [a1, a2]; rfl
      · intro x hx
        rcases List.mem_append.mp hx with h | h
        · exact isNumChar_of_isDigit x (hall x (List.mem_of_mem_take h))
        · rcases List.mem_cons.mp h with h | h
          · rw [h]; decide
          · exact isNumChar_of_isDigit x (hdrop x h)
    · rw [if_neg h2]
      have hzd : ∀ x ∈ cs ++ List.replicate (dp.toNat - (c :: cs).length) '0',
          isDigit x = true := by
        intro x hx
        rcases List.mem_append.mp hx with h | h
        · exact hd x h
        · exact replicate_zero_digits _ x h
      refine ⟨?_, ?_, c, _, rfl, hc⟩
      · have a1 := validUnsigned_digits c (cs ++ List.replicate (dp.toNat - (c :: cs).length) '0')
          [] hc h0 hzd rfl
        simp only [List.append_nil] at a1
        simp only [List.cons_append]
        rw [a1]; rfl
      · intro x hx
        rcases List.mem_cons.mp hx with h | h
        · rw [h]; exact isNumChar_of_isDigit c hc
        · exact isNumChar_of_isDigit x (hzd x h)

theorem signed_number (neg : Bool) (u : List Char) (h : UnsignedNumberText u) :
    NumberToken ((if neg then ['-'] else []) ++ u) := by
  obtain ⟨hv, hc, d, t, hu, hd⟩ := h
  cases neg with
  | true =>
    constructor
    · simpa [validNumber] using hv
    · intro x hx
      simp only [if_true, List.singleton_append, List.mem_cons] at hx
      rcases hx with h | h
      · rw [h]; decide
      · exact hc x h
  | false =>
    constructor
    · subst hu
      have hm : d ≠ '-' := (isDigit_ne_sign d hd).2
      simpa [validNumber, hm] using hv
    · intro x hx
      exact hc x (by simpa using hx)

theorem decimalText_number (neg useE : Bool) (M : Nat) (q : Int) (hM : 0 < M) :
    NumberToken (decimalText neg useE M q) := by
  obtain ⟨c, cs, hcs, hc, h0⟩ := natDigits_head (stripZeros 10 M q).1
  have hpos := stripZeros_pos 10 M q hM
  have hd : ∀ x ∈ cs, isDigit x = true := by
    intro x hx
    exact natDigits_allDigits (stripZeros 10 M q).1 x (by rw [hcs]; exact List.mem_cons_of_mem _ hx)
  unfold decimalText
  simp only [hcs]
  apply signed_number
  cases useE with
  | true => exact layoutE_number c cs _ hc (h0 hpos) hd
  | false => exact layoutF_number c cs _ hc (h0 hpos) hd

theorem exactText_number (neg : Bool) (N : Nat) (hN : 0 < N) :
    NumberToken ((if neg then ['-'] else []) ++ natDigits N ++ "e-149".data) := by
  obtain ⟨c, cs, hcs, hc, h0⟩ := natDigits_head N
  have hd : ∀ x ∈ cs, isDigit x = true := by
    intro x hx
    exact natDigits_allDigits N x (by rw [hcs]; exact List.mem_cons_of_mem _ hx)
  rw [List.append_assoc]
  apply signed_number
  rw [hcs]
  refine ⟨?_, ?_, c, _, rfl, hc⟩
  · have a1 := validUnsigned_digits c cs "e-149".data hc (h0 hN) hd (by decide)
    simp only [List.cons_append]
    rw [a1]; decide
  · intro x hx
    rcases List.mem_append.mp hx with h | h
    · rw [← hcs] at h
      exact isNumChar_of_isDigit x (natDigits_allDigits N x h)
    · have key : ∀ y ∈ "e-149".data, isNumChar y = true := by decide
      exact key x h

/-- The number text of a finite float is a json number token. -/
theorem formatFloat32_number (f : Float32) : NumberToken (formatFloat32 f) := by
  obtain ⟨neg, bits⟩ := f
  unfold formatFloat32
  by_cases h0 : bits = 0
  · subst h0
    cases neg <;> exact ⟨by decide, by decide⟩
  · simp only [h0, if_false]
    split
    · rename_i t ht
      obtain ⟨i, _, hi⟩ := List.exists_of_findSome?_eq_some ht
      obtain ⟨⟨M, q, hM, hMt⟩, _⟩ := shortestAt_spec _ _ _ _ _ hi
      rw [hMt]
      exact decimalText_number _ _ M q hM
    · exact exactText_number neg _
        (Nat.mul_pos (scaled_pos bits (Nat.pos_of_ne_zero h0)) (by norm_num))

/-- The decimal text of an integer is a json number token. -/
theorem itoaChars_number (i : Int) : NumberToken (itoaChars i) := by
  obtain ⟨c, cs, hcs, hc, h0⟩ := natDigits_head i.natAbs
  have hall := natDigits_allDigits i.natAbs
  have hd : ∀ x ∈ cs, isDigit x = true := by
    intro x hx
    exact hall x (by rw [hcs]; exact List.mem_cons_of_mem _ hx)
  have hu : UnsignedNumberText (natDigits i.natAbs) := by
    rw [hcs]
    refine ⟨?_, ?_, c, _, rfl, hc⟩
    · by_cases hz : c = '0'
      · have hi0 : i.natAbs = 0 := by
          by_contra hne
          exact h0 (Nat.pos_of_ne_zero hne) hz
        have : natDigits i.natAbs = ['0'] := by rw [hi0]; rfl
        rw [hcs] at this
        rw [this]; decide
      · have a1 := validUnsigned_digits c cs [] hc hz hd rfl
        simp only [List.append_nil] at a1
        rw [a1]; rfl
    · intro x hx
      rw [← hcs] at hx
      exact isNumChar_of_isDigit x (hall x hx)
  have := signed_number (decide (i < 0)) _ hu
  unfold itoaChars
  by_cases hneg : i < 0
  · simpa [hneg] using this
  · simpa [hneg] using this

/-! ## Scanning what `Marshal` writes -/

theorem hex4_escape : ∀ n : Nat, n < 128 →
    hex4 '0' '0' (hexDigit (n / 16)) (hexDigit (n % 16)) = some n := by
  decide

theorem scanStringFrom_quote (rest : List Char) :
    scanStringFrom none ('"' :: rest) = some ([], rest) := by
  rw [scanStringFrom.eq_def]
  simp [flushPending]

theorem scanStringFrom_plain (c : Char) (r : List Char) (h1 : c ≠ '"') (h2 : c ≠ '\\')
    (h3 : ¬ c.toNat < 32) :
    scanStringFrom none (c :: r) = pushChar c (scanStringFrom none r) := by
  rw [scanStringFrom.eq_def]
  simp [h1, h2, h3, flushPending]

theorem scanStringFrom_short (e c : Char) (r : List Char)
    (h : (e = '"' ∧ c = '"') ∨ (e = '\\' ∧ c = '\\') ∨ (e = 'n' ∧ c = '\n')
      ∨ (e = 'r' ∧ c = '\r') ∨ (e = 't' ∧ c = '\t')) :
    scanStringFrom none ('\\' :: e :: r) = pushChar c (scanStringFrom none r) := by
  rw [scanStringFrom.eq_def]
  rcases h with ⟨he, hc⟩ | ⟨he, hc⟩ | ⟨he, hc⟩ | ⟨he, hc⟩ | ⟨he, hc⟩ <;>
    subst he <;> subst hc <;> simp [flushPending]

theorem scanStringFrom_control (e : Char) (n : Nat) (r : List Char)
    (h : (e = 'b' ∧ n = 8) ∨ (e = 'f' ∧ n = 12)) :
    scanStringFrom none ('\\' :: e :: r) = pushChar (Char.ofNat n) (scanStringFrom none r) := by
  rw [scanStringFrom.eq_def]
  rcases h with ⟨he, hn⟩ | ⟨he, hn⟩ <;> subst he <;> subst hn <;> simp [flushPending]

theorem scanStringFrom_unicode (a b c d : Char) (u : Nat) (r : List Char)
    (h : hex4 a b c d = some u) (hu : u < 0xD800 ∨ 0xE000 ≤ u) :
    scanStringFrom none ('\\' :: 'u' :: a :: b :: c :: d :: r) =
      pushChar (Char.ofNat u) (scanStringFrom none r) := by
  rw [scanStringFrom.eq_def]
  have h1 : ¬ (0xDC00 ≤ u ∧ u < 0xE000) := by omega
  have h2 : ¬ (0xD800 ≤ u ∧ u < 0xDC00) := by omega
  simp [h, h1, h2, flushPending]

theorem pushChar_some (c : Char) (s rest : List Char) :
    pushChar c (some (s, rest)) = some (c :: s, rest) := rfl

/-- Scanning the escaped characters of a string up to the closing quote gives
the string back. -/
theorem scanString_escapeChars (s : List Char) (rest : List Char) :
    scanString (escapeChars s ++ '"' :: rest) = some (s, rest) := by
  unfold scanString
  induction s with
  | nil => exact scanStringFrom_quote rest
  | cons c cs ih =>
    simp only [escapeChars, List.append_assoc]
    unfold escapeChar
    by_cases h1 : c = '"'
    · rw [if_pos h1]
      simp only [List.cons_append, List.nil_append]
      rw [scanStringFrom_short '"' c _ (Or.inl ⟨rfl, h1⟩), ih, pushChar_some]
    rw [if_neg h1]
    by_cases h2 : c = '\\'
    · rw [if_pos h2]
      simp only [List.cons_append, List.nil_append]
      rw [scanStringFrom_short '\\' c _ (Or.inr (Or.inl ⟨rfl, h2⟩)), ih, pushChar_some]
    rw [if_neg h2]
    by_cases hb : c.toNat = 8
    · rw [if_pos hb]
      simp only [List.cons_append, List.nil_append]
      rw [scanStringFrom_control 'b' 8 _ (Or.inl ⟨rfl, rfl⟩), ih, pushChar_some, ← hb,
        Char.ofNat_toNat]
    rw [if_neg hb]
    by_cases hf : c.toNat = 12
    · rw [if_pos hf]
      simp only [List.cons_append, List.nil_append]
      rw [scanStringFrom_control 'f' 12 _ (Or.inr ⟨rfl, rfl⟩), ih, pushChar_some, ← hf,
        Char.ofNat_toNat]
    rw [if_neg hf]
    by_cases h3 : c = '\n'
    · rw [if_pos h3]
      simp only [List.cons_append, List.nil_append]
      rw [scanStringFrom_short 'n' c _ (Or.inr (Or.inr (Or.inl ⟨rfl, h3⟩))), ih, pushChar_some]
    rw [if_neg h3]
    by_cases h4 : c = '\r'
    · rw [if_pos h4]
      simp only [List.cons_append, List.nil_append]
      rw [scanStringFrom_short 'r' c _ (Or.inr (Or.inr (Or.inr (Or.inl ⟨rfl, h4⟩)))), ih,
        pushChar_some]
    rw [if_neg h4]
    by_cases h5 : c = '\t'
    · rw [if_pos h5]
      simp only [List.cons_append, List.nil_append]
      rw [scanStringFrom_short 't' c _ (Or.inr (Or.inr (Or.inr (Or.inr ⟨rfl, h5⟩)))), ih,
        pushChar_some]
    rw [if_neg h5]
    by_cases h6 : c.toNat < 32 ∨ c = '<' ∨ c = '>' ∨ c = '&'
    · rw [if_pos h6]
      have hlt : c.toNat < 128 := by
        rcases h6 with h | h | h | h
        · omega
        · rw [h]; decide
        · rw [h]; decide
        · rw [h]; decide
      simp only [List.cons_append, List.nil_append]
      rw [scanStringFrom_unicode _ _ _ _ c.toNat _ (hex4_escape c.toNat hlt) (Or.inl (by omega)),
        ih, pushChar_some, Char.ofNat_toNat]
    rw [if_neg h6]
    by_cases h7 : c.toNat = 0x2028
    · rw [if_pos h7]
      simp only [List.cons_append, List.nil_append]
      rw [scanStringFrom_unicode '2' '0' '2' '8' 0x2028 _ (by decide) (Or.inl (by omega)),
        ih, pushChar_some, ← h7, Char.ofNat_toNat]
    rw [if_neg h7]
    by_cases h8 : c.toNat = 0x2029
    · rw [if_pos h8]
      simp only [List.cons_append, List.nil_append]
      rw [scanStringFrom_unicode '2' '0' '2' '9' 0x2029 _ (by decide) (Or.inl (by omega)),
        ih, pushChar_some, ← h8, Char.ofNat_toNat]
    rw [if_neg h8]
    simp only [List.cons_append, List.nil_append]
    rw [scanStringFrom_plain c _ h1 h2 (fun h => h6 (Or.inl h)), ih, pushChar_some]

theorem spanNumber_token (t : List Char) (d : Char) (rest : List Char)
    (ht : ∀ x ∈ t, isNumChar x = true) (hd : isNumChar d = false) :
    spanNumber (t ++ d :: rest) = (t, d :: rest) := by
  induction t with
  | nil => simp [spanNumber, hd]
  | cons c cs ih =>
    have hc := ht c (List.mem_cons_self _ _)
    have ih' := ih (fun x hx => ht x (List.mem_cons_of_mem _ hx))
    simp [spanNumber, hc, ih']

/-- A string value is scanned back to its text. -/
theorem parseValue_string (fuel : Nat) (s : String) (rest : List Char) :
    parseValue (fuel + 1) (encodeString s ++ rest) = some (JValue.string s.data, rest) := by
  have h := scanString_escapeChars s.data rest
  unfold encodeString
  simp only [List.cons_append, List.append_assoc, List.nil_append]
  rw [parseValue]
  simp [h]

/-- A number token before a character that no number contains is scanned as
that token. -/
theorem parseValue_number (fuel : Nat) (t : List Char) (d : Char) (rest : List Char)
    (ht : NumberToken t) (hd : isNumChar d = false) :
    parseValue (fuel + 1) (t ++ d :: rest) = some (JValue.number t, d :: rest) := by
  obtain ⟨hv, hc⟩ := ht
  have hspan := spanNumber_token t d rest hc hd
  cases t with
  | nil => exact absurd hv (by decide)
  | cons c cs =>
    have hcn : isNumChar c = true := hc c (List.mem_cons_self _ _)
    have e1 : c ≠ '\x7b' := by intro h; rw [h] at hcn; exact absurd hcn (by decide)
    have e2 : c ≠ '[' := by intro h; rw [h] at hcn; exact absurd hcn (by decide)
    have e3 : c ≠ '"' := by intro h; rw [h] at hcn; exact absurd hcn (by decide)
    have e4 : c ≠ 't' := by intro h; rw [h] at hcn; exact absurd hcn (by decide)
    have e5 : c ≠ 'f' := by intro h; rw [h] at hcn; exact absurd hcn (by decide)
    have e6 : c ≠ 'n' := by intro h; rw [h] at hcn; exact absurd hcn (by decide)
    rw [List.cons_append] at hspan ⊢
    rw [parseValue]
    simp [e1, e2, e3, e4, e5, e6, hspan, hv]

/-! ## `Unmarshal` after `Marshal` -/

theorem skipWS_cons (c : Char) (r : List Char)
    (h : ¬ (c = ' ' ∨ c = '\t' ∨ c = '\r' ∨ c = '\n')) : skipWS (c :: r) = c :: r := by
  simp [skipWS, h]

theorem scansAs_string (s : String) : ScansAs (encodeString s) (JValue.string s.data) := by
  intro fuel d rest _
  refine ⟨?_, parseValue_string fuel s (d :: rest)⟩
  unfold encodeString
  exact skipWS_cons _ _ (by decide)

theorem scansAs_number (t : List Char) (ht : NumberToken t) : ScansAs t (JValue.number t) := by
  intro fuel d rest hd
  have hdn : isNumChar d = false := by
    rcases hd with h | h <;> rw [h] <;> decide
  refine ⟨?_, parseValue_number fuel t d rest ht hdn⟩
  obtain ⟨hv, hc⟩ := ht
  cases t with
  | nil => exact absurd hv (by decide)
  | cons c cs =>
    have hcn : isNumChar c = true := hc c (List.mem_cons_self _ _)
    apply skipWS_cons
    rintro (h | h | h | h) <;> rw [h] at hcn <;> exact absurd hcn (by decide)

/-- Scanning the text of an object gives its members back: the keys with the
values their texts scan as. -/
theorem parseMembers_objectText (ms : List (String × List Char)) :
    ∀ (vs : List JValue) (fuel : Nat) (rest : List Char), ms ≠ [] →
      List.Forall₂ (fun m v => ScansAs m.2 v) ms vs →
      parseMembers (fuel + ms.length + 1) (objectText ms ++ rest) =
        some (List.zipWith (fun m v => (m.1.data, v)) ms vs, rest) := by
  induction ms with
  | nil => intro vs fuel rest h; exact absurd rfl h
  | cons m ms ih =>
    intro vs fuel rest _ hall
    obtain ⟨k, vt⟩ := m
    cases hall with
    | cons hv htail =>
      rename_i v vs'
      cases ms with
      | nil =>
        cases htail
        obtain ⟨hws, hpv⟩ := hv (fuel + 0) '\x7d' rest (Or.inr rfl)
        simp only at hws hpv
        have hkey := scanString_escapeChars k.data (':' :: (vt ++ '\x7d' :: rest))
        simp only [objectText, encodeString, List.cons_append, List.append_assoc,
          List.nil_append, List.length_singleton, List.zipWith_cons_cons, List.zipWith_nil_left]
        rw [parseMembers]
        simp only [List.head?_cons, List.tail_cons, if_true, hkey]
        rw [skipWS_cons ':' _ (by decide)]
        simp only [List.head?_cons, List.tail_cons, if_true, hws]
        rw [show fuel + 1 = fuel + 0 + 1 from rfl, hpv]
        simp only []
        rw [skipWS_cons '\x7d' _ (by decide)]
        simp
      | cons m2 ms2 =>
        obtain ⟨hws, hpv⟩ := hv (fuel + (m2 :: ms2).length) ','
          (objectText (m2 :: ms2) ++ rest) (Or.inl rfl)
        simp only at hws hpv
        have hkey := scanString_escapeChars k.data
          (':' :: (vt ++ ',' :: (objectText (m2 :: ms2) ++ rest)))
        have ih' := ih vs' fuel rest (by simp) htail
        have hnext : ∃ r, objectText (m2 :: ms2) ++ rest = '"' :: r := by
          obtain ⟨k2, v2⟩ := m2
          cases ms2 <;> exact ⟨_, by simp [objectText, encodeString]; rfl⟩
        obtain ⟨r, hr⟩ := hnext
        simp only [objectText, encodeString, List.cons_append, List.append_assoc,
          List.nil_append, List.zipWith_cons_cons]
        have hlen : fuel + ((k, vt) :: m2 :: ms2).length + 1
            = (fuel + (m2 :: ms2).length + 1) + 1 := by
          simp only [List.length_cons]; omega
        rw [hlen, parseMembers]
        simp only [List.head?_cons, List.tail_cons, if_true, hkey]
        rw [skipWS_cons ':' _ (by decide)]
        simp only [List.head?_cons, List.tail_cons, if_true, hws, hpv]
        rw [skipWS_cons ',' _ (by decide)]
        simp only [List.head?_cons, List.tail_cons, if_true]
        rw [hr, skipWS_cons '"' _ (by decide), ← hr, ih']

theorem objectText_length (ms : List (String × List Char)) :
    ms.length ≤ (objectText ms).length := by
  induction ms with
  | nil => simp
  | cons m ms ih =>
    obtain ⟨k, v⟩ := m
    cases ms with
    | nil => simp [objectText, encodeString]
    | cons m2 ms2 =>
      simp only [objectText, encodeString, List.length_cons, List.length_append] at ih ⊢
      omega

theorem objectText_head (ms : List (String × List Char)) (h : ms ≠ []) :
    ∃ r, objectText ms = '"' :: r := by
  cases ms with
  | nil => exact absurd rfl h
  | cons m ms =>
    obtain ⟨k, v⟩ := m
    cases ms <;> exact ⟨_, by simp [objectText, encodeString]; rfl⟩

/-- Scanning the text of a whole object gives its members back. -/
theorem parseTop_objectText (ms : List (String × List Char)) (vs : List JValue) (hne : ms ≠ [])
    (hall : List.Forall₂ (fun m v => ScansAs m.2 v) ms vs) :
    parseTop ('\x7b' :: objectText ms) =
      some (JTop.object (List.zipWith (fun m v => (m.1.data, v)) ms vs)) := by
  obtain ⟨r, hr⟩ := objectText_head ms hne
  have hlen := objectText_length ms
  obtain ⟨fuel, hfuel⟩ : ∃ fuel, ('\x7b' :: objectText ms).length + 1 = fuel + ms.length + 1 :=
    ⟨('\x7b' :: objectText ms).length - ms.length, by simp only [List.length_cons]; omega⟩
  have hpm := parseMembers_objectText ms vs fuel [] hne hall
  rw [List.append_nil] at hpm
  have hsk : skipWS (objectText ms) = objectText ms := by
    rw [hr]; exact skipWS_cons '"' _ (by decide)
  have hhead : (objectText ms).head? = some '"' := by rw [hr]; rfl
  unfold parseTop
  rw [hfuel, skipWS_cons '\x7b' _ (by decide)]
  simp only [List.head?_cons, List.tail_cons, if_true, hsk, hhead, hpm]
  rw [if_neg (by decide)]
  simp [skipWS]

theorem setField_docType (d : degree) (v : JValue) :
    setField d ['d', 'o', 'c', 'T', 'y', 'p', 'e'] v =
    (stringValue d.ObjectType v).map (fun x => { d with ObjectType := x }) := rfl

theorem setField_degreeid (d : degree) (v : JValue) :
    setField d ['d', 'e', 'g', 'r', 'e', 'e', 'i', 'd'] v =
    (intValue d.DegreeId v).map (fun x => { d with DegreeId := x }) := rfl

theorem setField_studentname (d : degree) (v : JValue) :
    setField d ['s', 't', 'u', 'd', 'e', 'n', 't', 'n', 'a', 'm', 'e'] v =
    (stringValue d.StudentName v).map (fun x => { d with StudentName := x }) := rfl

theorem setField_institutename (d : degree) (v : JValue) :
    setField d ['i', 'n', 's', 't', 'i', 't', 'u', 't', 'e', 'n', 'a', 'm', 'e'] v =
    (stringValue d.InstituteName v).map (fun x => { d with InstituteName := x }) := rfl

theorem setField_duration (d : degree) (v : JValue) :
    setField d ['d', 'u', 'r', 'a', 't', 'i', 'o', 'n'] v =
    (intValue d.Duration v).map (fun x => { d with Duration := x }) := rfl

theorem setField_passingyear (d : degree) (v : JValue) :
    setField d ['p', 'a', 's', 's', 'i', 'n', 'g', 'y', 'e', 'a', 'r'] v =
    (intValue d.PassingYear v).map (fun x => { d with PassingYear := x }) := rfl

theorem setField_cgpa (d : degree) (v : JValue) :
    setField d ['c', 'g', 'p', 'a'] v =
    (floatValue d.Cgpa v).map (fun x => { d with Cgpa := x }) := rfl

theorem setField_allowedviews (d : degree) (v : JValue) :
    setField d ['a', 'l', 'l', 'o', 'w', 'e', 'd', 'v', 'i', 'e', 'w', 's'] v =
    (intValue d.AllowedViews v).map (fun x => { d with AllowedViews := x }) := rfl

theorem intValue_itoaChars (old i : Int) (h : inIntRange i) :
    intValue old (JValue.number (itoaChars i)) = some i := by
  simp [intValue, ParseInt_itoaChars i h]

theorem floatValue_formatFloat32 (old f : Float32) (h : f.bits < infBits) :
    floatValue old (JValue.number (formatFloat32 f)) = some f := by
  simp [floatValue, ParseFloat32_formatFloat32 f h]

/-- The values the member texts of a degree scan as. -/
theorem degreeMembers_scan (d : degree) :
    List.Forall₂ (fun m v => ScansAs m.2 v) (degreeMembers d)
      [JValue.string d.ObjectType.data, JValue.number (itoaChars d.DegreeId),
       JValue.string d.StudentName.data, JValue.string d.InstituteName.data,
       JValue.number (itoaChars d.Duration), JValue.number (itoaChars d.PassingYear),
       JValue.number (formatFloat32 d.Cgpa), JValue.number (itoaChars d.AllowedViews)] := by
  unfold degreeMembers
  refine List.Forall₂.cons (scansAs_string _) (List.Forall₂.cons (scansAs_number _ (itoaChars_number _))
    (List.Forall₂.cons (scansAs_string _) (List.Forall₂.cons (scansAs_string _)
    (List.Forall₂.cons (scansAs_number _ (itoaChars_number _))
    (List.Forall₂.cons (scansAs_number _ (itoaChars_number _))
    (List.Forall₂.cons (scansAs_number _ (formatFloat32_number _))
    (List.Forall₂.cons (scansAs_number _ (itoaChars_number _)) List.Forall₂.nil)))))))

/-- Codec round trip on valid degrees: `Marshal` succeeds and `Unmarshal`
gives the degree back. -/
theorem Unmarshal_Marshal (d : degree) (hv : d.Valid) :
    ∃ b, Marshal d = Except.ok b ∧ Unmarshal b = Except.ok d := by
  obtain ⟨h1, h2, h3, h4, h5⟩ := hv
  have hfin : d.Cgpa.isFinite = true := by simp [Float32.isFinite, h5]
  refine ⟨String.mk ('\x7b' :: objectText (degreeMembers d)), by simp [Marshal, hfin], ?_⟩
  have hp := parseTop_objectText (degreeMembers d) _ (by simp [degreeMembers])
    (degreeMembers_scan d)
  unfold Unmarshal
  rw [hp]
  simp only [degreeMembers, List.zipWith_cons_cons, List.zipWith_nil_left, setFields,
    setField_docType, setField_degreeid, setField_studentname, setField_institutename,
    setField_duration, setField_passingyear, setField_cgpa, setField_allowedviews,
    intValue_itoaChars _ _ h1, intValue_itoaChars _ _ h2, intValue_itoaChars _ _ h3,
    intValue_itoaChars _ _ h4, floatValue_formatFloat32 _ _ h5, stringValue, Option.map_some']

theorem marshalBytes_roundtrip (d : degree) (hv : d.Valid) :
    Unmarshal (marshalBytes d) = Except.ok d := by
  obtain ⟨b, hb, hu⟩ := Unmarshal_Marshal d hv
  simp [marshalBytes, hb, hu]

/-! ## What `Unmarshal` returns is a valid degree -/

theorem ParseInt_range (t : List Char) (n : Int) (h : ParseInt t = (n, none)) : inIntRange n := by
  unfold ParseInt at h
  cases t with
  | nil => simp at h
  | cons c cs =>
    simp only at h
    split at h
    · simp at h
    · rename_i un e _ _
      by_cases h1 : (!(c == '-') && decide (un ≥ 2 ^ 63)) = true
      · rw [if_pos h1] at h; simp at h
      · rw [if_neg h1] at h
        by_cases h2 : ((c == '-') && decide (un > 2 ^ 63)) = true
        · rw [if_pos h2] at h; simp at h
        · rw [if_neg h2] at h
          simp only [Prod.mk.injEq, and_true] at h
          subst h
          unfold inIntRange
          by_cases hneg : (c == '-') = true
          · simp only [hneg, Bool.not_true, Bool.false_and, Bool.true_and, decide_eq_true_eq,
              if_true] at h1 h2 ⊢
            omega
          · simp only [hneg, Bool.not_false, Bool.true_and, Bool.false_and, decide_eq_true_eq,
              Bool.false_eq_true, if_false] at h1 h2 ⊢
            omega

theorem validUnsigned_head (u : List Char) (h : validUnsigned u = true) :
    ∃ c cs, u = c :: cs ∧ isDigit c = true := by
  cases u with
  | nil => exact absurd h (by decide)
  | cons c cs =>
    refine ⟨c, cs, rfl, ?_⟩
    by_cases h0 : c = '0'
    · rw [h0]; rfl
    · by_cases hd : isDigit c = true
      · exact hd
      · simp [validUnsigned, h0, hd] at h

/-- A json number token never parses to an infinity or a NaN without error. -/
theorem ParseFloat32_token_finite (t : List Char) (f : Float32) (hv : validNumber t = true)
    (h : ParseFloat32 (String.mk t) = (f, none)) : f.bits < infBits := by
  have key : ∀ (neg : Bool) (c : Char) (cs : List Char), isDigit c = true →
      ParseFloat32 (String.mk ((if neg then ['-'] else []) ++ c :: cs)) = (f, none) →
      f.bits < infBits := by
    intro neg c cs hc hp
    rw [ParseFloat32_signed_digit neg c cs hc] at hp
    cases hpd : parseLiteral ((if neg then ['-'] else []) ++ c :: cs) with
    | none => rw [hpd] at hp; simp at hp
    | some b =>
      rw [hpd] at hp
      simp only at hp
      by_cases hb : b ≥ infBits
      · rw [if_pos hb] at hp; simp at hp
      · rw [if_neg hb] at hp
        simp only [Prod.mk.injEq, and_true] at hp
        rw [← hp]; simp only; omega
  cases t with
  | nil => exact absurd hv (by decide)
  | cons c cs =>
    by_cases hm : c = '-'
    · subst hm
      simp only [validNumber, if_true] at hv
      obtain ⟨c', cs', hu, hd⟩ := validUnsigned_head cs hv
      subst hu
      exact key true c' cs' hd (by simpa using h)
    · simp only [validNumber, hm, if_false] at hv
      obtain ⟨c', cs', hu, hd⟩ := validUnsigned_head (c :: cs) hv
      rw [hu] at h
      exact key false c' cs' hd (by simpa using h)

theorem parseValue_number_valid (fuel : Nat) (cs : List Char) (t r : List Char)
    (h : parseValue fuel cs = some (JValue.number t, r)) : validNumber t = true := by
  cases fuel with
  | zero => simp [parseValue] at h
  | succ fuel =>
    rw [parseValue] at h
    split_ifs at h with h1 h2 h3 h4 h5 h6 h7 h8 h9
    all_goals first
      | (simp only [Option.some.injEq, Prod.mk.injEq, JValue.number.injEq] at h
         rw [← h.1]; assumption)
      | (split at h <;> simp at h)
      | (simp at h)

theorem parseMembers_numbers_valid (fuel : Nat) : ∀ (cs : List Char)
    (ms : List (List Char × JValue)) (r : List Char), parseMembers fuel cs = some (ms, r) →
    ∀ k t, (k, JValue.number t) ∈ ms → validNumber t = true := by
  induction fuel with
  | zero => intro cs ms r h; simp [parseMembers] at h
  | succ fuel ih =>
    intro cs ms r h k t hmem
    rw [parseMembers] at h
    split_ifs at h with h1
    split at h
    · simp at h
    · rename_i k0 r1 _
      split_ifs at h with h2
      split at h
      · simp at h
      · rename_i v r3 hpv
        split_ifs at h with h3 h4
        · split at h
          · simp at h
          · rename_i ms' r5 hpm
            simp only [Option.some.injEq, Prod.mk.injEq] at h
            rw [← h.1] at hmem
            rcases List.mem_cons.mp hmem with hm | hm
            · simp only [Prod.mk.injEq] at hm
              rw [← hm.2] at hpv
              exact parseValue_number_valid _ _ _ _ hpv
            · exact ih _ _ _ hpm k t hm
        · simp only [Option.some.injEq, Prod.mk.injEq] at h
          rw [← h.1] at hmem
          simp only [List.mem_singleton, Prod.mk.injEq] at hmem
          rw [← hmem.2] at hpv
          exact parseValue_number_valid _ _ _ _ hpv

theorem parseTop_numbers_valid (cs : List Char) (ms : List (List Char × JValue))
    (h : parseTop cs = some (JTop.object ms)) :
    ∀ k t, (k, JValue.number t) ∈ ms → validNumber t = true := by
  unfold parseTop at h
  split_ifs at h with h1 h2 h3
  · simp only [Option.some.injEq, JTop.object.injEq] at h
    rw [← h]; intro k t hm; simp at hm
  · split at h
    · simp at h
    · rename_i ms' r2 hpm
      split_ifs at h with h4
      simp only [Option.some.injEq, JTop.object.injEq] at h
      rw [← h]
      exact parseMembers_numbers_valid _ _ _ _ hpm
  · split at h
    · simp at h
    · split_ifs at h; simp at h
    · split_ifs at h; simp at h

theorem intValue_range (old : Int) (v : JValue) (n : Int) (ho : inIntRange old)
    (h : intValue old v = some n) : inIntRange n := by
  cases v with
  | null => simp only [intValue, Option.some.injEq] at h; rw [← h]; exact ho
  | number t =>
    simp only [intValue] at h
    split at h
    · rename_i m hp
      simp only [Option.some.injEq] at h
      rw [← h]; exact ParseInt_range t m hp
    · simp at h
  | bool => simp [intValue] at h
  | string s => simp [intValue] at h
  | object => simp [intValue] at h
  | array => simp [intValue] at h

theorem floatValue_finite (old : Float32) (v : JValue) (f : Float32) (ho : old.bits < infBits)
    (hv : ∀ t, v = JValue.number t → validNumber t = true)
    (h : floatValue old v = some f) : f.bits < infBits := by
  cases v with
  | null => simp only [floatValue, Option.some.injEq] at h; rw [← h]; exact ho
  | number t =>
    simp only [floatValue] at h
    split at h
    · rename_i g hp
      simp only [Option.some.injEq] at h
      rw [← h]; exact ParseFloat32_token_finite t g (hv t rfl) hp
    · simp at h
  | bool => simp [floatValue] at h
  | string s => simp [floatValue] at h
  | object => simp [floatValue] at h
  | array => simp [floatValue] at h

theorem setField_valid (d d1 : degree) (k : List Char) (v : JValue) (hd : d.Valid)
    (hv : ∀ t, v = JValue.number t → validNumber t = true)
    (h : setField d k v = some d1) : d1.Valid := by
  obtain ⟨h1, h2, h3, h4, h5⟩ := hd
  unfold setField at h
  split_ifs at h
  all_goals simp only [Option.map_eq_some', Option.some.injEq] at h
  · obtain ⟨x, _, hx⟩ := h; rw [← hx]; exact ⟨h1, h2, h3, h4, h5⟩
  · obtain ⟨x, hi, hx⟩ := h; rw [← hx]; exact ⟨intValue_range _ _ _ h1 hi, h2, h3, h4, h5⟩
  · obtain ⟨x, _, hx⟩ := h; rw [← hx]; exact ⟨h1, h2, h3, h4, h5⟩
  · obtain ⟨x, _, hx⟩ := h; rw [← hx]; exact ⟨h1, h2, h3, h4, h5⟩
  · obtain ⟨x, hi, hx⟩ := h; rw [← hx]; exact ⟨h1, intValue_range _ _ _ h2 hi, h3, h4, h5⟩
  · obtain ⟨x, hi, hx⟩ := h; rw [← hx]; exact ⟨h1, h2, intValue_range _ _ _ h3 hi, h4, h5⟩
  · obtain ⟨x, hi, hx⟩ := h; rw [← hx]; exact ⟨h1, h2, h3, h4, floatValue_finite _ _ _ h5 hv hi⟩
  · obtain ⟨x, hi, hx⟩ := h; rw [← hx]; exact ⟨h1, h2, h3, intValue_range _ _ _ h4 hi, h5⟩
  · rw [← h]; exact ⟨h1, h2, h3, h4, h5⟩

theorem setFields_valid (ms : List (List Char × JValue)) : ∀ (d d1 : degree), d.Valid →
    (∀ k t, (k, JValue.number t) ∈ ms → validNumber t = true) →
    setFields d ms = some d1 → d1.Valid := by
  induction ms with
  | nil => intro d d1 hd _ h; simp only [setFields, Option.some.injEq] at h; rw [← h]; exact hd
  | cons m ms ih =>
    intro d d1 hd hnum h
    obtain ⟨k, v⟩ := m
    simp only [setFields] at h
    split at h
    · simp at h
    · rename_i d2 hsf
      have hd2 : d2.Valid := setField_valid d d2 k v hd
        (fun t ht => hnum k t (by rw [ht]; exact List.mem_cons_self _ _)) hsf
      exact ih d2 d1 hd2 (fun k' t hm => hnum k' t (List.mem_cons_of_mem _ hm)) h

theorem zeroDegree_valid : zeroDegree.Valid := by
  unfold degree.Valid inIntRange zeroDegree
  simp only
  refine ⟨by norm_num, by norm_num, by norm_num, by norm_num, by decide⟩

/-- What `Unmarshal` returns is a valid degree: its integers are Go `int`s and
its float is finite. -/
theorem Unmarshal_valid (b : String) (d : degree) (h : Unmarshal b = Except.ok d) : d.Valid := by
  unfold Unmarshal at h
  split at h
  · simp at h
  · simp only [Except.ok.injEq] at h; rw [← h]; exact zeroDegree_valid
  · simp at h
  · rename_i ms hp
    split at h
    · simp at h
    · rename_i d' hsf
      simp only [Except.ok.injEq] at h
      rw [← h]
      exact setFields_valid ms zeroDegree d' zeroDegree_valid (parseTop_numbers_valid _ ms hp) hsf

/-! ## The scanner accepts what the parser accepts -/

theorem isSpace_iff (c : Char) :
    isSpace c = true ↔ (c = ' ' ∨ c = '\t' ∨ c = '\r' ∨ c = '\n') := by
  simp [isSpace, or_assoc]

/-- In a state that skips white space the scanner may as well start after
it. -/
theorem scanFrom_skipWS (st : ScanState) (stack : List ParseState)
    (h : ∀ c, isSpace c = true → scanStep st stack c = Except.ok (st, stack)) :
    ∀ cs : List Char, scanFrom st stack cs = scanFrom st stack (skipWS cs) := by
  intro cs
  induction cs with
  | nil => rfl
  | cons c cs ih =>
    by_cases hc : c = ' ' ∨ c = '\t' ∨ c = '\r' ∨ c = '\n'
    · have hs : skipWS (c :: cs) = skipWS cs := by simp [skipWS, hc]
      rw [hs, ← ih]
      simp only [scanFrom, h c ((isSpace_iff c).mpr hc)]
    · have hs : skipWS (c :: cs) = c :: cs := by simp [skipWS, hc]
      rw [hs]

theorem scanFrom_beginValue_skipWS (stack : List ParseState) (cs : List Char) :
    scanFrom ScanState.beginValue stack cs = scanFrom ScanState.beginValue stack (skipWS cs) :=
  scanFrom_skipWS _ _ (fun c hc => by simp [scanStep, hc]) cs

theorem scanFrom_beginValueOrEmpty_skipWS (stack : List ParseState) (cs : List Char) :
    scanFrom ScanState.beginValueOrEmpty stack cs =
      scanFrom ScanState.beginValueOrEmpty stack (skipWS cs) :=
  scanFrom_skipWS _ _ (fun c hc => by simp [scanStep, hc]) cs

theorem scanFrom_beginStringOrEmpty_skipWS (stack : List ParseState) (cs : List Char) :
    scanFrom ScanState.beginStringOrEmpty stack cs =
      scanFrom ScanState.beginStringOrEmpty stack (skipWS cs) :=
  scanFrom_skipWS _ _ (fun c hc => by simp [scanStep, hc]) cs

theorem scanFrom_beginString_skipWS (stack : List ParseState) (cs : List Char) :
    scanFrom ScanState.beginString stack cs = scanFrom ScanState.beginString stack (skipWS cs) :=
  scanFrom_skipWS _ _ (fun c hc => by simp [scanStep, hc]) cs

theorem scanFrom_endTop_skipWS (cs : List Char) :
    scanFrom ScanState.endTop [] cs = scanFrom ScanState.endTop [] (skipWS cs) :=
  scanFrom_skipWS _ _ (fun c hc => by simp [scanStep, hc]) cs

/-- After the top-level value the states `endValue` and `endTop` accept the
same texts. -/
theorem scanFrom_endValue_nil (cs : List Char) :
    scanFrom ScanState.endValue [] cs = scanFrom ScanState.endTop [] cs := by
  cases cs with
  | nil => simp [scanFrom, scanEnd, scanStep, endValueStep, isSpace]
  | cons c cs =>
    by_cases hc : isSpace c = true
    · simp [scanFrom, scanStep, endValueStep, hc]
    · simp [scanFrom, scanStep, endValueStep, hc]

theorem scanFrom_endValue_skipWS (stack : List ParseState) (cs : List Char) :
    scanFrom ScanState.endValue stack cs = scanFrom ScanState.endValue stack (skipWS cs) := by
  cases stack with
  | nil => rw [scanFrom_endValue_nil, scanFrom_endValue_nil, ← scanFrom_endTop_skipWS]
  | cons ps rest =>
    apply scanFrom_skipWS
    intro c hc
    cases ps <;> simp [scanStep, endValueStep, hc]

/-- Closing an object or an array leaves the scanner where a complete value
leaves it. -/
theorem scanFrom_afterPop (stack : List ParseState) (cs : List Char) :
    scanFrom (afterPop stack).1 (afterPop stack).2 cs = scanFrom ScanState.endValue stack cs := by
  unfold afterPop
  by_cases h : stack = []
  · subst h
    simp only [if_true]
    exact (scanFrom_endValue_nil cs).symm
  · simp only [h, if_false]

theorem pushChar_eq_some (c : Char) (X : Option (List Char × List Char)) (s r : List Char)
    (h : pushChar c X = some (s, r)) : ∃ s1, X = some (s1, r) := by
  cases X with
  | none => simp [pushChar] at h
  | some x =>
    obtain ⟨s1, r1⟩ := x
    simp only [pushChar, Option.some.injEq, Prod.mk.injEq] at h
    exact ⟨s1, by rw [h.2]⟩

theorem flushPending_eq_some (p : Option Nat) (X : Option (List Char × List Char))
    (s r : List Char) (h : flushPending p X = some (s, r)) : ∃ s1, X = some (s1, r) := by
  cases p with
  | none => exact ⟨s, h⟩
  | some u => exact pushChar_eq_some _ X s r h

theorem hex4_isSome (a b c d : Char) (u : Nat) (h : hex4 a b c d = some u) :
    (hexVal a).isSome = true ∧ (hexVal b).isSome = true ∧ (hexVal c).isSome = true ∧
      (hexVal d).isSome = true := by
  unfold hex4 at h
  cases ha : hexVal a <;> cases hb : hexVal b <;> cases hc : hexVal c <;>
    cases hd : hexVal d <;> simp [ha, hb, hc, hd] at h ⊢

theorem scan_escape (e : Char) (r : List Char) (stack : List ParseState)
    (he : e = 'b' ∨ e = 'f' ∨ e = 'n' ∨ e = 'r' ∨ e = 't' ∨ e = '\\' ∨ e = '/' ∨ e = '"') :
    scanFrom ScanState.inString stack ('\\' :: e :: r) = scanFrom ScanState.inString stack r := by
  simp only [scanFrom, scanStep, if_neg (show ¬ ('\\' = '"') by decide), if_true, he]

theorem scan_unicode (a b c d : Char) (u : Nat) (r : List Char) (stack : List ParseState)
    (h : hex4 a b c d = some u) :
    scanFrom ScanState.inString stack ('\\' :: 'u' :: a :: b :: c :: d :: r) =
      scanFrom ScanState.inString stack r := by
  obtain ⟨ha, hb, hc, hd⟩ := hex4_isSome a b c d u h
  simp [scanFrom, scanStep, ha, hb, hc, hd]

theorem scan_plain (c : Char) (r : List Char) (stack : List ParseState)
    (h1 : c ≠ '"') (h2 : c ≠ '\\') (h3 : ¬ c.toNat < 32) :
    scanFrom ScanState.inString stack (c :: r) = scanFrom ScanState.inString stack r := by
  simp [scanFrom, scanStep, h1, h2, h3]

/-- A string literal that `scanStringFrom` accepts takes the scanner from
inside the string to the end of a value. -/
theorem scanStringFrom_scan (n : Nat) : ∀ (cs : List Char), cs.length ≤ n →
    ∀ (p : Option Nat) (s r : List Char), scanStringFrom p cs = some (s, r) →
    ∀ stack, scanFrom ScanState.inString stack cs = scanFrom ScanState.endValue stack r := by
  induction n with
  | zero =>
    intro cs hl p s r h stack
    have : cs = [] := List.length_eq_zero.mp (Nat.le_zero.mp hl)
    subst this
    rw [scanStringFrom.eq_def] at h
    simp at h
  | succ n ih =>
    intro cs hl p s r h stack
    rw [scanStringFrom.eq_def] at h
    cases cs with
    | nil => simp at h
    | cons c rest =>
      simp only [List.length_cons] at hl
      simp only at h
      by_cases hq : c = '"'
      · rw [if_pos hq] at h
        obtain ⟨s1, h1⟩ := flushPending_eq_some _ _ _ _ h
        simp only [Option.some.injEq, Prod.mk.injEq] at h1
        rw [← h1.2, hq]
        simp [scanFrom, scanStep]
      rw [if_neg hq] at h
      by_cases hb : c = '\\'
      · rw [if_pos hb] at h
        subst hb
        cases rest with
        | nil => simp at h
        | cons e r1 =>
          simp only [List.length_cons] at hl
          simp only at h
          have short : ∀ (x : Char) (q : Option Nat),
              (e = 'b' ∨ e = 'f' ∨ e = 'n' ∨ e = 'r' ∨ e = 't' ∨ e = '\\' ∨ e = '/' ∨ e = '"') →
              flushPending p (pushChar x (scanStringFrom q r1)) = some (s, r) →
              scanFrom ScanState.inString stack ('\\' :: e :: r1) =
                scanFrom ScanState.endValue stack r := by
            intro x q he hx
            obtain ⟨s1, h1⟩ := flushPending_eq_some _ _ _ _ hx
            obtain ⟨s2, h2⟩ := pushChar_eq_some _ _ _ _ h1
            rw [scan_escape e r1 stack he]
            exact ih r1 (by omega) q s2 r h2 stack
          by_cases e1 : e = '"'
          · rw [if_pos e1] at h; exact short _ _ (by simp [e1]) h
          rw [if_neg e1] at h
          by_cases e2 : e = '\\'
          · rw [if_pos e2] at h; exact short _ _ (by simp [e2]) h
          rw [if_neg e2] at h
          by_cases e3 : e = '/'
          · rw [if_pos e3] at h; exact short _ _ (by simp [e3]) h
          rw [if_neg e3] at h
          by_cases e4 : e = 'b'
          · rw [if_pos e4] at h; exact short _ _ (by simp [e4]) h
          rw [if_neg e4] at h
          by_cases e5 : e = 'f'
          · rw [if_pos e5] at h; exact short _ _ (by simp [e5]) h
          rw [if_neg e5] at h
          by_cases e6 : e = 'n'
          · rw [if_pos e6] at h; exact short _ _ (by simp [e6]) h
          rw [if_neg e6] at h
          by_cases e7 : e = 'r'
          · rw [if_pos e7] at h; exact short _ _ (by simp [e7]) h
          rw [if_neg e7] at h
          by_cases e8 : e = 't'
          · rw [if_pos e8] at h; exact short _ _ (by simp [e8]) h
          rw [if_neg e8] at h
          by_cases e9 : e = 'u'
          · rw [if_pos e9] at h
            subst e9
            match r1, hl, h with
            | a :: b :: c1 :: d :: r2, hl, h =>
              simp only [List.length_cons] at hl
              simp only at h
              cases hx : hex4 a b c1 d with
              | none => rw [hx] at h; simp at h
              | some u =>
                rw [hx] at h
                simp only at h
                rw [scan_unicode a b c1 d u r2 stack hx]
                have fin : ∀ (q : Option Nat) (s1 : List Char),
                    scanStringFrom q r2 = some (s1, r) →
                    scanFrom ScanState.inString stack r2 =
                      scanFrom ScanState.endValue stack r :=
                  fun q s1 hq1 => ih r2 (by omega) q s1 r hq1 stack
                by_cases lo : 0xDC00 ≤ u ∧ u < 0xE000
                · rw [if_pos lo] at h
                  cases p with
                  | none =>
                    simp only at h
                    obtain ⟨s2, h2⟩ := pushChar_eq_some _ _ _ _ h
                    exact fin _ _ h2
                  | some hi =>
                    simp only at h
                    obtain ⟨s2, h2⟩ := pushChar_eq_some _ _ _ _ h
                    exact fin _ _ h2
                rw [if_neg lo] at h
                by_cases hs : 0xD800 ≤ u ∧ u < 0xDC00
                · rw [if_pos hs] at h
                  obtain ⟨s1, h1⟩ := flushPending_eq_some _ _ _ _ h
                  exact fin _ _ h1
                rw [if_neg hs] at h
                obtain ⟨s1, h1⟩ := flushPending_eq_some _ _ _ _ h
                obtain ⟨s2, h2⟩ := pushChar_eq_some _ _ _ _ h1
                exact fin _ _ h2
            | [], _, h => simp at h
            | [_], _, h => simp at h
            | [_, _], _, h => simp at h
            | [_, _, _], _, h => simp at h
          rw [if_neg e9] at h
          simp at h
      rw [if_neg hb] at h
      by_cases hctl : c.toNat < 32
      · rw [if_pos hctl] at h; simp at h
      rw [if_neg hctl] at h
      obtain ⟨s1, h1⟩ := flushPending_eq_some _ _ _ _ h
      obtain ⟨s2, h2⟩ := pushChar_eq_some _ _ _ _ h1
      rw [scan_plain c rest stack hq hb hctl]
      exact ih rest (by omega) none s2 r h2 stack

theorem scanString_scan (cs s r : List Char) (h : scanString cs = some (s, r))
    (stack : List ParseState) :
    scanFrom ScanState.inString stack cs = scanFrom ScanState.endValue stack r :=
  scanStringFrom_scan cs.length cs (Nat.le_refl _) none s r h stack

theorem spanDigits_split (cs : List Char) :
    (spanDigits cs).1 ++ (spanDigits cs).2 = cs ∧ ∀ x ∈ (spanDigits cs).1, isDigit x = true := by
  induction cs with
  | nil => simp [spanDigits]
  | cons c cs ih =>
    by_cases hc : isDigit c = true
    · simp only [spanDigits, hc, if_true, List.cons_append, ih.1, true_and]
      intro x hx
      rcases List.mem_cons.mp hx with h | h
      · rw [h]; exact hc
      · exact ih.2 x h
    · simp [spanDigits, hc]

theorem spanNumber_split (cs : List Char) :
    (spanNumber cs).1 ++ (spanNumber cs).2 = cs ∧
      ∀ d ∈ (spanNumber cs).2.head?, isNumChar d = false := by
  induction cs with
  | nil => simp [spanNumber]
  | cons c cs ih =>
    by_cases hc : isNumChar c = true
    · simp only [spanNumber, hc, if_true, List.cons_append, ih.1, true_and]
      exact ih.2
    · simp [spanNumber, hc]

theorem isNumChar_false (c : Char) (h : isNumChar c = false) :
    isDigit c = false ∧ c ≠ '.' ∧ c ≠ 'e' ∧ c ≠ 'E' ∧ c ≠ '+' ∧ c ≠ '-' := by
  simp only [isNumChar, Bool.or_eq_false_iff, beq_eq_false_iff_ne, ne_eq] at h
  obtain ⟨⟨⟨⟨⟨h1, h2⟩, h3⟩, h4⟩, h5⟩, h6⟩ := h
  exact ⟨h1, h4, h5, h6, h3, h2⟩

/-- Where a number may end, a character that is not part of a number is
taken as the character after a value. -/
theorem scan_numFinal (st : ScanState) (h : NumFinal st) (stack : List ParseState)
    (r : List Char) (hr : ∀ d ∈ r.head?, isNumChar d = false) :
    scanFrom st stack r = scanFrom ScanState.endValue stack r := by
  cases r with
  | nil =>
    rcases h with h | h | h | h <;> subst h <;>
      simp [scanFrom, scanEnd, scanStep, zeroStep, isDigit]
  | cons c cs =>
    obtain ⟨h1, h2, h3, h4, _, _⟩ := isNumChar_false c (hr c (by simp))
    rcases h with h | h | h | h <;> subst h <;>
      simp [scanFrom, scanStep, zeroStep, h1, h2, h3, h4]

theorem scan_digits (st : ScanState)
    (hst : st = ScanState.one ∨ st = ScanState.dot0 ∨ st = ScanState.exp0)
    (stack : List ParseState) (ds : List Char) (hd : ∀ x ∈ ds, isDigit x = true)
    (r : List Char) : scanFrom st stack (ds ++ r) = scanFrom st stack r := by
  induction ds with
  | nil => rfl
  | cons d ds ih =>
    have h1 := hd d (by simp)
    rw [← ih (fun x hx => hd x (List.mem_cons_of_mem _ hx))]
    rcases hst with h | h | h <;> subst h <;> simp [scanFrom, scanStep, h1]

theorem isDigit_not_numSign (c : Char) (h : isDigit c = true) :
    c ≠ '.' ∧ c ≠ 'e' ∧ c ≠ 'E' ∧ c ≠ '+' ∧ c ≠ '-' := by
  refine ⟨?_, ?_, ?_, ?_, ?_⟩ <;> intro hc <;> rw [hc] at h <;> exact absurd h (by decide)

/-- The exponent part of a number takes the scanner to the end of the
number. -/
theorem scan_exp (x : List Char) (hx : validExp x = true) (st : ScanState)
    (hst : st = ScanState.zero ∨ st = ScanState.one ∨ st = ScanState.dot0)
    (stack : List ParseState) (r : List Char) (hr : ∀ d ∈ r.head?, isNumChar d = false) :
    scanFrom st stack (x ++ r) = scanFrom ScanState.endValue stack r := by
  cases x with
  | nil =>
    apply scan_numFinal _ _ _ _ hr
    rcases hst with h | h | h <;> simp [NumFinal, h]
  | cons c rest =>
    simp only [validExp, Bool.and_eq_true, Bool.or_eq_true, beq_iff_eq, decide_eq_true_eq] at hx
    obtain ⟨hc, hne, hnil⟩ := hx
    obtain ⟨hsplit, hdig⟩ := spanDigits_split (dropSign rest)
    rw [hnil, List.append_nil] at hsplit
    have hce : c = 'e' ∨ c = 'E' := hc
    have hcd : isDigit c = false := by rcases hc with h | h <;> rw [h] <;> decide
    have hcp : c ≠ '.' := by rcases hc with h | h <;> rw [h] <;> decide
    have step1 : scanFrom st stack (c :: rest ++ r) = scanFrom ScanState.exp stack (rest ++ r) := by
      rcases hst with h | h | h <;> subst h <;>
        simp [scanFrom, scanStep, zeroStep, hcd, hcp, hce]
    rw [step1]
    have tail : ∀ ds : List Char, ds ≠ [] → (∀ x ∈ ds, isDigit x = true) →
        ∀ st1, (st1 = ScanState.exp ∨ st1 = ScanState.expSign) →
        (st1 = ScanState.exp → ∀ d ∈ ds.head?, d ≠ '+' ∧ d ≠ '-') →
        scanFrom st1 stack (ds ++ r) = scanFrom ScanState.endValue stack r := by
      intro ds hds hall st1 hst1 hsg
      cases ds with
      | nil => exact absurd rfl hds
      | cons d ds1 =>
        have hd := hall d (by simp)
        have : scanFrom st1 stack (d :: ds1 ++ r) = scanFrom ScanState.exp0 stack (ds1 ++ r) := by
          rcases hst1 with h | h
          · obtain ⟨hp, hm⟩ := hsg h d (by simp)
            subst h
            simp [scanFrom, scanStep, expSignStep, hd, hp, hm]
          · subst h
            simp [scanFrom, scanStep, expSignStep, hd]
        rw [this, scan_digits _ (Or.inr (Or.inr rfl)) stack ds1
          (fun x hx => hall x (List.mem_cons_of_mem _ hx))]
        exact scan_numFinal _ (Or.inr (Or.inr (Or.inr rfl))) _ _ hr
    cases rest with
    | nil => simp [dropSign, spanDigits] at hne
    | cons s0 rest1 =>
      by_cases hs : s0 = '+' ∨ s0 = '-'
      · have hds : dropSign (s0 :: rest1) = rest1 := by
          rcases hs with h | h <;> simp [dropSign, h]
        rw [hds] at hsplit hdig hne
        rw [hsplit] at hdig hne
        have : scanFrom ScanState.exp stack (s0 :: rest1 ++ r) =
            scanFrom ScanState.expSign stack (rest1 ++ r) := by
          simp [scanFrom, scanStep, hs]
        rw [this]
        exact tail rest1 hne hdig _ (Or.inr rfl) (fun h => by simp at h)
      · have hds : dropSign (s0 :: rest1) = s0 :: rest1 := by
          simp only [not_or] at hs
          simp [dropSign, hs.1, hs.2]
        rw [hds] at hsplit hdig hne
        rw [hsplit] at hdig hne
        refine tail (s0 :: rest1) hne hdig _ (Or.inl rfl) ?_
        intro _ d hd
        simp only [List.head?_cons, Option.mem_def, Option.some.injEq] at hd
        subst hd
        simp only [not_or] at hs
        exact hs

/-- The fraction and exponent parts of a number take the scanner to the end
of the number. -/
theorem scan_frac (x : List Char) (hx : validFrac x = true) (st : ScanState)
    (hst : st = ScanState.zero ∨ st = ScanState.one)
    (stack : List ParseState) (r : List Char) (hr : ∀ d ∈ r.head?, isNumChar d = false) :
    scanFrom st stack (x ++ r) = scanFrom ScanState.endValue stack r := by
  cases x with
  | nil =>
    apply scan_numFinal _ _ _ _ hr
    rcases hst with h | h <;> simp [NumFinal, h]
  | cons c rest =>
    by_cases hc : c = '.'
    · subst hc
      simp only [validFrac, if_true, Bool.and_eq_true, decide_eq_true_eq] at hx
      obtain ⟨hne, hexp⟩ := hx
      obtain ⟨hsplit, hdig⟩ := spanDigits_split rest
      cases hds : (spanDigits rest).1 with
      | nil => exact absurd hds hne
      | cons d ds =>
        rw [hds] at hsplit hdig
        have hd := hdig d (by simp)
        rw [← hsplit]
        have : scanFrom st stack ('.' :: (d :: ds ++ (spanDigits rest).2) ++ r) =
            scanFrom ScanState.dot0 stack (ds ++ ((spanDigits rest).2 ++ r)) := by
          have hp : isDigit '.' = false := by decide
          rcases hst with h | h <;> subst h <;>
            simp [scanFrom, scanStep, zeroStep, hd, hp]
        rw [this, scan_digits _ (Or.inr (Or.inl rfl)) stack ds
          (fun x hx => hdig x (List.mem_cons_of_mem _ hx))]
        exact scan_exp _ hexp _ (Or.inr (Or.inr rfl)) stack r hr
    · simp only [validFrac, hc, if_false] at hx
      exact scan_exp _ hx _ (by rcases hst with h | h <;> simp [h]) stack r hr

/-- The number after its optional sign takes the scanner, from a state that
reads the first digit as the scanner does at the start of a number, to the
end of the number. -/
theorem scan_unsigned (u : List Char) (hu : validUnsigned u = true) (st : ScanState)
    (stack : List ParseState)
    (h0 : scanStep st stack '0' = Except.ok (ScanState.zero, stack))
    (h1 : ∀ c, isDigit c = true → c ≠ '0' →
      scanStep st stack c = Except.ok (ScanState.one, stack))
    (r : List Char) (hr : ∀ d ∈ r.head?, isNumChar d = false) :
    scanFrom st stack (u ++ r) = scanFrom ScanState.endValue stack r := by
  cases u with
  | nil => simp [validUnsigned] at hu
  | cons c rest =>
    by_cases hc : c = '0'
    · subst hc
      simp only [validUnsigned, if_true] at hu
      have : scanFrom st stack ('0' :: rest ++ r) = scanFrom ScanState.zero stack (rest ++ r) := by
        show scanFrom st stack ('0' :: (rest ++ r)) = _
        simp only [scanFrom, h0]
      rw [this]
      exact scan_frac _ hu _ (Or.inl rfl) stack r hr
    · simp only [validUnsigned, hc, if_false] at hu
      by_cases hd : isDigit c = true
      · simp only [hd, if_true] at hu
        obtain ⟨hsplit, hdig⟩ := spanDigits_split rest
        have : scanFrom st stack (c :: rest ++ r) = scanFrom ScanState.one stack (rest ++ r) := by
          show scanFrom st stack (c :: (rest ++ r)) = _
          simp only [scanFrom, h1 c hd hc]
        rw [this, ← hsplit, List.append_assoc,
          scan_digits _ (Or.inl rfl) stack _ hdig]
        exact scan_frac _ hu _ (Or.inr rfl) stack r hr
      · simp [hd] at hu

/-- A number token takes the scanner from the beginning of a value to its
end. -/
theorem scan_number (t : List Char) (ht : validNumber t = true) (stack : List ParseState)
    (r : List Char) (hr : ∀ d ∈ r.head?, isNumChar d = false) :
    scanFrom ScanState.beginValue stack (t ++ r) = scanFrom ScanState.endValue stack r := by
  cases t with
  | nil => simp [validNumber] at ht
  | cons c rest =>
    by_cases hc : c = '-'
    · subst hc
      simp only [validNumber, if_true] at ht
      have : scanFrom ScanState.beginValue stack ('-' :: rest ++ r) =
          scanFrom ScanState.neg stack (rest ++ r) := by
        simp [scanFrom, scanStep, beginValueStep, isSpace]
      rw [this]
      refine scan_unsigned rest ht _ stack (by simp [scanStep]) ?_ r hr
      intro d hd hd0
      simp [scanStep, hd, hd0]
    · simp only [validNumber, hc, if_false] at ht
      refine scan_unsigned (c :: rest) ht _ stack
        (by simp [scanStep, beginValueStep, isSpace]) ?_ r hr
      intro d hd hd0
      have hne : d ≠ '\x7b' ∧ d ≠ '[' ∧ d ≠ '"' ∧ d ≠ '-' ∧ d ≠ 't' ∧ d ≠ 'f' ∧ d ≠ 'n' ∧
          d ≠ ' ' ∧ d ≠ '\t' ∧ d ≠ '\r' ∧ d ≠ '\n' := by
        refine ⟨?_, ?_, ?_, ?_, ?_, ?_, ?_, ?_, ?_, ?_, ?_⟩ <;> intro h <;> rw [h] at hd <;>
          exact absurd hd (by decide)
      obtain ⟨n1, n2, n3, n4, n5, n6, n7, n8, n9, n10, n11⟩ := hne
      simp [scanStep, beginValueStep, isSpace, hd, hd0, n1, n2, n3, n4, n5, n6, n7, n8, n9,
        n10, n11]

theorem dropLiteral_eq (l : List Char) : ∀ (cs r : List Char),
    dropLiteral l cs = some r → cs = l ++ r := by
  induction l with
  | nil => intro cs r h; simp [dropLiteral] at h; simp [h]
  | cons x l ih =>
    intro cs r h
    cases cs with
    | nil => simp [dropLiteral] at h
    | cons c cs =>
      by_cases hc : c = x
      · simp only [dropLiteral, hc, if_true] at h
        rw [hc, ih cs r h]; rfl
      · simp [dropLiteral, hc] at h

theorem head?_eq_cons (cs : List Char) (c : Char) (h : cs.head? = some c) : cs = c :: cs.tail := by
  cases cs with
  | nil => simp at h
  | cons x xs => simp at h; simp [h]

theorem scan_open_brace (stack : List ParseState) (tl : List Char) :
    scanFrom ScanState.beginValue stack ('\x7b' :: tl) =
      scanFrom ScanState.beginStringOrEmpty (ParseState.objectKey :: stack) (skipWS tl) := by
  rw [← scanFrom_beginStringOrEmpty_skipWS]
  simp [scanFrom, scanStep, beginValueStep, isSpace]

theorem scan_open_bracket (stack : List ParseState) (tl : List Char) :
    scanFrom ScanState.beginValue stack ('[' :: tl) =
      scanFrom ScanState.beginValueOrEmpty (ParseState.arrayValue :: stack) (skipWS tl) := by
  rw [← scanFrom_beginValueOrEmpty_skipWS]
  simp [scanFrom, scanStep, beginValueStep, isSpace]

theorem scan_close_brace (stack : List ParseState) (tl : List Char) (st : ScanState)
    (hst : st = ScanState.beginStringOrEmpty ∨ st = ScanState.endValue)
    (ps : ParseState) (hps : st = ScanState.endValue → ps = ParseState.objectValue) :
    scanFrom st (ps :: stack) ('\x7d' :: tl) = scanFrom ScanState.endValue stack tl := by
  rw [← scanFrom_afterPop]
  rcases hst with h | h
  · subst h; simp [scanFrom, scanStep, isSpace]
  · rw [hps h]; subst h; simp [scanFrom, scanStep, endValueStep, isSpace]

theorem scan_close_bracket (stack : List ParseState) (tl : List Char) (st : ScanState)
    (hst : st = ScanState.beginValueOrEmpty ∨ st = ScanState.endValue) :
    scanFrom st (ParseState.arrayValue :: stack) (']' :: tl) =
      scanFrom ScanState.endValue stack tl := by
  rw [← scanFrom_afterPop]
  rcases hst with h | h <;> subst h <;> simp [scanFrom, scanStep, endValueStep, isSpace]

theorem scan_quote (stack : List ParseState) (tl : List Char) (st : ScanState)
    (hst : st = ScanState.beginValue ∨ st = ScanState.beginString ∨
      st = ScanState.beginStringOrEmpty) :
    scanFrom st stack ('"' :: tl) = scanFrom ScanState.inString stack tl := by
  rcases hst with h | h | h <;> subst h <;>
    simp [scanFrom, scanStep, beginValueStep, beginStringStep, isSpace]

theorem scan_colon (stack : List ParseState) (tl : List Char) :
    scanFrom ScanState.endValue (ParseState.objectKey :: stack) (':' :: tl) =
      scanFrom ScanState.beginValue (ParseState.objectValue :: stack) (skipWS tl) := by
  rw [← scanFrom_beginValue_skipWS]
  simp [scanFrom, scanStep, endValueStep, isSpace]

theorem scan_comma_object (stack : List ParseState) (tl : List Char) :
    scanFrom ScanState.endValue (ParseState.objectValue :: stack) (',' :: tl) =
      scanFrom ScanState.beginString (ParseState.objectKey :: stack) (skipWS tl) := by
  rw [← scanFrom_beginString_skipWS]
  simp [scanFrom, scanStep, endValueStep, isSpace]

theorem scan_comma_array (stack : List ParseState) (tl : List Char) :
    scanFrom ScanState.endValue (ParseState.arrayValue :: stack) (',' :: tl) =
      scanFrom ScanState.beginValue (ParseState.arrayValue :: stack) (skipWS tl) := by
  rw [← scanFrom_beginValue_skipWS]
  simp [scanFrom, scanStep, endValueStep, isSpace]

/-- A value that `parseValue` accepts starts with a character that is neither
white space nor a closing bracket. -/
theorem parseValue_head (fuel : Nat) (cs : List Char) (v : JValue) (r : List Char)
    (h : parseValue fuel cs = some (v, r)) :
    ∃ c xs, cs = c :: xs ∧ isSpace c = false ∧ c ≠ ']' := by
  cases fuel with
  | zero => simp [parseValue] at h
  | succ fuel =>
    cases cs with
    | nil =>
      rw [parseValue] at h
      simp [spanNumber, validNumber] at h
    | cons c xs =>
      refine ⟨c, xs, rfl, ?_, ?_⟩
      · by_contra hs
        simp only [Bool.not_eq_false] at hs
        have hc := (isSpace_iff c).mp hs
        rw [parseValue] at h
        have hn : (spanNumber (c :: xs)).1 = [] := by
          rcases hc with h1 | h1 | h1 | h1 <;> subst h1 <;> simp [spanNumber, isNumChar, isDigit]
        rcases hc with h1 | h1 | h1 | h1 <;> subst h1 <;>
          simp [hn, validNumber] at h
      · intro hc
        subst hc
        rw [parseValue] at h
        simp [spanNumber, isNumChar, isDigit, validNumber] at h

theorem scan_orEmpty (stack : List ParseState) (c : Char) (xs : List Char)
    (hs : isSpace c = false) (hc : c ≠ ']') :
    scanFrom ScanState.beginValueOrEmpty stack (c :: xs) =
      scanFrom ScanState.beginValue stack (c :: xs) := by
  simp [scanFrom, scanStep, hs, hc]

/-- What the parser accepts, the scanner accepts: over a value, the members of
an object or the elements of an array that the parser reads, the scanner goes
from the state before them to the state after a value, with the rest of the
text still to read. -/
theorem parse_scan (fuel : Nat) :
    (∀ cs v r, parseValue fuel cs = some (v, r) → ∀ stack,
      scanFrom ScanState.beginValue stack cs = scanFrom ScanState.endValue stack r) ∧
    (∀ cs ms r, parseMembers fuel cs = some (ms, r) → ∀ stack st,
      (st = ScanState.beginString ∨ st = ScanState.beginStringOrEmpty) →
      scanFrom st (ParseState.objectKey :: stack) cs = scanFrom ScanState.endValue stack r) ∧
    (∀ cs r, parseElements fuel cs = some r → ∀ stack st,
      (st = ScanState.beginValue ∨ st = ScanState.beginValueOrEmpty) →
      scanFrom st (ParseState.arrayValue :: stack) cs = scanFrom ScanState.endValue stack r) := by
  induction fuel with
  | zero =>
    refine ⟨?_, ?_, ?_⟩
    · intro cs v r h; simp [parseValue] at h
    · intro cs ms r h; simp [parseMembers] at h
    · intro cs r h; simp [parseElements] at h
  | succ fuel ih =>
    obtain ⟨ihV, ihM, ihE⟩ := ih
    refine ⟨?_, ?_, ?_⟩
    · intro cs v r h stack
      rw [parseValue] at h
      by_cases h1 : cs.head? = some '\x7b'
      · rw [if_pos h1] at h
        rw [head?_eq_cons cs _ h1, scan_open_brace]
        by_cases h2 : (skipWS cs.tail).head? = some '\x7d'
        · rw [if_pos h2] at h
          simp only [Option.some.injEq, Prod.mk.injEq] at h
          rw [head?_eq_cons _ _ h2, h.2]
          exact scan_close_brace stack r _ (Or.inl rfl) _ (fun hh => by simp at hh)
        · rw [if_neg h2] at h
          split at h
          · simp at h
          · rename_i ms r2 hpm
            simp only [Option.some.injEq, Prod.mk.injEq] at h
            rw [← h.2]
            exact ihM _ _ _ hpm stack _ (Or.inr rfl)
      rw [if_neg h1] at h
      by_cases h3 : cs.head? = some '['
      · rw [if_pos h3] at h
        rw [head?_eq_cons cs _ h3, scan_open_bracket]
        by_cases h4 : (skipWS cs.tail).head? = some ']'
        · rw [if_pos h4] at h
          simp only [Option.some.injEq, Prod.mk.injEq] at h
          rw [head?_eq_cons _ _ h4, h.2]
          exact scan_close_bracket stack r _ (Or.inl rfl)
        · rw [if_neg h4] at h
          split at h
          · simp at h
          · rename_i r2 hpe
            simp only [Option.some.injEq, Prod.mk.injEq] at h
            rw [← h.2]
            exact ihE _ _ hpe stack _ (Or.inr rfl)
      rw [if_neg h3] at h
      by_cases h5 : cs.head? = some '"'
      · rw [if_pos h5] at h
        rw [head?_eq_cons cs _ h5, scan_quote stack _ _ (Or.inl rfl)]
        split at h
        · simp at h
        · rename_i s r1 hs
          simp only [Option.some.injEq, Prod.mk.injEq] at h
          rw [← h.2]
          exact scanString_scan _ _ _ hs stack
      rw [if_neg h5] at h
      by_cases h6 : cs.head? = some 't'
      · rw [if_pos h6] at h
        split at h
        · simp at h
        · rename_i r1 hl
          simp only [Option.some.injEq, Prod.mk.injEq] at h
          rw [head?_eq_cons cs _ h6, dropLiteral_eq _ _ _ hl, ← h.2]
          simp [scanFrom, scanStep, beginValueStep, isSpace]
      rw [if_neg h6] at h
      by_cases h7 : cs.head? = some 'f'
      · rw [if_pos h7] at h
        split at h
        · simp at h
        · rename_i r1 hl
          simp only [Option.some.injEq, Prod.mk.injEq] at h
          rw [head?_eq_cons cs _ h7, dropLiteral_eq _ _ _ hl, ← h.2]
          simp [scanFrom, scanStep, beginValueStep, isSpace]
      rw [if_neg h7] at h
      by_cases h8 : cs.head? = some 'n'
      · rw [if_pos h8] at h
        split at h
        · simp at h
        · rename_i r1 hl
          simp only [Option.some.injEq, Prod.mk.injEq] at h
          rw [head?_eq_cons cs _ h8, dropLiteral_eq _ _ _ hl, ← h.2]
          simp [scanFrom, scanStep, beginValueStep, isSpace]
      rw [if_neg h8] at h
      by_cases h9 : validNumber (spanNumber cs).1 = true
      · rw [if_pos h9] at h
        simp only [Option.some.injEq, Prod.mk.injEq] at h
        obtain ⟨hsplit, hhead⟩ := spanNumber_split cs
        rw [← h.2]
        have := scan_number _ h9 stack _ hhead
        rw [hsplit] at this
        exact this
      · rw [if_neg h9] at h
        simp at h
    · intro cs ms r h stack st hst
      rw [parseMembers] at h
      by_cases h1 : cs.head? = some '"'
      · rw [if_pos h1] at h
        rw [head?_eq_cons cs _ h1,
          scan_quote _ _ _ (by rcases hst with h | h <;> simp [h])]
        split at h
        · simp at h
        · rename_i k r1 hs
          rw [scanString_scan _ _ _ hs, scanFrom_endValue_skipWS]
          by_cases h2 : (skipWS r1).head? = some ':'
          · rw [if_pos h2] at h
            rw [head?_eq_cons _ _ h2, scan_colon]
            split at h
            · simp at h
            · rename_i v r3 hpv
              rw [ihV _ _ _ hpv, scanFrom_endValue_skipWS]
              by_cases h3 : (skipWS r3).head? = some ','
              · rw [if_pos h3] at h
                rw [head?_eq_cons _ _ h3, scan_comma_object]
                split at h
                · simp at h
                · rename_i ms1 r5 hpm
                  simp only [Option.some.injEq, Prod.mk.injEq] at h
                  rw [← h.2]
                  exact ihM _ _ _ hpm stack _ (Or.inl rfl)
              · rw [if_neg h3] at h
                by_cases h4 : (skipWS r3).head? = some '\x7d'
                · rw [if_pos h4] at h
                  simp only [Option.some.injEq, Prod.mk.injEq] at h
                  rw [head?_eq_cons _ _ h4, h.2]
                  exact scan_close_brace stack r _ (Or.inr rfl) _ (fun _ => rfl)
                · rw [if_neg h4] at h
                  simp at h
          · rw [if_neg h2] at h
            simp at h
      · rw [if_neg h1] at h
        simp at h
    · intro cs r h stack st hst
      rw [parseElements] at h
      split at h
      · simp at h
      · rename_i v r1 hpv
        obtain ⟨c, xs, hcs, hsp, hbr⟩ := parseValue_head _ _ _ _ hpv
        have hstart : scanFrom st (ParseState.arrayValue :: stack) cs =
            scanFrom ScanState.beginValue (ParseState.arrayValue :: stack) cs := by
          rcases hst with h | h
          · rw [h]
          · rw [h, hcs]; exact scan_orEmpty _ c xs hsp hbr
        rw [hstart, ihV _ _ _ hpv, scanFrom_endValue_skipWS]
        by_cases h3 : (skipWS r1).head? = some ','
        · rw [if_pos h3] at h
          rw [head?_eq_cons _ _ h3, scan_comma_array]
          exact ihE _ _ h stack _ (Or.inl rfl)
        · rw [if_neg h3] at h
          by_cases h4 : (skipWS r1).head? = some ']'
          · rw [if_pos h4] at h
            simp only [Option.some.injEq] at h
            rw [head?_eq_cons _ _ h4, h]
            exact scan_close_bracket stack r _ (Or.inr rfl)
          · rw [if_neg h4] at h
            simp at h

theorem skipWS_nil_scan (r : List Char) (h : skipWS r = []) :
    scanFrom ScanState.endValue [] r = none := by
  rw [scanFrom_endValue_skipWS, h]
  simp [scanFrom, scanEnd, scanStep, endValueStep, isSpace]

/-- A text that the parser accepts is valid for the scanner. -/
theorem checkValid_of_parseTop (cs : List Char) (t : JTop) (h : parseTop cs = some t) :
    checkValid cs = none := by
  unfold checkValid
  rw [scanFrom_beginValue_skipWS]
  unfold parseTop at h
  by_cases h1 : (skipWS cs).head? = some '\x7b'
  · rw [if_pos h1] at h
    rw [head?_eq_cons _ _ h1, scan_open_brace]
    by_cases h2 : (skipWS (skipWS cs).tail).head? = some '\x7d'
    · rw [if_pos h2] at h
      rw [head?_eq_cons _ _ h2, scan_close_brace [] _ _ (Or.inl rfl) _ (fun hh => by simp at hh)]
      by_cases h3 : skipWS (skipWS (skipWS cs).tail).tail = []
      · exact skipWS_nil_scan _ h3
      · rw [if_neg h3] at h; simp at h
    · rw [if_neg h2] at h
      split at h
      · simp at h
      · rename_i ms r2 hpm
        rw [(parse_scan _).2.1 _ _ _ hpm [] _ (Or.inr rfl)]
        by_cases h3 : skipWS r2 = []
        · exact skipWS_nil_scan _ h3
        · rw [if_neg h3] at h; simp at h
  · rw [if_neg h1] at h
    split at h
    · simp at h
    · rename_i r2 hpv
      rw [(parse_scan _).1 _ _ _ hpv []]
      by_cases h3 : skipWS r2 = []
      · exact skipWS_nil_scan _ h3
      · rw [if_neg h3] at h; simp at h
    · rename_i v r2 _ hpv
      rw [(parse_scan _).1 _ _ _ hpv []]
      by_cases h3 : skipWS r2 = []
      · exact skipWS_nil_scan _ h3
      · rw [if_neg h3] at h; simp at h

/-! ## The transactions, step by step -/

theorem wrapInt_of_inIntRange (i : Int) (h : inIntRange i) : wrapInt i = i := by
  obtain ⟨h1, h2⟩ := h
  unfold wrapInt
  rw [Int.emod_eq_of_lt (by omega) (by omega)]
  omega

theorem GetState_ok (stub : Stub) (key : String) (h : stub.getFailure key = none) :
    stub.GetState key = Except.ok (stub.state key) := by
  simp [Stub.GetState, h]

theorem PutState_ok (stub : Stub) (key value : String) (h : stub.putFailure key value = none) :
    stub.PutState key value = Except.ok (stub.withValue key value) := by
  simp [Stub.PutState, h]

theorem withValue_state_self (stub : Stub) (key value : String) :
    (stub.withValue key value).state key = some value := by
  simp [Stub.withValue]

theorem withValue_state_other (stub : Stub) (key value k : String) (h : k ≠ key) :
    (stub.withValue key value).state k = stub.state k := by
  simp [Stub.withValue, h]

theorem withValue_twice (stub : Stub) (key value : String) :
    (stub.withValue key value).withValue key value = stub.withValue key value := by
  unfold Stub.withValue
  simp only [Stub.mk.injEq, and_true]
  funext k
  by_cases h : k = key <;> simp [h]

/-- A successful view: the payload is the bytes read, and the degree is
written back with one view less. -/
theorem viewDegree_success (stub : Stub) (arg bytes : String) (r : degree)
    (hgf : stub.getFailure (Itoa (Atoi arg).1) = none)
    (hst : stub.state (Itoa (Atoi arg).1) = some bytes)
    (hdec : Unmarshal bytes = Except.ok r) (hpos : 0 < r.AllowedViews)
    (hput : stub.putFailure (Itoa (Atoi arg).1)
      (marshalBytes { r with AllowedViews := r.AllowedViews - 1 }) = none) :
    viewDegree stub [arg] = (Response.Success (some bytes),
      stub.withValue (Itoa (Atoi arg).1)
        (marshalBytes { r with AllowedViews := r.AllowedViews - 1 })) := by
  have hv := Unmarshal_valid bytes r hdec
  have hw : wrapInt (r.AllowedViews - 1) = r.AllowedViews - 1 := by
    apply wrapInt_of_inIntRange
    obtain ⟨_, _, _, ⟨h1, h2⟩, _⟩ := hv
    constructor <;> omega
  have hnle : ¬ r.AllowedViews ≤ 0 := by omega
  simp only [viewDegree, GetState_ok stub _ hgf, hst, hdec, hnle, if_false, hw,
    PutState_ok stub _ _ hput]

/-- A view without rights: the error, and the stub as it was. -/
theorem viewDegree_norights (stub : Stub) (arg bytes : String) (r : degree)
    (hgf : stub.getFailure (Itoa (Atoi arg).1) = none)
    (hst : stub.state (Itoa (Atoi arg).1) = some bytes)
    (hdec : Unmarshal bytes = Except.ok r) (hle : r.AllowedViews ≤ 0) :
    viewDegree stub [arg] =
      (Response.Error ("\x7b\"Error\":\"No rights to view degree " ++ Itoa (Atoi arg).1
        ++ "\"\x7d"), stub) := by
  simp only [viewDegree, GetState_ok stub _ hgf, hst, hdec, hle, if_true]

/-- A successful revocation: the degree is written back with no views. -/
theorem revoke_success (stub : Stub) (arg bytes : String) (r : degree)
    (hgf : stub.getFailure (Itoa (Atoi arg).1) = none)
    (hst : stub.state (Itoa (Atoi arg).1) = some bytes)
    (hdec : Unmarshal bytes = Except.ok r)
    (hput : stub.putFailure (Itoa (Atoi arg).1)
      (marshalBytes { r with AllowedViews := 0 }) = none) :
    revokeDegreeAccess stub [arg] = (Response.Success none,
      stub.withValue (Itoa (Atoi arg).1) (marshalBytes { r with AllowedViews := 0 })) := by
  simp only [revokeDegreeAccess, GetState_ok stub _ hgf, hst, hdec, PutState_ok stub _ _ hput]

/-- A successful grant: the degree is written back with the wrapped sum of
the views. -/
theorem grant_success (stub : Stub) (a0 a1 : String) (more : List String) (bytes : String)
    (r : degree)
    (hgf : stub.getFailure (Itoa (Atoi a0).1) = none)
    (hst : stub.state (Itoa (Atoi a0).1) = some bytes)
    (hdec : Unmarshal bytes = Except.ok r)
    (hput : stub.putFailure (Itoa (Atoi a0).1)
      (marshalBytes { r with AllowedViews := wrapInt (r.AllowedViews + (Atoi a1).1) }) = none) :
    invokeDegreeAccess stub (a0 :: a1 :: more) = (Response.Success none,
      stub.withValue (Itoa (Atoi a0).1)
        (marshalBytes { r with AllowedViews := wrapInt (r.AllowedViews + (Atoi a1).1) })) := by
  simp only [invokeDegreeAccess, GetState_ok stub _ hgf, hst, hdec, PutState_ok stub _ _ hput]

theorem valid_setViews (r : degree) (n : Int) (hv : r.Valid) (hn : inIntRange n) :
    degree.Valid { r with AllowedViews := n } := by
  obtain ⟨h1, h2, h3, _, h5⟩ := hv
  exact ⟨h1, h2, h3, hn, h5⟩

theorem inIntRange_wrapInt (i : Int) : inIntRange (wrapInt i) := by
  unfold wrapInt inIntRange
  have h1 := Int.emod_nonneg (i + 2 ^ 63) (by norm_num : (2 : Int) ^ 64 ≠ 0)
  have h2 := Int.emod_lt_of_pos (i + 2 ^ 63) (by norm_num : (0 : Int) < 2 ^ 64)
  constructor <;> omega

theorem inIntRange_zero : inIntRange 0 := by
  unfold inIntRange; constructor <;> norm_num

/-- The degree written back with a changed number of views decodes to the
degree with that number. -/
theorem Unmarshal_setViews (bytes : String) (r : degree) (n : Int)
    (hdec : Unmarshal bytes = Except.ok r) (hn : inIntRange n) :
    Unmarshal (marshalBytes { r with AllowedViews := n })
      = Except.ok { r with AllowedViews := n } :=
  marshalBytes_roundtrip _ (valid_setViews r n (Unmarshal_valid bytes r hdec) hn)

/-! ## Viewing -/

/-- C1: when the key of the id holds bytes that decode to a degree with a
positive number of views and the store's get and put succeed, `viewDegree`
succeeds, its payload is exactly the bytes stored before the call (which
decode to the number of views before the decrement), and the bytes stored
afterwards decode to the same degree with one view less. -/
theorem C1_viewDegree_snapshot_and_decrement (stub : Stub) (id : Int) (arg bytes : String)
    (r : degree) (harg : (Atoi arg).1 = id)
    (hget : stub.getFailure (Itoa id) = none)
    (hstored : stub.state (Itoa id) = some bytes)
    (hdec : Unmarshal bytes = Except.ok r)
    (hpos : 0 < r.AllowedViews)
    (hput : stub.putFailure (Itoa id)
      (marshalBytes { r with AllowedViews := r.AllowedViews - 1 }) = none) :
    (viewDegree stub [arg]).1 = Response.Success (some bytes) ∧
    (∃ snapshot, Unmarshal bytes = Except.ok snapshot ∧
      snapshot.AllowedViews = r.AllowedViews) ∧
    (∃ after, (viewDegree stub [arg]).2.state (Itoa id) = some after ∧
      Unmarshal after = Except.ok { r with AllowedViews := r.AllowedViews - 1 }) := by
  subst harg
  have hv := Unmarshal_valid bytes r hdec
  rw [viewDegree_success stub arg bytes r hget hstored hdec hpos hput]
  refine ⟨rfl, ⟨r, hdec, rfl⟩, _, withValue_state_self _ _ _, ?_⟩
  apply Unmarshal_setViews bytes r _ hdec
  obtain ⟨_, _, _, ⟨h1, h2⟩, _⟩ := hv
  constructor <;> omega

/-- C1 at the scenario of the specification: the first view of the degree
created with 2 views returns the bytes with 2 views and leaves 1. -/
theorem C1_witness :
    (viewDegree janeStub ["1"]).1 = Response.Success (some (janeBytes "2")) ∧
    (∃ snapshot, Unmarshal (janeBytes "2") = Except.ok snapshot ∧
      snapshot.AllowedViews = (janeDegree 2).AllowedViews) ∧
    (∃ after, (viewDegree janeStub ["1"]).2.state (Itoa 1) = some after ∧
      Unmarshal after = Except.ok
        { janeDegree 2 with AllowedViews := (janeDegree 2).AllowedViews - 1 }) :=
  C1_viewDegree_snapshot_and_decrement janeStub 1 "1" (janeBytes "2") (janeDegree 2)
    (by decide!) (by decide!) (by decide!) (by decide!) (by decide!) (by decide!)

/-- C2: when the key of the id holds bytes that decode to a degree whose
number of views is zero or negative, `viewDegree` fails with the error
`No rights to view degree` and the stub after the call is the stub before
it. -/
theorem C2_viewDegree_forbidden (stub : Stub) (id : Int) (arg bytes : String) (r : degree)
    (harg : (Atoi arg).1 = id)
    (hget : stub.getFailure (Itoa id) = none)
    (hstored : stub.state (Itoa id) = some bytes)
    (hdec : Unmarshal bytes = Except.ok r)
    (hle : r.AllowedViews ≤ 0) :
    viewDegree stub [arg] =
      (Response.Error ("\x7b\"Error\":\"No rights to view degree " ++ Itoa id ++ "\"\x7d"),
        stub) := by
  subst harg
  exact viewDegree_norights stub arg bytes r hget hstored hdec hle

/-- C2 at the scenario of the specification, after its two views. -/
theorem C2_witness :
    viewDegree exhaustedStub ["1"] =
      (Response.Error ("\x7b\"Error\":\"No rights to view degree " ++ Itoa 1 ++ "\"\x7d"),
        exhaustedStub) :=
  C2_viewDegree_forbidden exhaustedStub 1 "1" (janeBytes "0") (janeDegree 0)
    (by decide!) (by decide!) (by decide!) (by decide!) (by decide!)

theorem setViews_self (r : degree) (m : Int) (h : r.AllowedViews = m) :
    { r with AllowedViews := m } = r := by
  cases r; simp only at h; subst h; rfl

theorem holds_withValue (stub : Stub) (key bytes : String) (r d : degree)
    (hh : Holds stub key r) (hd : Unmarshal bytes = Except.ok d) :
    Holds (stub.withValue key bytes) key d :=
  ⟨hh.1, bytes, withValue_state_self _ _ _, hd⟩

/-- After `j` views of a degree with `m` views, `j` at most `m`, the stub
holds the degree with `m - j` views. -/
theorem viewTimes_holds (arg : String) (j : Nat) : ∀ (stub : Stub) (r : degree) (m : Int),
    Holds stub (Itoa (Atoi arg).1) r → r.AllowedViews = m → (j : Int) ≤ m →
    (∀ v, stub.putFailure (Itoa (Atoi arg).1) v = none) →
    Holds (viewTimes arg j stub) (Itoa (Atoi arg).1) { r with AllowedViews := m - j } ∧
      (∀ v, (viewTimes arg j stub).putFailure (Itoa (Atoi arg).1) v = none) := by
  induction j with
  | zero =>
    intro stub r m hh hm _ hput
    simp only [viewTimes, Nat.cast_zero, sub_zero]
    rw [setViews_self r m hm]
    exact ⟨hh, hput⟩
  | succ j ih =>
    intro stub r m hh hm hj hput
    obtain ⟨hgf, bytes, hst, hdec⟩ := hh
    have hpos : 0 < r.AllowedViews := by push_cast at hj; omega
    have hstep := viewDegree_success stub arg bytes r hgf hst hdec hpos (hput _)
    have hv := Unmarshal_valid bytes r hdec
    have hrange : inIntRange (r.AllowedViews - 1) := by
      obtain ⟨_, _, _, ⟨h1, h2⟩, _⟩ := hv
      constructor <;> omega
    have hdec' := Unmarshal_setViews bytes r _ hdec hrange
    have hh' : Holds (viewDegree stub [arg]).2 (Itoa (Atoi arg).1)
        { r with AllowedViews := r.AllowedViews - 1 } := by
      rw [hstep]
      exact holds_withValue stub _ _ r _ ⟨hgf, bytes, hst, hdec⟩ hdec'
    have hput' : ∀ v, (viewDegree stub [arg]).2.putFailure (Itoa (Atoi arg).1) v = none := by
      rw [hstep]; exact hput
    have := ih (viewDegree stub [arg]).2 { r with AllowedViews := r.AllowedViews - 1 } (m - 1)
      hh' (by simp only; omega) (by push_cast at hj; omega) hput'
    simp only [viewTimes]
    have hcast : m - ((j + 1 : Nat) : Int) = m - 1 - (j : Int) := by push_cast; ring
    rw [hcast]
    exact this

/-- C3: for every natural number `N` and every degree stored with `N` views
(the store's get and put succeeding), each of the first `N` consecutive
`viewDegree` calls succeeds, the `k`-th with a snapshot that decodes to
`N - k + 1` views; the call after them fails with the error
`No rights to view degree`, and after that failed call the stored degree has
0 views. -/
theorem C3_views_run_out (N : Nat) (stub : Stub) (id : Int) (arg : String) (r : degree)
    (harg : (Atoi arg).1 = id) (hholds : Holds stub (Itoa id) r)
    (hN : r.AllowedViews = (N : Int))
    (hput : ∀ v, stub.putFailure (Itoa id) v = none) :
    (∀ k : Nat, 1 ≤ k → k ≤ N →
      ∃ snapshot d, (viewDegree (viewTimes arg (k - 1) stub) [arg]).1
          = Response.Success (some snapshot) ∧
        Unmarshal snapshot = Except.ok d ∧ d.AllowedViews = (N : Int) - k + 1) ∧
    (viewDegree (viewTimes arg N stub) [arg]).1 =
      Response.Error ("\x7b\"Error\":\"No rights to view degree " ++ Itoa id ++ "\"\x7d") ∧
    (∃ b d, (viewDegree (viewTimes arg N stub) [arg]).2.state (Itoa id) = some b ∧
      Unmarshal b = Except.ok d ∧ d.AllowedViews = 0) := by
  subst harg
  refine ⟨?_, ?_⟩
  · intro k hk1 hkN
    obtain ⟨⟨hgf, b, hst, hdec⟩, hput'⟩ := viewTimes_holds arg (k - 1) stub r N hholds hN
      (by omega) hput
    have hpos : 0 < ({ r with AllowedViews := (N : Int) - ((k - 1 : Nat) : Int) }).AllowedViews := by
      simp only; omega
    have hstep := viewDegree_success _ arg b _ hgf hst hdec hpos (hput' _)
    refine ⟨b, _, by rw [hstep], hdec, ?_⟩
    simp only
    omega
  · obtain ⟨⟨hgf, b, hst, hdec⟩, _⟩ := viewTimes_holds arg N stub r N hholds hN
      (le_refl _) hput
    have hle : ({ r with AllowedViews := (N : Int) - (N : Int) }).AllowedViews ≤ 0 := by
      simp only; omega
    have hstep := viewDegree_norights _ arg b _ hgf hst hdec hle
    rw [hstep]
    exact ⟨rfl, b, _, hst, hdec, by simp⟩

/-- C3 at the scenario of the specification: a degree created with 2 views. -/
theorem C3_witness :
    (∀ k : Nat, 1 ≤ k → k ≤ 2 →
      ∃ snapshot d, (viewDegree (viewTimes "1" (k - 1) janeStub) ["1"]).1
          = Response.Success (some snapshot) ∧
        Unmarshal snapshot = Except.ok d ∧ d.AllowedViews = ((2 : Nat) : Int) - k + 1) ∧
    (viewDegree (viewTimes "1" 2 janeStub) ["1"]).1 =
      Response.Error ("\x7b\"Error\":\"No rights to view degree " ++ Itoa 1 ++ "\"\x7d") ∧
    (∃ b d, (viewDegree (viewTimes "1" 2 janeStub) ["1"]).2.state (Itoa 1) = some b ∧
      Unmarshal b = Except.ok d ∧ d.AllowedViews = 0) :=
  C3_views_run_out 2 janeStub 1 "1" (janeDegree 2) (by decide!)
    ⟨by decide!, janeBytes "2", by decide!, by decide!⟩ (by decide!) (fun _ => rfl)

/-! ## What a transaction does to the stub -/

theorem PutState_cases (stub : Stub) (key value : String) :
    (∃ e, stub.PutState key value = Except.error e) ∨
      stub.PutState key value = Except.ok (stub.withValue key value) := by
  unfold Stub.PutState
  cases stub.putFailure key value with
  | none => exact Or.inr rfl
  | some e => exact Or.inl ⟨e, rfl⟩

/-- What `viewDegree` does: it leaves the stub as it is, or the key of its id held a degree
with positive views and now has that degree with one view less. -/
theorem viewDegree_effect (stub : Stub) (args : List String) :
    ((viewDegree stub args).2 = stub ∧ ∀ p, (viewDegree stub args).1 ≠ Response.Success p) ∨
    ∃ a0 bytes r, args = [a0] ∧ stub.getFailure (Itoa (Atoi a0).1) = none ∧
      stub.state (Itoa (Atoi a0).1) = some bytes ∧ Unmarshal bytes = Except.ok r ∧
      0 < r.AllowedViews ∧
      (viewDegree stub args).2 = stub.withValue (Itoa (Atoi a0).1)
        (marshalBytes { r with AllowedViews := r.AllowedViews - 1 }) := by
  unfold viewDegree
  split
  · rename_i a0
    simp only
    cases hgf : stub.getFailure (Itoa (Atoi a0).1) with
    | some e => left; simp [Stub.GetState, hgf]
    | none =>
      rw [GetState_ok stub _ hgf]
      cases hst : stub.state (Itoa (Atoi a0).1) with
      | none => left; exact ⟨rfl, fun p h => by simp at h⟩
      | some bytes =>
        simp only
        cases hdec : Unmarshal bytes with
        | error e => left; exact ⟨rfl, fun p h => by simp at h⟩
        | ok r =>
          simp only
          by_cases hle : r.AllowedViews ≤ 0
          · left; rw [if_pos hle]; exact ⟨rfl, fun p h => by simp at h⟩
          · rw [if_neg hle]
            have hv := Unmarshal_valid bytes r hdec
            have hw : wrapInt (r.AllowedViews - 1) = r.AllowedViews - 1 := by
              apply wrapInt_of_inIntRange
              obtain ⟨_, _, _, ⟨h1, h2⟩, _⟩ := hv
              constructor <;> omega
            rw [hw]
            rcases PutState_cases stub (Itoa (Atoi a0).1)
              (marshalBytes { r with AllowedViews := r.AllowedViews - 1 }) with ⟨e, he⟩ | hok
            · left; rw [he]; exact ⟨rfl, fun p h => by simp at h⟩
            · right
              exact ⟨a0, bytes, r, rfl, hgf, hst, hdec, by omega, by rw [hok]⟩
  · left; exact ⟨rfl, fun p h => by simp at h⟩

/-- What `revokeDegreeAccess` does: it leaves the stub as it is, or the key of its id held
a degree and now has that degree with 0 views. -/
theorem revoke_effect (stub : Stub) (args : List String) :
    ((revokeDegreeAccess stub args).2 = stub ∧
      ∀ p, (revokeDegreeAccess stub args).1 ≠ Response.Success p) ∨
    ∃ a0 bytes r, args = [a0] ∧ stub.getFailure (Itoa (Atoi a0).1) = none ∧
      stub.state (Itoa (Atoi a0).1) = some bytes ∧ Unmarshal bytes = Except.ok r ∧
      (revokeDegreeAccess stub args).2 = stub.withValue (Itoa (Atoi a0).1)
        (marshalBytes { r with AllowedViews := 0 }) := by
  unfold revokeDegreeAccess
  split
  · rename_i a0
    simp only
    cases hgf : stub.getFailure (Itoa (Atoi a0).1) with
    | some e => left; simp [Stub.GetState, hgf]
    | none =>
      rw [GetState_ok stub _ hgf]
      cases hst : stub.state (Itoa (Atoi a0).1) with
      | none => left; exact ⟨rfl, fun p h => by simp at h⟩
      | some bytes =>
        simp only
        cases hdec : Unmarshal bytes with
        | error e => left; exact ⟨rfl, fun p h => by simp at h⟩
        | ok r =>
          simp only
          rcases PutState_cases stub (Itoa (Atoi a0).1)
            (marshalBytes { r with AllowedViews := 0 }) with ⟨e, he⟩ | hok
          · left; rw [he]; exact ⟨rfl, fun p h => by simp at h⟩
          · right
            exact ⟨a0, bytes, r, rfl, hgf, hst, hdec, by rw [hok]⟩
  · left; exact ⟨rfl, fun p h => by simp at h⟩

/-- What `invokeDegreeAccess` does: it leaves the stub as it is, or the key of its id held
a degree and now has that degree with the wrapped sum of the views. -/
theorem grant_effect (stub : Stub) (args : List String) :
    ((invokeDegreeAccess stub args).2 = stub ∧
      ∀ p, (invokeDegreeAccess stub args).1 ≠ Response.Success p) ∨
    ∃ a0 a1 more bytes r, args = a0 :: a1 :: more ∧
      stub.getFailure (Itoa (Atoi a0).1) = none ∧
      stub.state (Itoa (Atoi a0).1) = some bytes ∧ Unmarshal bytes = Except.ok r ∧
      (invokeDegreeAccess stub args).2 = stub.withValue (Itoa (Atoi a0).1)
        (marshalBytes { r with AllowedViews := wrapInt (r.AllowedViews + (Atoi a1).1) }) := by
  unfold invokeDegreeAccess
  split
  · rename_i a0 a1 more
    simp only
    cases hgf : stub.getFailure (Itoa (Atoi a0).1) with
    | some e => left; simp [Stub.GetState, hgf]
    | none =>
      rw [GetState_ok stub _ hgf]
      cases hst : stub.state (Itoa (Atoi a0).1) with
      | none => left; exact ⟨rfl, fun p h => by simp at h⟩
      | some bytes =>
        simp only
        cases hdec : Unmarshal bytes with
        | error e => left; exact ⟨rfl, fun p h => by simp at h⟩
        | ok r =>
          simp only
          rcases PutState_cases stub (Itoa (Atoi a0).1)
            (marshalBytes { r with AllowedViews := wrapInt (r.AllowedViews + (Atoi a1).1) })
            with ⟨e, he⟩ | hok
          · left; rw [he]; exact ⟨rfl, fun p h => by simp at h⟩
          · right
            exact ⟨a0, a1, more, bytes, r, rfl, hgf, hst, hdec, by rw [hok]⟩
  · left; exact ⟨rfl, fun p h => by simp at h⟩

/-- What `createDegree` does: it leaves the stub as it is, or its arguments are well formed,
the key of its id was absent and now has the bytes of the new degree, and the
response is the success without payload. -/
theorem createDegree_effect (table : Char → Char) (stub : Stub) (args : List String) :
    ((createDegree table stub args).2 = stub ∧
      ∀ p, (createDegree table stub args).1 ≠ Response.Success p) ∨
    ∃ a0 a1 a2 a3 a4 a5 a6 bytes, args = [a0, a1, a2, a3, a4, a5, a6] ∧ wellFormedArgs args ∧
      stub.getFailure (Itoa (Atoi a0).1) = none ∧ stub.state (Itoa (Atoi a0).1) = none ∧
      Marshal ⟨"degree", (Atoi a0).1, ToLower table a1, ToLower table a2, (Atoi a3).1,
        (Atoi a4).1, (ParseFloat32 a5).1, (Atoi a6).1⟩ = Except.ok bytes ∧
      stub.putFailure (Itoa (Atoi a0).1) bytes = none ∧
      createDegree table stub args =
        (Response.Success none, stub.withValue (Itoa (Atoi a0).1) bytes) := by
  unfold createDegree
  split
  · rename_i a0 a1 a2 a3 a4 a5 a6
    simp only
    by_cases h0 : a0.length ≤ 0
    · left; rw [if_pos h0]; exact ⟨rfl, fun p h => by simp at h⟩
    rw [if_neg h0]
    by_cases h1 : a1.length ≤ 0
    · left; rw [if_pos h1]; exact ⟨rfl, fun p h => by simp at h⟩
    rw [if_neg h1]
    by_cases h2 : a2.length ≤ 0
    · left; rw [if_pos h2]; exact ⟨rfl, fun p h => by simp at h⟩
    rw [if_neg h2]
    by_cases h3 : a3.length ≤ 0
    · left; rw [if_pos h3]; exact ⟨rfl, fun p h => by simp at h⟩
    rw [if_neg h3]
    by_cases h4 : a4.length ≤ 0
    · left; rw [if_pos h4]; exact ⟨rfl, fun p h => by simp at h⟩
    rw [if_neg h4]
    by_cases h5 : a5.length ≤ 0
    · left; rw [if_pos h5]; exact ⟨rfl, fun p h => by simp at h⟩
    rw [if_neg h5]
    by_cases h6 : a6.length ≤ 0
    · left; rw [if_pos h6]; exact ⟨rfl, fun p h => by simp at h⟩
    rw [if_neg h6]
    by_cases e0 : (Atoi a0).2 ≠ none
    · left; rw [if_pos e0]; exact ⟨rfl, fun p h => by simp at h⟩
    rw [if_neg e0]
    by_cases e3 : (Atoi a3).2 ≠ none
    · left; rw [if_pos e3]; exact ⟨rfl, fun p h => by simp at h⟩
    rw [if_neg e3]
    by_cases e4 : (Atoi a4).2 ≠ none
    · left; rw [if_pos e4]; exact ⟨rfl, fun p h => by simp at h⟩
    rw [if_neg e4]
    by_cases e5 : (ParseFloat32 a5).2 ≠ none
    · left; rw [if_pos e5]; exact ⟨rfl, fun p h => by simp at h⟩
    rw [if_neg e5]
    by_cases e6 : (Atoi a6).2 ≠ none
    · left; rw [if_pos e6]; exact ⟨rfl, fun p h => by simp at h⟩
    rw [if_neg e6]
    cases hgf : stub.getFailure (Itoa (Atoi a0).1) with
    | some e => left; simp [Stub.GetState, hgf]
    | none =>
      rw [GetState_ok stub _ hgf]
      cases hst : stub.state (Itoa (Atoi a0).1) with
      | some b => left; exact ⟨rfl, fun p h => by simp at h⟩
      | none =>
        simp only
        cases hm : Marshal ⟨"degree", (Atoi a0).1, ToLower table a1, ToLower table a2,
            (Atoi a3).1, (Atoi a4).1, (ParseFloat32 a5).1, (Atoi a6).1⟩ with
        | error e => left; exact ⟨rfl, fun p h => by simp at h⟩
        | ok bytes =>
          simp only
          cases hpf : stub.putFailure (Itoa (Atoi a0).1) bytes with
          | some e => left; simp [Stub.PutState, hpf]
          | none =>
            right
            refine ⟨a0, a1, a2, a3, a4, a5, a6, bytes, rfl, ?_, hgf, hst, hm, hpf, ?_⟩
            · refine ⟨a0, a1, a2, a3, a4, a5, a6, rfl, ?_⟩
              simp only [ne_eq, not_not] at e0 e3 e4 e5 e6
              exact ⟨by omega, by omega, by omega, by omega, by omega, by omega, by omega,
                e0, e3, e4, e5, e6⟩
            · rw [PutState_ok stub _ _ hpf]
  · left; exact ⟨rfl, fun p h => by simp at h⟩

/-! ## The failure behaviour of the stub does not change -/

theorem viewDegree_failures (stub : Stub) (args : List String) :
    (viewDegree stub args).2.getFailure = stub.getFailure ∧
      (viewDegree stub args).2.putFailure = stub.putFailure := by
  rcases viewDegree_effect stub args with ⟨h, _⟩ | ⟨_, _, _, _, _, _, _, _, h⟩ <;> rw [h] <;>
    exact ⟨rfl, rfl⟩

theorem revoke_failures (stub : Stub) (args : List String) :
    (revokeDegreeAccess stub args).2.getFailure = stub.getFailure ∧
      (revokeDegreeAccess stub args).2.putFailure = stub.putFailure := by
  rcases revoke_effect stub args with ⟨h, _⟩ | ⟨_, _, _, _, _, _, _, h⟩ <;> rw [h] <;>
    exact ⟨rfl, rfl⟩

theorem grant_failures (stub : Stub) (args : List String) :
    (invokeDegreeAccess stub args).2.getFailure = stub.getFailure ∧
      (invokeDegreeAccess stub args).2.putFailure = stub.putFailure := by
  rcases grant_effect stub args with ⟨h, _⟩ | ⟨_, _, _, _, _, _, _, _, _, h⟩ <;> rw [h] <;>
    exact ⟨rfl, rfl⟩

theorem createDegree_failures (table : Char → Char) (stub : Stub) (args : List String) :
    (createDegree table stub args).2.getFailure = stub.getFailure ∧
      (createDegree table stub args).2.putFailure = stub.putFailure := by
  rcases createDegree_effect table stub args with
    ⟨h, _⟩ | ⟨_, _, _, _, _, _, _, _, _, _, _, _, _, _, h⟩ <;> rw [h] <;> exact ⟨rfl, rfl⟩

theorem viewTimes_failures (arg : String) (n : Nat) : ∀ stub : Stub,
    (viewTimes arg n stub).getFailure = stub.getFailure ∧
      (viewTimes arg n stub).putFailure = stub.putFailure := by
  induction n with
  | zero => intro stub; exact ⟨rfl, rfl⟩
  | succ n ih =>
    intro stub
    obtain ⟨h1, h2⟩ := ih (viewDegree stub [arg]).2
    obtain ⟨h3, h4⟩ := viewDegree_failures stub [arg]
    simp only [viewTimes]
    exact ⟨h1.trans h3, h2.trans h4⟩

theorem exhaustedStub_putFailure (key v : String) : exhaustedStub.putFailure key v = none := by
  unfold exhaustedStub janeStub
  rw [(viewTimes_failures "1" 2 _).2, (createDegree_failures id emptyStub janeArgs).2]
  rfl

/-! ## Revoking and granting -/

theorem ParseInt_value_range (t : List Char) : inIntRange (ParseInt t).1 := by
  unfold ParseInt
  cases t with
  | nil => exact inIntRange_zero
  | cons c cs =>
    simp only
    split
    · exact inIntRange_zero
    · rename_i un e _ _
      by_cases h1 : (!(c == '-') && decide (un ≥ 2 ^ 63)) = true
      · rw [if_pos h1]; unfold inIntRange; constructor <;> norm_num
      · rw [if_neg h1]
        by_cases h2 : ((c == '-') && decide (un > 2 ^ 63)) = true
        · rw [if_pos h2]; unfold inIntRange; constructor <;> norm_num
        · rw [if_neg h2]
          unfold inIntRange
          by_cases hneg : (c == '-') = true
          · simp only [hneg, Bool.not_true, Bool.false_and, Bool.true_and, decide_eq_true_eq,
              if_true] at h1 h2 ⊢
            omega
          · simp only [hneg, Bool.not_false, Bool.true_and, Bool.false_and, decide_eq_true_eq,
              Bool.false_eq_true, if_false] at h1 h2 ⊢
            omega

theorem Atoi_value_range (s : String) : inIntRange (Atoi s).1 := ParseInt_value_range s.data

/-- C5: for every degree the store holds (whatever its number of views, the
store's put succeeding), `revokeDegreeAccess` succeeds and leaves the degree
with 0 views, and a second call right after it succeeds as well and leaves
the stub as the first call left it. -/
theorem C5_revoke_sets_zero_idempotent (stub : Stub) (id : Int) (arg : String) (r : degree)
    (harg : (Atoi arg).1 = id) (hholds : Holds stub (Itoa id) r)
    (hput : stub.putFailure (Itoa id) (marshalBytes { r with AllowedViews := 0 }) = none) :
    (revokeDegreeAccess stub [arg]).1 = Response.Success none ∧
    Holds (revokeDegreeAccess stub [arg]).2 (Itoa id) { r with AllowedViews := 0 } ∧
    revokeDegreeAccess (revokeDegreeAccess stub [arg]).2 [arg] =
      (Response.Success none, (revokeDegreeAccess stub [arg]).2) := by
  subst harg
  obtain ⟨hgf, bytes, hst, hdec⟩ := hholds
  have hdec0 := Unmarshal_setViews bytes r 0 hdec inIntRange_zero
  have h1 := revoke_success stub arg bytes r hgf hst hdec hput
  have h2 := revoke_success (stub.withValue (Itoa (Atoi arg).1)
      (marshalBytes { r with AllowedViews := 0 })) arg _ { r with AllowedViews := 0 } hgf
    (withValue_state_self _ _ _) hdec0 hput
  rw [h1]
  refine ⟨rfl, holds_withValue stub _ _ r _ ⟨hgf, bytes, hst, hdec⟩ hdec0, ?_⟩
  simp only
  rw [h2, withValue_twice]

/-- C5 at a degree with -3 views. -/
theorem C5_witness :
    (revokeDegreeAccess negativeViewsStub ["7"]).1 = Response.Success none ∧
    Holds (revokeDegreeAccess negativeViewsStub ["7"]).2 (Itoa 7)
      { annDegree with AllowedViews := 0 } ∧
    revokeDegreeAccess (revokeDegreeAccess negativeViewsStub ["7"]).2 ["7"] =
      (Response.Success none, (revokeDegreeAccess negativeViewsStub ["7"]).2) :=
  C5_revoke_sets_zero_idempotent negativeViewsStub 7 "7" annDegree (by decide!)
    ⟨by decide!, _, rfl, by decide!⟩ (by decide!)

/-- C6, as the code has it: for every degree the store holds with `v` views
and every delta (the store's put succeeding), `invokeDegreeAccess` succeeds
and leaves the degree with the sum `v + delta` wrapped to the 64-bit range of
a Go `int`, which is exactly `v + delta` whenever that sum is in the range;
no floor at 0 and no other ceiling is applied. -/
theorem C6_grant_adds_delta_wrapped (stub : Stub) (id : Int) (a0 a1 : String)
    (more : List String) (r : degree) (delta : Int)
    (hid : (Atoi a0).1 = id) (hdelta : (Atoi a1).1 = delta) (hholds : Holds stub (Itoa id) r)
    (hput : stub.putFailure (Itoa id)
      (marshalBytes { r with AllowedViews := wrapInt (r.AllowedViews + delta) }) = none) :
    (invokeDegreeAccess stub (a0 :: a1 :: more)).1 = Response.Success none ∧
    Holds (invokeDegreeAccess stub (a0 :: a1 :: more)).2 (Itoa id)
      { r with AllowedViews := wrapInt (r.AllowedViews + delta) } ∧
    (inIntRange (r.AllowedViews + delta) →
      Holds (invokeDegreeAccess stub (a0 :: a1 :: more)).2 (Itoa id)
        { r with AllowedViews := r.AllowedViews + delta }) := by
  subst hid
  subst hdelta
  obtain ⟨hgf, bytes, hst, hdec⟩ := hholds
  have hdec' := Unmarshal_setViews bytes r _ hdec
    (inIntRange_wrapInt (r.AllowedViews + (Atoi a1).1))
  have h1 := grant_success stub a0 a1 more bytes r hgf hst hdec hput
  have hh := holds_withValue stub (Itoa (Atoi a0).1) _ r _ ⟨hgf, bytes, hst, hdec⟩ hdec'
  rw [h1]
  refine ⟨rfl, hh, fun hr => ?_⟩
  obtain ⟨g, b, hb, hd⟩ := hh
  exact ⟨g, b, hb, by rw [hd, wrapInt_of_inIntRange _ hr]⟩

/-- C6 at the scenario of the specification: 3 more views for the degree
whose 2 views are used up. -/
theorem C6_witness :
    (invokeDegreeAccess exhaustedStub ["1", "3"]).1 = Response.Success none ∧
    Holds (invokeDegreeAccess exhaustedStub ["1", "3"]).2 (Itoa 1)
      { janeDegree 0 with AllowedViews := wrapInt ((janeDegree 0).AllowedViews + 3) } ∧
    (inIntRange ((janeDegree 0).AllowedViews + 3) →
      Holds (invokeDegreeAccess exhaustedStub ["1", "3"]).2 (Itoa 1)
        { janeDegree 0 with AllowedViews := (janeDegree 0).AllowedViews + 3 }) :=
  C6_grant_adds_delta_wrapped exhaustedStub 1 "1" "3" [] (janeDegree 0) 3 (by decide!) (by decide!)
    ⟨by decide!, janeBytes "0", by decide!, by decide!⟩ (by decide!)

set_option maxRecDepth 100000 in
/-- C6 fails as stated: one more view for a degree that has the largest
number of views an `int` holds succeeds and leaves the smallest `int`, not
the sum. -/
theorem C6_counterexample :
    Holds maxViewsStub (Itoa 1) maxViewsDegree ∧
    maxViewsDegree.AllowedViews = 9223372036854775807 ∧
    Atoi "1" = (1, none) ∧
    (∀ v, maxViewsStub.putFailure (Itoa 1) v = none) ∧
    (invokeDegreeAccess maxViewsStub ["1", "1"]).1 = Response.Success none ∧
    Holds (invokeDegreeAccess maxViewsStub ["1", "1"]).2 (Itoa 1)
      { maxViewsDegree with AllowedViews := -9223372036854775808 } ∧
    ¬ Holds (invokeDegreeAccess maxViewsStub ["1", "1"]).2 (Itoa 1)
      { maxViewsDegree with AllowedViews := 9223372036854775807 + 1 } := by
  refine ⟨⟨by decide!, _, rfl, by decide!⟩, by decide!, by decide!, fun _ => rfl, by decide!,
    ⟨by decide!, _, rfl, by decide!⟩, ?_⟩
  rintro ⟨_, b, hb, hd⟩
  have hst : (invokeDegreeAccess maxViewsStub ["1", "1"]).2.state (Itoa 1) =
      some (marshalBytes { maxViewsDegree with AllowedViews := -9223372036854775808 }) := by
    decide!
  rw [hst] at hb
  injection hb with hb
  rw [← hb] at hd
  have hd2 : Unmarshal (marshalBytes { maxViewsDegree with AllowedViews := -9223372036854775808 })
      = Except.ok { maxViewsDegree with AllowedViews := -9223372036854775808 } := by decide!
  rw [hd2] at hd
  exact absurd hd (by decide)

/-- C7: for every degree the store holds with 0 views and every delta above 0
(the store's put succeeding), `invokeDegreeAccess` succeeds and the next
`viewDegree` succeeds with a snapshot that decodes to `delta` views. -/
theorem C7_topup_reenables_viewing (stub : Stub) (id : Int) (a0 a1 arg : String)
    (more : List String) (r : degree) (delta : Int)
    (hid : (Atoi a0).1 = id) (harg : (Atoi arg).1 = id) (hdelta : (Atoi a1).1 = delta)
    (hholds : Holds stub (Itoa id) r) (hzero : r.AllowedViews = 0) (hpos : 0 < delta)
    (hput : ∀ v, stub.putFailure (Itoa id) v = none) :
    (invokeDegreeAccess stub (a0 :: a1 :: more)).1 = Response.Success none ∧
    ∃ snapshot d,
      (viewDegree (invokeDegreeAccess stub (a0 :: a1 :: more)).2 [arg]).1
        = Response.Success (some snapshot) ∧
      Unmarshal snapshot = Except.ok d ∧ d.AllowedViews = delta := by
  subst hdelta
  have hrange : inIntRange (r.AllowedViews + (Atoi a1).1) := by
    rw [hzero, zero_add]; exact Atoi_value_range a1
  obtain ⟨hgf, bytes, hst, hdec⟩ := hholds
  have hdec' := Unmarshal_setViews bytes r _ hdec
    (inIntRange_wrapInt (r.AllowedViews + (Atoi a1).1))
  have h1 := grant_success stub a0 a1 more bytes r (by rw [hid]; exact hgf)
    (by rw [hid]; exact hst) hdec (by rw [hid]; exact hput _)
  rw [h1]
  refine ⟨rfl, _, _, ?_, hdec', ?_⟩
  · simp only
    have hpos' : 0 < ({ r with AllowedViews := wrapInt (r.AllowedViews + (Atoi a1).1) }
        : degree).AllowedViews := by
      simp only
      rw [wrapInt_of_inIntRange _ hrange, hzero, zero_add]; exact hpos
    have h2 := viewDegree_success (stub.withValue (Itoa (Atoi a0).1) _) arg _ _
      (by rw [harg, hid]; exact hgf)
      (by rw [harg, ← hid]; exact withValue_state_self _ _ _) hdec' hpos'
      (by rw [harg]; exact hput _)
    rw [h2]
  · simp only
    rw [wrapInt_of_inIntRange _ hrange, hzero, zero_add]

set_option maxRecDepth 100000 in
/-- C7 at the scenario of the specification: the degree is created with 2
views, two views succeed with the snapshots of 2 and of 1 views, the third is
refused; granting 3 views succeeds and the next view succeeds with a snapshot
of 3 views. -/
theorem C7_witness :
    ((createDegree id emptyStub janeArgs).1 = Response.Success none ∧
      (viewDegree janeStub ["1"]).1 = Response.Success (some (janeBytes "2")) ∧
      (viewDegree (viewTimes "1" 1 janeStub) ["1"]).1 = Response.Success (some (janeBytes "1")) ∧
      (viewDegree exhaustedStub ["1"]).1 =
        Response.Error "\x7b\"Error\":\"No rights to view degree 1\"\x7d") ∧
    ((invokeDegreeAccess exhaustedStub ["1", "3"]).1 = Response.Success none ∧
      ∃ snapshot d,
        (viewDegree (invokeDegreeAccess exhaustedStub ["1", "3"]).2 ["1"]).1
          = Response.Success (some snapshot) ∧
        Unmarshal snapshot = Except.ok d ∧ d.AllowedViews = 3) :=
  ⟨⟨by decide!, by decide!, by decide!, by decide!⟩,
    C7_topup_reenables_viewing exhaustedStub 1 "1" "3" "1" [] (janeDegree 0) 3 (by decide!)
      (by decide!) (by decide!) ⟨by decide!, janeBytes "0", by decide!, by decide!⟩ (by decide!)
      (by decide!) (fun v => exhaustedStub_putFailure _ v)⟩

/-! ## Revocation blocks viewing -/

theorem holds_withValue_other (stub : Stub) (key k v : String) (r : degree) (hk : key ≠ k)
    (hh : Holds stub key r) : Holds (stub.withValue k v) key r := by
  obtain ⟨hgf, b, hst, hdec⟩ := hh
  exact ⟨hgf, b, by rw [withValue_state_other _ _ _ _ hk]; exact hst, hdec⟩

theorem blocked_withValue_other (stub : Stub) (key k v : String) (hk : key ≠ k)
    (hb : Blocked stub key) : Blocked (stub.withValue k v) key := by
  obtain ⟨r, hh, hle⟩ := hb
  exact ⟨r, holds_withValue_other stub key k v r hk hh, hle⟩

/-- An invocation that is not a grant to the id keeps viewing of the id
blocked. -/
theorem Invoke_keeps_blocked (table : Char → Char) (stub : Stub) (id : Int) (f : String)
    (args : List String) (hb : Blocked stub (Itoa id)) (hng : ¬ grantsTo id (f, args)) :
    Blocked (Invoke table stub f args).2 (Itoa id) := by
  obtain ⟨r, ⟨hgf, b, hst, hdec⟩, hle⟩ := hb
  have hb : Blocked stub (Itoa id) := ⟨r, ⟨hgf, b, hst, hdec⟩, hle⟩
  unfold Invoke
  split_ifs with h1 h2 h3 h4
  · rcases createDegree_effect table stub args with
      ⟨h, _⟩ | ⟨a0, _, _, _, _, _, _, bytes, _, _, _, habs, _, _, h⟩
    · rw [h]; exact hb
    · rw [h]
      apply blocked_withValue_other _ _ _ _ _ hb
      intro hk
      rw [← hk, hst] at habs
      exact absurd habs (by simp)
  · rcases grant_effect stub args with ⟨h, _⟩ | ⟨a0, a1, more, _, _, hargs, _, _, _, h⟩
    · rw [h]; exact hb
    · rw [h]
      apply blocked_withValue_other _ _ _ _ _ hb
      intro hk
      exact hng ⟨h2, a0, a1, more, hargs, (Itoa_injective _ _ hk).symm⟩
  · rcases viewDegree_effect stub args with ⟨h, _⟩ | ⟨a0, bytes, r', _, _, hst', hdec', hpos, h⟩
    · rw [h]; exact hb
    · rw [h]
      apply blocked_withValue_other _ _ _ _ _ hb
      intro hk
      rw [← hk, hst] at hst'
      injection hst' with hbb
      rw [← hbb, hdec] at hdec'
      injection hdec' with hrr
      rw [← hrr] at hpos
      omega
  · rcases revoke_effect stub args with ⟨h, _⟩ | ⟨a0, bytes, r', _, _, hst', hdec', h⟩
    · rw [h]; exact hb
    · rw [h]
      by_cases hk : Itoa id = Itoa (Atoi a0).1
      · rw [← hk]
        rw [← hk, hst] at hst'
        injection hst' with hbb
        rw [← hbb] at hdec'
        exact ⟨{ r' with AllowedViews := 0 },
          holds_withValue stub _ _ r _ ⟨hgf, b, hst, hdec⟩
            (Unmarshal_setViews b r' 0 hdec' inIntRange_zero), le_refl _⟩
      · exact blocked_withValue_other _ _ _ _ hk hb
  · exact hb

theorem runCalls_keeps_blocked (table : Char → Char) (id : Int)
    (calls : List (String × List String)) : ∀ stub : Stub, Blocked stub (Itoa id) →
    (∀ call ∈ calls, ¬ grantsTo id call) → Blocked (runCalls table stub calls) (Itoa id) := by
  induction calls with
  | nil => intro stub hb _; exact hb
  | cons call calls ih =>
    intro stub hb hng
    simp only [runCalls]
    apply ih
    · exact Invoke_keeps_blocked table stub id call.1 call.2 hb
        (hng call (List.mem_cons_self _ _))
    · exact fun c hc => hng c (List.mem_cons_of_mem _ hc)

/-- C4: after a successful `revokeDegreeAccess` on an id, and after any
further invocations none of which is an `invokeDegreeAccess` on that id,
`viewDegree` on the id fails with the error `No rights to view degree` and
leaves the stub as it is. -/
theorem C4_revocation_blocks_viewing (table : Char → Char) (stub stub1 : Stub) (id : Int)
    (arg0 arg : String) (calls : List (String × List String))
    (harg0 : (Atoi arg0).1 = id) (harg : (Atoi arg).1 = id)
    (hrevoke : revokeDegreeAccess stub [arg0] = (Response.Success none, stub1))
    (hcalls : ∀ call ∈ calls, ¬ grantsTo id call) :
    viewDegree (runCalls table stub1 calls) [arg] =
      (Response.Error ("\x7b\"Error\":\"No rights to view degree " ++ Itoa id ++ "\"\x7d"),
        runCalls table stub1 calls) := by
  have hb1 : Blocked stub1 (Itoa id) := by
    rcases revoke_effect stub [arg0] with ⟨_, hno⟩ | ⟨a0, bytes, r, ha, hgf, hst, hdec, h⟩
    · exact absurd (congrArg Prod.fst hrevoke) (hno none)
    · simp only [List.cons.injEq, and_true] at ha
      subst ha
      rw [hrevoke] at h
      simp only at h
      rw [h, ← harg0]
      exact ⟨{ r with AllowedViews := 0 },
        holds_withValue stub _ _ r _ ⟨hgf, bytes, hst, hdec⟩
          (Unmarshal_setViews bytes r 0 hdec inIntRange_zero), le_refl _⟩
  obtain ⟨r, ⟨hgf, b, hst, hdec⟩, hle⟩ := runCalls_keeps_blocked table id calls stub1 hb1 hcalls
  subst harg
  exact viewDegree_norights _ arg b r hgf hst hdec hle

set_option maxRecDepth 100000 in
/-- C4 at the scenario of the specification: the degree is revoked while it
has 2 views; a view, a second creation with the same id, a grant to another
id and a second revocation follow; the next view is refused. -/
theorem C4_witness :
    viewDegree (runCalls id (revokeDegreeAccess janeStub ["1"]).2
        [("viewDegree", ["1"]), ("createDegree", johnArgs),
         ("invokeDegreeAccess", ["2", "5"]), ("revokeAccess", ["1"])]) ["1"] =
      (Response.Error ("\x7b\"Error\":\"No rights to view degree " ++ Itoa 1 ++ "\"\x7d"),
        runCalls id (revokeDegreeAccess janeStub ["1"]).2
          [("viewDegree", ["1"]), ("createDegree", johnArgs),
           ("invokeDegreeAccess", ["2", "5"]), ("revokeAccess", ["1"])]) :=
  C4_revocation_blocks_viewing id janeStub (revokeDegreeAccess janeStub ["1"]).2 1 "1" "1"
    [("viewDegree", ["1"]), ("createDegree", johnArgs),
     ("invokeDegreeAccess", ["2", "5"]), ("revokeAccess", ["1"])]
    (by decide!) (by decide!) (Prod.ext (by decide!) rfl)
    (by
      intro call hc
      simp only [List.mem_cons, List.mem_singleton, List.not_mem_nil, or_false] at hc
      rcases hc with h | h | h | h <;> subst h <;> rintro ⟨hf, a0, a1, rest, hargs, hid⟩
      · exact absurd hf (by decide)
      · exact absurd hf (by decide)
      · simp only [List.cons.injEq] at hargs
        rw [← hargs.1] at hid
        exact absurd hid (by decide!)
      · exact absurd hf (by decide))

/-! ## Creating -/

theorem createDegree_exists (table : Char → Char) (stub : Stub) (a0 a1 a2 a3 a4 a5 a6 x : String)
    (hwf : wellFormedArgs [a0, a1, a2, a3, a4, a5, a6])
    (hgf : stub.getFailure (Itoa (Atoi a0).1) = none)
    (hst : stub.state (Itoa (Atoi a0).1) = some x) :
    createDegree table stub [a0, a1, a2, a3, a4, a5, a6] =
      (Response.Error ("This degree already exists: " ++ Itoa (Atoi a0).1), stub) := by
  obtain ⟨b0, b1, b2, b3, b4, b5, b6, heq, h0, h1, h2, h3, h4, h5, h6, e0, e3, e4, e5, e6⟩ := hwf
  simp only [List.cons.injEq, and_true] at heq
  obtain ⟨r0, r1, r2, r3, r4, r5, r6⟩ := heq
  subst r0 r1 r2 r3 r4 r5 r6
  have n0 : ¬ a0.length ≤ 0 := by omega
  have n1 : ¬ a1.length ≤ 0 := by omega
  have n2 : ¬ a2.length ≤ 0 := by omega
  have n3 : ¬ a3.length ≤ 0 := by omega
  have n4 : ¬ a4.length ≤ 0 := by omega
  have n5 : ¬ a5.length ≤ 0 := by omega
  have n6 : ¬ a6.length ≤ 0 := by omega
  unfold createDegree
  simp only
  rw [if_neg n0, if_neg n1, if_neg n2, if_neg n3, if_neg n4, if_neg n5, if_neg n6,
    if_neg (by simp [e0]), if_neg (by simp [e3]), if_neg (by simp [e4]), if_neg (by simp [e5]),
    if_neg (by simp [e6])]
  rw [GetState_ok stub _ hgf, hst]

theorem created_valid (table : Char → Char) (a0 a1 a2 a3 a4 a5 a6 : String)
    (hfin : (ParseFloat32 a5).1.bits < infBits) :
    degree.Valid ⟨"degree", (Atoi a0).1, ToLower table a1, ToLower table a2, (Atoi a3).1,
      (Atoi a4).1, (ParseFloat32 a5).1, (Atoi a6).1⟩ :=
  ⟨Atoi_value_range a0, Atoi_value_range a3, Atoi_value_range a4, Atoi_value_range a6, hfin⟩

theorem createDegree_success (table : Char → Char) (stub : Stub)
    (a0 a1 a2 a3 a4 a5 a6 : String) (hwf : wellFormedArgs [a0, a1, a2, a3, a4, a5, a6])
    (hgf : stub.getFailure (Itoa (Atoi a0).1) = none)
    (hst : stub.state (Itoa (Atoi a0).1) = none)
    (hfin : (ParseFloat32 a5).1.bits < infBits)
    (hput : stub.putFailure (Itoa (Atoi a0).1)
      (marshalBytes ⟨"degree", (Atoi a0).1, ToLower table a1, ToLower table a2, (Atoi a3).1,
        (Atoi a4).1, (ParseFloat32 a5).1, (Atoi a6).1⟩) = none) :
    createDegree table stub [a0, a1, a2, a3, a4, a5, a6] =
      (Response.Success none, stub.withValue (Itoa (Atoi a0).1)
        (marshalBytes ⟨"degree", (Atoi a0).1, ToLower table a1, ToLower table a2, (Atoi a3).1,
          (Atoi a4).1, (ParseFloat32 a5).1, (Atoi a6).1⟩)) := by
  obtain ⟨b, hb, _⟩ := Unmarshal_Marshal _ (created_valid table a0 a1 a2 a3 a4 a5 a6 hfin)
  have hmb : marshalBytes ⟨"degree", (Atoi a0).1, ToLower table a1, ToLower table a2,
      (Atoi a3).1, (Atoi a4).1, (ParseFloat32 a5).1, (Atoi a6).1⟩ = b := by
    unfold marshalBytes; rw [hb]
  rw [hmb] at hput ⊢
  obtain ⟨b0, b1, b2, b3, b4, b5, b6, heq, h0, h1, h2, h3, h4, h5, h6, e0, e3, e4, e5, e6⟩ := hwf
  simp only [List.cons.injEq, and_true] at heq
  obtain ⟨r0, r1, r2, r3, r4, r5, r6⟩ := heq
  subst r0 r1 r2 r3 r4 r5 r6
  have n0 : ¬ a0.length ≤ 0 := by omega
  have n1 : ¬ a1.length ≤ 0 := by omega
  have n2 : ¬ a2.length ≤ 0 := by omega
  have n3 : ¬ a3.length ≤ 0 := by omega
  have n4 : ¬ a4.length ≤ 0 := by omega
  have n5 : ¬ a5.length ≤ 0 := by omega
  have n6 : ¬ a6.length ≤ 0 := by omega
  unfold createDegree
  simp only
  rw [if_neg n0, if_neg n1, if_neg n2, if_neg n3, if_neg n4, if_neg n5, if_neg n6,
    if_neg (by simp [e0]), if_neg (by simp [e3]), if_neg (by simp [e4]), if_neg (by simp [e5]),
    if_neg (by simp [e6])]
  rw [GetState_ok stub _ hgf, hst]
  simp only [hb, PutState_ok stub _ _ hput]

theorem ToLower_length (table : Char → Char) (s : String) :
    (ToLower table s).length = s.length := by
  cases s with
  | mk cs => exact List.length_map _ _

/-- C8: when a `createDegree` succeeds, a second `createDegree` with
well-formed arguments that name the same id fails with the error
`This degree already exists` and leaves the stub as the first call left it,
whatever the other arguments of the second call are. -/
theorem C8_second_create_rejected (table : Char → Char) (stub stub1 : Stub)
    (args1 args2 : List String) (payload : Option String)
    (hwf2 : wellFormedArgs args2) (hsame : argsId args2 = argsId args1)
    (hfirst : createDegree table stub args1 = (Response.Success payload, stub1)) :
    createDegree table stub1 args2 =
      (Response.Error ("This degree already exists: " ++ Itoa (argsId args1)), stub1) := by
  rcases createDegree_effect table stub args1 with
    ⟨_, hno⟩ | ⟨a0, a1, a2, a3, a4, a5, a6, bytes, hargs, _, hgf, _, _, _, h⟩
  · exact absurd (congrArg Prod.fst hfirst) (hno payload)
  · rw [hfirst] at h
    simp only [Prod.mk.injEq] at h
    obtain ⟨_, hs1⟩ := h
    obtain ⟨b0, b1, b2, b3, b4, b5, b6, hargs2, hrest⟩ := hwf2
    have hwf2 : wellFormedArgs args2 := ⟨b0, b1, b2, b3, b4, b5, b6, hargs2, hrest⟩
    subst hargs hargs2
    have hid : (Atoi b0).1 = (Atoi a0).1 := hsame
    have hid1 : argsId [a0, a1, a2, a3, a4, a5, a6] = (Atoi a0).1 := rfl
    rw [hid1, ← hid]
    apply createDegree_exists table stub1 b0 b1 b2 b3 b4 b5 b6 bytes hwf2
    · rw [hs1, hid]; exact hgf
    · rw [hs1, hid]; exact withValue_state_self _ _ _

set_option maxRecDepth 100000 in
/-- C8 at the scenario of the specification: a second degree with id 1 and
other names, years and views. -/
theorem C8_witness :
    createDegree id janeStub johnArgs =
      (Response.Error ("This degree already exists: " ++ Itoa (argsId janeArgs)), janeStub) :=
  C8_second_create_rejected id emptyStub janeStub janeArgs johnArgs none
    ⟨"1", "John Roe", "Yale", "3", "2019", "2.1", "9", rfl, by decide!, by decide!, by decide!,
      by decide!, by decide!, by decide!, by decide!, by decide!, by decide!, by decide!,
      by decide!, by decide!⟩
    (by decide!) (Prod.ext (by decide!) rfl)

/-- C9, as the code has it: for well-formed arguments whose grade point
average is finite and whose number of allowed views is positive, with the id
not yet present and the store's get and put succeeding, `createDegree`
succeeds and a `viewDegree` on the same id right after it succeeds with a
snapshot that decodes to the number of views passed to `createDegree`. -/
theorem C9_create_then_view (table : Char → Char) (stub : Stub)
    (a0 a1 a2 a3 a4 a5 a6 arg : String) (hwf : wellFormedArgs [a0, a1, a2, a3, a4, a5, a6])
    (harg : (Atoi arg).1 = (Atoi a0).1)
    (hget : stub.getFailure (Itoa (Atoi a0).1) = none)
    (habsent : stub.state (Itoa (Atoi a0).1) = none)
    (hput : ∀ v, stub.putFailure (Itoa (Atoi a0).1) v = none)
    (hfinite : (ParseFloat32 a5).1.bits < infBits) (hpos : 0 < (Atoi a6).1) :
    (createDegree table stub [a0, a1, a2, a3, a4, a5, a6]).1 = Response.Success none ∧
    ∃ snapshot d,
      (viewDegree (createDegree table stub [a0, a1, a2, a3, a4, a5, a6]).2 [arg]).1
        = Response.Success (some snapshot) ∧
      Unmarshal snapshot = Except.ok d ∧ d.AllowedViews = (Atoi a6).1 := by
  have hc := createDegree_success table stub a0 a1 a2 a3 a4 a5 a6 hwf hget habsent hfinite
    (hput _)
  have hdec := marshalBytes_roundtrip _ (created_valid table a0 a1 a2 a3 a4 a5 a6 hfinite)
  rw [hc]
  refine ⟨rfl, _, _, ?_, hdec, rfl⟩
  have hv := viewDegree_success (stub.withValue (Itoa (Atoi a0).1) _) arg _ _
    (by rw [harg]; exact hget) (by rw [harg]; exact withValue_state_self _ _ _) hdec hpos
    (by rw [harg]; exact hput _)
  simp only
  rw [hv]

set_option maxRecDepth 100000 in
/-- C9 at the scenario of the specification. -/
theorem C9_witness :
    (createDegree id emptyStub ["1", "Jane Doe", "MIT", "4", "2020", "3.9", "2"]).1
      = Response.Success none ∧
    ∃ snapshot d,
      (viewDegree (createDegree id emptyStub
          ["1", "Jane Doe", "MIT", "4", "2020", "3.9", "2"]).2 ["1"]).1
        = Response.Success (some snapshot) ∧
      Unmarshal snapshot = Except.ok d ∧ d.AllowedViews = (Atoi "2").1 :=
  C9_create_then_view id emptyStub "1" "Jane Doe" "MIT" "4" "2020" "3.9" "2" "1"
    ⟨"1", "Jane Doe", "MIT", "4", "2020", "3.9", "2", rfl, by decide!, by decide!, by decide!,
      by decide!, by decide!, by decide!, by decide!, by decide!, by decide!, by decide!,
      by decide!, by decide!⟩
    (by decide!) rfl rfl (fun _ => rfl) (by decide!) (by decide!)

set_option maxRecDepth 100000 in
/-- C9 fails as stated: the arguments of the example in the comments of
`createDegree`, with 0 allowed views, are valid and the id is not present;
`createDegree` succeeds and the `viewDegree` right after it is refused. -/
theorem C9_counterexample :
    wellFormedArgs anasArgs ∧
    emptyStub.GetState (Itoa (argsId anasArgs)) = Except.ok none ∧
    (createDegree id emptyStub anasArgs).1 = Response.Success none ∧
    (viewDegree (createDegree id emptyStub anasArgs).2 ["1"]).1 =
      Response.Error "\x7b\"Error\":\"No rights to view degree 1\"\x7d" :=
  ⟨⟨"1", "muhammad anas", "BU", "4", "2019", "3.42", "0", rfl, by decide!, by decide!,
      by decide!, by decide!, by decide!, by decide!, by decide!, by decide!, by decide!,
      by decide!, by decide!, by decide!⟩,
    by decide!, by decide!, by decide!⟩

/-- The stub `createDegree` returns is the stub it was given after the
`PutState` calls of `createDegreePuts`. -/
theorem createDegree_applyPuts (table : Char → Char) (stub : Stub) (args : List String) :
    (createDegree table stub args).2 = applyPuts stub (createDegreePuts table stub args) := by
  unfold createDegree createDegreePuts
  split
  · rename_i a0 a1 a2 a3 a4 a5 a6
    simp only
    by_cases h0 : a0.length ≤ 0
    · rw [if_pos h0, if_pos (Or.inl h0)]; rfl
    rw [if_neg h0]
    by_cases h1 : a1.length ≤ 0
    · rw [if_pos h1, if_pos (Or.inr (Or.inl h1))]; rfl
    rw [if_neg h1]
    by_cases h2 : a2.length ≤ 0
    · rw [if_pos h2, if_pos (Or.inr (Or.inr (Or.inl h2)))]; rfl
    rw [if_neg h2]
    by_cases h3 : a3.length ≤ 0
    · rw [if_pos h3, if_pos (Or.inr (Or.inr (Or.inr (Or.inl h3))))]; rfl
    rw [if_neg h3]
    by_cases h4 : a4.length ≤ 0
    · rw [if_pos h4, if_pos (Or.inr (Or.inr (Or.inr (Or.inr (Or.inl h4)))))]; rfl
    rw [if_neg h4]
    by_cases h5 : a5.length ≤ 0
    · rw [if_pos h5, if_pos (Or.inr (Or.inr (Or.inr (Or.inr (Or.inr (Or.inl h5))))))]; rfl
    rw [if_neg h5]
    by_cases h6 : a6.length ≤ 0
    · rw [if_pos h6, if_pos (Or.inr (Or.inr (Or.inr (Or.inr (Or.inr (Or.inr h6))))))]; rfl
    have hA : ¬ (a0.length ≤ 0 ∨ a1.length ≤ 0 ∨ a2.length ≤ 0 ∨ a3.length ≤ 0 ∨
        a4.length ≤ 0 ∨ a5.length ≤ 0 ∨ a6.length ≤ 0) := by
      rintro (h | h | h | h | h | h | h)
      · exact h0 h
      · exact h1 h
      · exact h2 h
      · exact h3 h
      · exact h4 h
      · exact h5 h
      · exact h6 h
    rw [if_neg h6, if_neg hA]
    by_cases e0 : (Atoi a0).2 ≠ none
    · rw [if_pos e0, if_pos (Or.inl e0)]; rfl
    rw [if_neg e0]
    by_cases e3 : (Atoi a3).2 ≠ none
    · rw [if_pos e3, if_pos (Or.inr (Or.inl e3))]; rfl
    rw [if_neg e3]
    by_cases e4 : (Atoi a4).2 ≠ none
    · rw [if_pos e4, if_pos (Or.inr (Or.inr (Or.inl e4)))]; rfl
    rw [if_neg e4]
    by_cases e5 : (ParseFloat32 a5).2 ≠ none
    · rw [if_pos e5, if_pos (Or.inr (Or.inr (Or.inr (Or.inl e5))))]; rfl
    rw [if_neg e5]
    by_cases e6 : (Atoi a6).2 ≠ none
    · rw [if_pos e6, if_pos (Or.inr (Or.inr (Or.inr (Or.inr e6))))]; rfl
    have hB : ¬ ((Atoi a0).2 ≠ none ∨ (Atoi a3).2 ≠ none ∨ (Atoi a4).2 ≠ none ∨
        (ParseFloat32 a5).2 ≠ none ∨ (Atoi a6).2 ≠ none) := by
      rintro (h | h | h | h | h)
      · exact e0 h
      · exact e3 h
      · exact e4 h
      · exact e5 h
      · exact e6 h
    rw [if_neg e6, if_neg hB]
    cases hg : stub.GetState (Itoa (Atoi a0).1) with
    | error e => rfl
    | ok o =>
      cases o with
      | some b => rfl
      | none =>
        simp only
        cases hm : Marshal ⟨"degree", (Atoi a0).1, ToLower table a1, ToLower table a2,
            (Atoi a3).1, (Atoi a4).1, (ParseFloat32 a5).1, (Atoi a6).1⟩ with
        | error e => rfl
        | ok bytes =>
          simp only [applyPuts]
          cases hp : stub.PutState (Itoa (Atoi a0).1) bytes with
          | error e => rfl
          | ok stub1 => rfl
  · rfl

/-- The puts of a `createDegree` that passes all checks: the one call with the
key of the id and the bytes of the degree. -/
theorem createDegreePuts_success (table : Char → Char) (stub : Stub)
    (a0 a1 a2 a3 a4 a5 a6 : String) (hwf : wellFormedArgs [a0, a1, a2, a3, a4, a5, a6])
    (hgf : stub.getFailure (Itoa (Atoi a0).1) = none)
    (hst : stub.state (Itoa (Atoi a0).1) = none)
    (hfin : (ParseFloat32 a5).1.bits < infBits) :
    createDegreePuts table stub [a0, a1, a2, a3, a4, a5, a6] =
      [(Itoa (Atoi a0).1, marshalBytes ⟨"degree", (Atoi a0).1, ToLower table a1,
        ToLower table a2, (Atoi a3).1, (Atoi a4).1, (ParseFloat32 a5).1, (Atoi a6).1⟩)] := by
  obtain ⟨b, hb, _⟩ := Unmarshal_Marshal _ (created_valid table a0 a1 a2 a3 a4 a5 a6 hfin)
  have hmb : marshalBytes ⟨"degree", (Atoi a0).1, ToLower table a1, ToLower table a2,
      (Atoi a3).1, (Atoi a4).1, (ParseFloat32 a5).1, (Atoi a6).1⟩ = b := by
    unfold marshalBytes; rw [hb]
  rw [hmb]
  obtain ⟨b0, b1, b2, b3, b4, b5, b6, heq, h0, h1, h2, h3, h4, h5, h6, e0, e3, e4, e5, e6⟩ := hwf
  simp only [List.cons.injEq, and_true] at heq
  obtain ⟨r0, r1, r2, r3, r4, r5, r6⟩ := heq
  subst r0 r1 r2 r3 r4 r5 r6
  unfold createDegreePuts
  simp only
  rw [if_neg (by omega), if_neg (by simp [e0, e3, e4, e5, e6]), GetState_ok stub _ hgf, hst]
  simp only [hb]

theorem ToLower_data (table : Char → Char) (s : String) :
    (ToLower table s).data = s.data.map (fun c =>
      if 65 ≤ c.toNat ∧ c.toNat ≤ 90 then Char.ofNat (c.toNat + 32)
      else if c.toNat < 128 then c else table c) := by
  unfold ToLower
  simp only
  apply List.map_congr_left
  intro c _
  unfold lowerAscii
  by_cases h : c.toNat < 128
  · rw [if_pos h]
    by_cases hu : 65 ≤ c.toNat ∧ c.toNat ≤ 90
    · rw [if_pos hu, if_pos hu]
    · rw [if_neg hu, if_neg hu, if_pos h]
  · rw [if_neg h, if_neg (by omega), if_neg h]

/-- C10, as the code has it: for well-formed arguments whose grade point
average is finite, with no entry at the key of the id and the store's get and
put succeeding, `createDegree` succeeds with an empty payload and makes exactly
one `PutState` call, with the key of the id; the stub afterwards is the stub
before after that call, and differs from it only at that key, where it has
the bytes of the call. They
decode to the degree with the kind `degree`, the parsed id, the lower-case
forms of the two names and the parsed values of the other four arguments. The
lower-case form of a name has every ASCII capital letter replaced by its small
letter (32 code points up), the other ASCII characters as they are and the
characters outside ASCII as the Unicode table maps them; it is not empty. -/
theorem C10_create_writes_degree (table : Char → Char) (stub : Stub)
    (a0 a1 a2 a3 a4 a5 a6 : String) (hwf : wellFormedArgs [a0, a1, a2, a3, a4, a5, a6])
    (hget : stub.getFailure (Itoa (Atoi a0).1) = none)
    (habsent : stub.state (Itoa (Atoi a0).1) = none)
    (hfinite : (ParseFloat32 a5).1.bits < infBits)
    (hput : ∀ v, stub.putFailure (Itoa (Atoi a0).1) v = none) :
    ∃ bytes,
      createDegree table stub [a0, a1, a2, a3, a4, a5, a6] =
        (Response.Success none, stub.withValue (Itoa (Atoi a0).1) bytes) ∧
      createDegreePuts table stub [a0, a1, a2, a3, a4, a5, a6] = [(Itoa (Atoi a0).1, bytes)] ∧
      (createDegree table stub [a0, a1, a2, a3, a4, a5, a6]).2 =
        applyPuts stub (createDegreePuts table stub [a0, a1, a2, a3, a4, a5, a6]) ∧
      (∀ k, k ≠ Itoa (Atoi a0).1 →
        (createDegree table stub [a0, a1, a2, a3, a4, a5, a6]).2.state k = stub.state k) ∧
      Unmarshal bytes = Except.ok ⟨"degree", (Atoi a0).1, ToLower table a1, ToLower table a2,
        (Atoi a3).1, (Atoi a4).1, (ParseFloat32 a5).1, (Atoi a6).1⟩ ∧
      (ToLower table a1).data = a1.data.map (fun c =>
        if 65 ≤ c.toNat ∧ c.toNat ≤ 90 then Char.ofNat (c.toNat + 32)
        else if c.toNat < 128 then c else table c) ∧
      (ToLower table a2).data = a2.data.map (fun c =>
        if 65 ≤ c.toNat ∧ c.toNat ≤ 90 then Char.ofNat (c.toNat + 32)
        else if c.toNat < 128 then c else table c) ∧
      0 < (ToLower table a1).length ∧ 0 < (ToLower table a2).length := by
  have hc := createDegree_success table stub a0 a1 a2 a3 a4 a5 a6 hwf hget habsent hfinite
    (hput _)
  have hp := createDegreePuts_success table stub a0 a1 a2 a3 a4 a5 a6 hwf hget habsent hfinite
  have hdec := marshalBytes_roundtrip _ (created_valid table a0 a1 a2 a3 a4 a5 a6 hfinite)
  obtain ⟨b0, b1, b2, b3, b4, b5, b6, heq, _, h1, h2, _⟩ := hwf
  simp only [List.cons.injEq, and_true] at heq
  obtain ⟨_, r1, r2, _⟩ := heq
  subst r1 r2
  refine ⟨_, hc, hp, createDegree_applyPuts table stub _, ?_, hdec, ToLower_data table _,
    ToLower_data table _, ?_, ?_⟩
  · intro k hk
    rw [hc]
    exact withValue_state_other _ _ _ _ hk
  · rw [ToLower_length]; exact h1
  · rw [ToLower_length]; exact h2

set_option maxRecDepth 100000 in
/-- C10 at the scenario of the specification: the one `PutState` call has
the key `1` and the bytes of the degree, in which `Jane Doe` and `MIT` are
`jane doe` and `mit`. -/
theorem C10_witness :
    (∃ bytes,
      createDegree id emptyStub ["1", "Jane Doe", "MIT", "4", "2020", "3.9", "2"] =
        (Response.Success none, emptyStub.withValue (Itoa (Atoi "1").1) bytes) ∧
      createDegreePuts id emptyStub ["1", "Jane Doe", "MIT", "4", "2020", "3.9", "2"] =
        [(Itoa (Atoi "1").1, bytes)] ∧
      (createDegree id emptyStub ["1", "Jane Doe", "MIT", "4", "2020", "3.9", "2"]).2 =
        applyPuts emptyStub
          (createDegreePuts id emptyStub ["1", "Jane Doe", "MIT", "4", "2020", "3.9", "2"]) ∧
      (∀ k, k ≠ Itoa (Atoi "1").1 →
        (createDegree id emptyStub ["1", "Jane Doe", "MIT", "4", "2020", "3.9", "2"]).2.state k
          = emptyStub.state k) ∧
      Unmarshal bytes = Except.ok ⟨"degree", (Atoi "1").1, ToLower id "Jane Doe",
        ToLower id "MIT", (Atoi "4").1, (Atoi "2020").1, (ParseFloat32 "3.9").1, (Atoi "2").1⟩ ∧
      (ToLower id "Jane Doe").data = "Jane Doe".data.map (fun c =>
        if 65 ≤ c.toNat ∧ c.toNat ≤ 90 then Char.ofNat (c.toNat + 32)
        else if c.toNat < 128 then c else id c) ∧
      (ToLower id "MIT").data = "MIT".data.map (fun c =>
        if 65 ≤ c.toNat ∧ c.toNat ≤ 90 then Char.ofNat (c.toNat + 32)
        else if c.toNat < 128 then c else id c) ∧
      0 < (ToLower id "Jane Doe").length ∧ 0 < (ToLower id "MIT").length) ∧
    createDegreePuts id emptyStub janeArgs = [("1", janeBytes "2")] ∧
    Unmarshal (janeBytes "2") =
      Except.ok ⟨"degree", 1, "jane doe", "mit", 4, 2020, ⟨false, 1081711002⟩, 2⟩ ∧
    ToLower id "Jane Doe" = "jane doe" ∧ ToLower id "MIT" = "mit" :=
  ⟨C10_create_writes_degree id emptyStub "1" "Jane Doe" "MIT" "4" "2020" "3.9" "2"
    ⟨"1", "Jane Doe", "MIT", "4", "2020", "3.9", "2", rfl, by decide!, by decide!, by decide!,
      by decide!, by decide!, by decide!, by decide!, by decide!, by decide!, by decide!,
      by decide!, by decide!⟩
    rfl rfl (by decide!) (fun _ => rfl),
    by decide!, by decide!, by decide!, by decide!⟩

set_option maxRecDepth 100000 in
/-- C10 fails as stated: with the well-formed arguments whose grade point
average is `NaN`, an empty store and calls that succeed, `createDegree` fails
with the error of `json.Marshal`, makes no `PutState` call and leaves the key
absent. -/
theorem C10_counterexample :
    wellFormedArgs nanArgs ∧
    emptyStub.GetState (Itoa (argsId nanArgs)) = Except.ok none ∧
    (∀ k v, emptyStub.putFailure k v = none) ∧
    (createDegree id emptyStub nanArgs).1 = Response.Error "json: unsupported value: NaN" ∧
    (createDegree id emptyStub nanArgs).2.state (Itoa (argsId nanArgs)) = none ∧
    createDegreePuts id emptyStub nanArgs = [] :=
  ⟨⟨"1", "Jane Doe", "MIT", "4", "2020", "NaN", "2", rfl, by decide!, by decide!,
      by decide!, by decide!, by decide!, by decide!, by decide!, by decide!, by decide!,
      by decide!, by decide!, by decide!⟩,
    by decide!, fun _ _ => rfl, by decide!, by decide!, by decide!⟩

/-! ## Absent ids, and what a call may change -/

theorem GetState_absent (stub : Stub) (key : String) (h : stub.GetState key = Except.ok none) :
    stub.getFailure key = none ∧ stub.state key = none := by
  unfold Stub.GetState at h
  cases hgf : stub.getFailure key with
  | some e => rw [hgf] at h; simp at h
  | none => rw [hgf] at h; simp at h; exact ⟨rfl, h⟩

/-- C11: when the store's get finds no entry under the key of the id,
`invokeDegreeAccess`, `viewDegree` and `revokeDegreeAccess` each fail with
the error `Degree does not exist` (`viewDegree` words it inside its json
message, followed by the id) and return the stub they were given: nothing is
put, and the key is still absent. -/
theorem C11_absent_id_not_found (stub : Stub) (id : Int) (a0 a1 : String) (more : List String)
    (harg : (Atoi a0).1 = id)
    (habsent : stub.GetState (Itoa id) = Except.ok none) :
    invokeDegreeAccess stub (a0 :: a1 :: more) =
      (Response.Error "Degree does not exist", stub) ∧
    viewDegree stub [a0] =
      (Response.Error ("\x7b\"Error\":\"Degree does not exist: " ++ Itoa id ++ "\"\x7d"),
        stub) ∧
    revokeDegreeAccess stub [a0] = (Response.Error "Degree does not exist", stub) ∧
    stub.state (Itoa id) = none := by
  subst harg
  refine ⟨?_, ?_, ?_, (GetState_absent stub _ habsent).2⟩
  · simp only [invokeDegreeAccess, habsent]
  · simp only [viewDegree, habsent]
  · simp only [revokeDegreeAccess, habsent]

/-- C11 on the empty store: a grant, a view and a revocation of degree 1. -/
theorem C11_witness :
    invokeDegreeAccess emptyStub ("1" :: "3" :: []) =
      (Response.Error "Degree does not exist", emptyStub) ∧
    viewDegree emptyStub ["1"] =
      (Response.Error ("\x7b\"Error\":\"Degree does not exist: " ++ Itoa 1 ++ "\"\x7d"),
        emptyStub) ∧
    revokeDegreeAccess emptyStub ["1"] = (Response.Error "Degree does not exist", emptyStub) ∧
    emptyStub.state (Itoa 1) = none :=
  C11_absent_id_not_found emptyStub 1 "1" "3" [] (by decide!) (by decide!)

theorem sameButViews_setViews (r : degree) (n : Int) :
    SameButViews r { r with AllowedViews := n } :=
  ⟨rfl, rfl, rfl, rfl, rfl, rfl, rfl⟩

theorem sameButViews_refl (r : degree) : SameButViews r r := ⟨rfl, rfl, rfl, rfl, rfl, rfl, rfl⟩

/-- A stub that is left as it is, or has a degree written back with another
number of views under one key, keeps the other keys and the other fields. -/
theorem frame_of_effect (stub stub1 : Stub) (key : String)
    (h : stub1 = stub ∨ ∃ bytes r n, stub.state key = some bytes ∧
      Unmarshal bytes = Except.ok r ∧ inIntRange n ∧
      stub1 = stub.withValue key (marshalBytes { r with AllowedViews := n })) :
    (∀ k, k ≠ key → stub1.state k = stub.state k) ∧
    (∀ b r, stub.state key = some b → Unmarshal b = Except.ok r →
      ∃ b1 r1, stub1.state key = some b1 ∧ Unmarshal b1 = Except.ok r1 ∧
        SameButViews r r1) := by
  rcases h with h | ⟨bytes, r0, n, hst, hdec, hn, h⟩
  · subst h
    exact ⟨fun _ _ => rfl, fun b r hb hr => ⟨b, r, hb, hr, sameButViews_refl r⟩⟩
  · subst h
    refine ⟨fun k hk => withValue_state_other stub key _ k hk, fun b r hb hr => ?_⟩
    rw [hst] at hb
    cases hb
    rw [hdec] at hr
    cases hr
    exact ⟨_, _, withValue_state_self _ _ _, Unmarshal_setViews bytes r0 n hdec hn,
      sameButViews_setViews r0 n⟩

/-- C12: a call of `invokeDegreeAccess`, `viewDegree` or `revokeDegreeAccess`
leaves the value under every key other than the key of its id as it was, and
when the key of its id held bytes that decode to a degree, it holds bytes
afterwards that decode to a degree with the same `docType`, id, student
name, institute name, duration, passing year and grade point average: only the
number of allowed views may differ. -/
theorem C12_only_views_change (stub stub1 : Stub) (args : List String)
    (hcall : stub1 = (invokeDegreeAccess stub args).2 ∨ stub1 = (viewDegree stub args).2 ∨
      stub1 = (revokeDegreeAccess stub args).2) :
    (∀ k, k ≠ Itoa (argsId args) → stub1.state k = stub.state k) ∧
    (∀ b r, stub.state (Itoa (argsId args)) = some b → Unmarshal b = Except.ok r →
      ∃ b1 r1, stub1.state (Itoa (argsId args)) = some b1 ∧ Unmarshal b1 = Except.ok r1 ∧
        SameButViews r r1) := by
  apply frame_of_effect
  rcases hcall with h | h | h
  · rcases grant_effect stub args with
      ⟨hs, _⟩ | ⟨a0, a1, more, bytes, r, hargs, _, hst, hdec, hs⟩
    · exact Or.inl (h.trans hs)
    · subst hargs
      exact Or.inr ⟨bytes, r, _, hst, hdec, inIntRange_wrapInt _, h.trans hs⟩
  · rcases viewDegree_effect stub args with
      ⟨hs, _⟩ | ⟨a0, bytes, r, hargs, _, hst, hdec, hpos, hs⟩
    · exact Or.inl (h.trans hs)
    · subst hargs
      refine Or.inr ⟨bytes, r, _, hst, hdec, ?_, h.trans hs⟩
      obtain ⟨_, _, _, ⟨h1, h2⟩, _⟩ := Unmarshal_valid bytes r hdec
      constructor <;> omega
  · rcases revoke_effect stub args with ⟨hs, _⟩ | ⟨a0, bytes, r, hargs, _, hst, hdec, hs⟩
    · exact Or.inl (h.trans hs)
    · subst hargs
      exact Or.inr ⟨bytes, r, _, hst, hdec, inIntRange_zero, h.trans hs⟩

set_option maxRecDepth 100000 in
/-- C12 at a view of the degree of the scenario, which is stored with 2
views: the key 1 holds a degree afterwards that differs from it in the views
at most, and the key 2 is as it was. -/
theorem C12_witness :
    janeStub.state (Itoa (argsId ["1"])) = some (janeBytes "2") ∧
    Unmarshal (janeBytes "2") = Except.ok (janeDegree 2) ∧
    (∃ b1 r1, (viewDegree janeStub ["1"]).2.state (Itoa (argsId ["1"])) = some b1 ∧
      Unmarshal b1 = Except.ok r1 ∧ SameButViews (janeDegree 2) r1) ∧
    (viewDegree janeStub ["1"]).2.state "2" = janeStub.state "2" :=
  ⟨by decide!, by decide!,
    (C12_only_views_change janeStub (viewDegree janeStub ["1"]).2 ["1"]
      (Or.inr (Or.inl rfl))).2 (janeBytes "2") (janeDegree 2) (by decide!) (by decide!),
    (C12_only_views_change janeStub (viewDegree janeStub ["1"]).2 ["1"]
      (Or.inr (Or.inl rfl))).1 "2" (by decide!)⟩

/-! ## Store failures and arguments that are not numbers -/

theorem GetState_error (stub : Stub) (key e : String) (h : stub.getFailure key = some e) :
    stub.GetState key = Except.error e := by
  simp only [Stub.GetState, h]

theorem PutState_error (stub : Stub) (key value e : String)
    (h : stub.putFailure key value = some e) : stub.PutState key value = Except.error e := by
  simp only [Stub.PutState, h]

/-- A failed `GetState`: `invokeDegreeAccess` and `revokeDegreeAccess` append
the error of the store to their message, `viewDegree` answers with a message
that names the id only; each returns the stub it was given. -/
theorem failed_get_responses (stub : Stub) (a0 a1 e : String) (more : List String)
    (h : stub.getFailure (Itoa (Atoi a0).1) = some e) :
    invokeDegreeAccess stub (a0 :: a1 :: more) =
      (Response.Error ("Failed to get degree:" ++ e), stub) ∧
    revokeDegreeAccess stub [a0] = (Response.Error ("Failed to get degree:" ++ e), stub) ∧
    viewDegree stub [a0] =
      (Response.Error ("\x7b\"Error\":\"Failed to get state for " ++ Itoa (Atoi a0).1
        ++ "\"\x7d"), stub) := by
  have hg := GetState_error stub _ e h
  refine ⟨?_, ?_, ?_⟩
  · simp only [invokeDegreeAccess, hg]
  · simp only [revokeDegreeAccess, hg]
  · simp only [viewDegree, hg]

/-- A failed `GetState` in `createDegree`, whose arguments passed the
checks: the error of the store is appended to the message. -/
theorem createDegree_failed_get (table : Char → Char) (stub : Stub)
    (a0 a1 a2 a3 a4 a5 a6 e : String) (hwf : wellFormedArgs [a0, a1, a2, a3, a4, a5, a6])
    (hgf : stub.getFailure (Itoa (Atoi a0).1) = some e) :
    createDegree table stub [a0, a1, a2, a3, a4, a5, a6] =
      (Response.Error ("Failed to get degree: " ++ e), stub) := by
  obtain ⟨b0, b1, b2, b3, b4, b5, b6, heq, h0, h1, h2, h3, h4, h5, h6, e0, e3, e4, e5, e6⟩ := hwf
  simp only [List.cons.injEq, and_true] at heq
  obtain ⟨r0, r1, r2, r3, r4, r5, r6⟩ := heq
  subst r0 r1 r2 r3 r4 r5 r6
  have n0 : ¬ a0.length ≤ 0 := by omega
  have n1 : ¬ a1.length ≤ 0 := by omega
  have n2 : ¬ a2.length ≤ 0 := by omega
  have n3 : ¬ a3.length ≤ 0 := by omega
  have n4 : ¬ a4.length ≤ 0 := by omega
  have n5 : ¬ a5.length ≤ 0 := by omega
  have n6 : ¬ a6.length ≤ 0 := by omega
  unfold createDegree
  simp only
  rw [if_neg n0, if_neg n1, if_neg n2, if_neg n3, if_neg n4, if_neg n5, if_neg n6,
    if_neg (by simp [e0]), if_neg (by simp [e3]), if_neg (by simp [e4]), if_neg (by simp [e5]),
    if_neg (by simp [e6])]
  rw [GetState_error stub _ e hgf]

/-- A failed `PutState` in the three transactions that rewrite a degree: the
response is the error of the store, and the stub is returned as given. -/
theorem failed_put_responses (stub : Stub) (a0 a1 bytes e : String) (more : List String)
    (r : degree) (hgf : stub.getFailure (Itoa (Atoi a0).1) = none)
    (hst : stub.state (Itoa (Atoi a0).1) = some bytes) (hdec : Unmarshal bytes = Except.ok r)
    (hput : ∀ v, stub.putFailure (Itoa (Atoi a0).1) v = some e) :
    invokeDegreeAccess stub (a0 :: a1 :: more) = (Response.Error e, stub) ∧
    revokeDegreeAccess stub [a0] = (Response.Error e, stub) ∧
    (0 < r.AllowedViews → viewDegree stub [a0] = (Response.Error e, stub)) := by
  have hg := GetState_ok stub _ hgf
  refine ⟨?_, ?_, fun hpos => ?_⟩
  · simp only [invokeDegreeAccess, hg, hst, hdec, PutState_error stub _ _ e (hput _)]
  · simp only [revokeDegreeAccess, hg, hst, hdec, PutState_error stub _ _ e (hput _)]
  · have hnle : ¬ r.AllowedViews ≤ 0 := by omega
    simp only [viewDegree, hg, hst, hdec, hnle, if_false, PutState_error stub _ _ e (hput _)]

/-- A failed `PutState` in `createDegree`: the response is the error of the
store. -/
theorem createDegree_failed_put (table : Char → Char) (stub : Stub)
    (a0 a1 a2 a3 a4 a5 a6 e : String) (hwf : wellFormedArgs [a0, a1, a2, a3, a4, a5, a6])
    (hgf : stub.getFailure (Itoa (Atoi a0).1) = none)
    (hst : stub.state (Itoa (Atoi a0).1) = none)
    (hfin : (ParseFloat32 a5).1.bits < infBits)
    (hput : ∀ v, stub.putFailure (Itoa (Atoi a0).1) v = some e) :
    createDegree table stub [a0, a1, a2, a3, a4, a5, a6] = (Response.Error e, stub) := by
  obtain ⟨b, hb, _⟩ := Unmarshal_Marshal _ (created_valid table a0 a1 a2 a3 a4 a5 a6 hfin)
  obtain ⟨b0, b1, b2, b3, b4, b5, b6, heq, h0, h1, h2, h3, h4, h5, h6, e0, e3, e4, e5, e6⟩ := hwf
  simp only [List.cons.injEq, and_true] at heq
  obtain ⟨r0, r1, r2, r3, r4, r5, r6⟩ := heq
  subst r0 r1 r2 r3 r4 r5 r6
  have n0 : ¬ a0.length ≤ 0 := by omega
  have n1 : ¬ a1.length ≤ 0 := by omega
  have n2 : ¬ a2.length ≤ 0 := by omega
  have n3 : ¬ a3.length ≤ 0 := by omega
  have n4 : ¬ a4.length ≤ 0 := by omega
  have n5 : ¬ a5.length ≤ 0 := by omega
  have n6 : ¬ a6.length ≤ 0 := by omega
  unfold createDegree
  simp only
  rw [if_neg n0, if_neg n1, if_neg n2, if_neg n3, if_neg n4, if_neg n5, if_neg n6,
    if_neg (by simp [e0]), if_neg (by simp [e3]), if_neg (by simp [e4]), if_neg (by simp [e5]),
    if_neg (by simp [e6])]
  rw [GetState_ok stub _ hgf, hst]
  simp only [hb, PutState_error stub _ _ e (hput _)]

/-- The checks of `createDegree` on its numeric arguments: with seven
non-empty arguments of which one does not parse, the response names the
position of an argument that does not parse, and the stub is returned as
given, whatever it holds. -/
theorem createDegree_numeric_checks (table : Char → Char) (stub : Stub)
    (a0 a1 a2 a3 a4 a5 a6 : String)
    (h0 : 0 < a0.length) (h1 : 0 < a1.length) (h2 : 0 < a2.length) (h3 : 0 < a3.length)
    (h4 : 0 < a4.length) (h5 : 0 < a5.length) (h6 : 0 < a6.length)
    (hbad : (Atoi a0).2 ≠ none ∨ (Atoi a3).2 ≠ none ∨ (Atoi a4).2 ≠ none ∨
      (ParseFloat32 a5).2 ≠ none ∨ (Atoi a6).2 ≠ none) :
    (createDegree table stub [a0, a1, a2, a3, a4, a5, a6]).2 = stub ∧
    (((Atoi a0).2 ≠ none ∧ (createDegree table stub [a0, a1, a2, a3, a4, a5, a6]).1 =
        Response.Error "1st argument must be a numeric string") ∨
     ((Atoi a3).2 ≠ none ∧ (createDegree table stub [a0, a1, a2, a3, a4, a5, a6]).1 =
        Response.Error "4th argument must be a numeric string") ∨
     ((Atoi a4).2 ≠ none ∧ (createDegree table stub [a0, a1, a2, a3, a4, a5, a6]).1 =
        Response.Error "5th argument must be a numeric string") ∨
     ((ParseFloat32 a5).2 ≠ none ∧ (createDegree table stub [a0, a1, a2, a3, a4, a5, a6]).1 =
        Response.Error "6th argument must be a numeric string") ∨
     ((Atoi a6).2 ≠ none ∧ (createDegree table stub [a0, a1, a2, a3, a4, a5, a6]).1 =
        Response.Error "7th argument must be a numeric string")) := by
  have n0 : ¬ a0.length ≤ 0 := by omega
  have n1 : ¬ a1.length ≤ 0 := by omega
  have n2 : ¬ a2.length ≤ 0 := by omega
  have n3 : ¬ a3.length ≤ 0 := by omega
  have n4 : ¬ a4.length ≤ 0 := by omega
  have n5 : ¬ a5.length ≤ 0 := by omega
  have n6 : ¬ a6.length ≤ 0 := by omega
  unfold createDegree
  simp only
  rw [if_neg n0, if_neg n1, if_neg n2, if_neg n3, if_neg n4, if_neg n5, if_neg n6]
  by_cases e0 : (Atoi a0).2 ≠ none
  · rw [if_pos e0]; exact ⟨rfl, Or.inl ⟨e0, rfl⟩⟩
  rw [if_neg e0]
  by_cases e3 : (Atoi a3).2 ≠ none
  · rw [if_pos e3]; exact ⟨rfl, Or.inr (Or.inl ⟨e3, rfl⟩)⟩
  rw [if_neg e3]
  by_cases e4 : (Atoi a4).2 ≠ none
  · rw [if_pos e4]; exact ⟨rfl, Or.inr (Or.inr (Or.inl ⟨e4, rfl⟩))⟩
  rw [if_neg e4]
  by_cases e5 : (ParseFloat32 a5).2 ≠ none
  · rw [if_pos e5]; exact ⟨rfl, Or.inr (Or.inr (Or.inr (Or.inl ⟨e5, rfl⟩)))⟩
  rw [if_neg e5]
  by_cases e6 : (Atoi a6).2 ≠ none
  · rw [if_pos e6]; exact ⟨rfl, Or.inr (Or.inr (Or.inr (Or.inr ⟨e6, rfl⟩)))⟩
  rcases hbad with h | h | h | h | h
  · exact absurd h e0
  · exact absurd h e3
  · exact absurd h e4
  · exact absurd h e5
  · exact absurd h e6

set_option maxRecDepth 100000 in
/-- C13 at a failing get: `viewDegree` answers a failed `GetState` with a
message that names the id only, the same whatever the error of the store
was, whereas `createDegree`, `invokeDegreeAccess` and `revokeDegreeAccess`
append the error of the store to theirs. No call writes. -/
theorem C13_viewDegree_drops_get_error :
    viewDegree (failingGetStub "ledger unavailable") ["1"] =
      (Response.Error "\x7b\"Error\":\"Failed to get state for 1\"\x7d",
        failingGetStub "ledger unavailable") ∧
    (viewDegree (failingGetStub "connection reset") ["1"]).1 =
      (viewDegree (failingGetStub "ledger unavailable") ["1"]).1 ∧
    createDegree id (failingGetStub "ledger unavailable") janeArgs =
      (Response.Error "Failed to get degree: ledger unavailable",
        failingGetStub "ledger unavailable") ∧
    invokeDegreeAccess (failingGetStub "ledger unavailable") ["1", "3"] =
      (Response.Error "Failed to get degree:ledger unavailable",
        failingGetStub "ledger unavailable") ∧
    revokeDegreeAccess (failingGetStub "ledger unavailable") ["1"] =
      (Response.Error "Failed to get degree:ledger unavailable",
        failingGetStub "ledger unavailable") := by
  refine ⟨?_, ?_, ?_, ?_, ?_⟩
  · simp only [viewDegree, failingGetStub, Stub.GetState]
    exact Prod.ext (by decide!) rfl
  · simp only [viewDegree, failingGetStub, Stub.GetState]
  · rcases createDegree_effect id (failingGetStub "ledger unavailable") janeArgs with
      ⟨h, _⟩ | ⟨_, _, _, _, _, _, _, _, _, _, hgf, _⟩
    · refine Prod.ext ?_ h
      decide!
    · exact absurd hgf (by simp [failingGetStub])
  · simp only [invokeDegreeAccess, failingGetStub, Stub.GetState]
    exact Prod.ext (by decide!) rfl
  · simp only [revokeDegreeAccess, failingGetStub, Stub.GetState]
    exact Prod.ext (by decide!) rfl

set_option maxRecDepth 100000 in
/-- C14 at arguments that are not numbers: with a degree stored under the id
0, `viewDegree` on the id `abc` succeeds, returns that degree and uses up one of
its views; `invokeDegreeAccess` with the views `many` succeeds and adds 0; and
`revokeDegreeAccess` on `abc` succeeds and sets the views of degree 0 to 0.
`strconv.Atoi` gives an error for each of these arguments. -/
theorem C14_unparsed_id_is_zero :
    (Atoi "abc").2 ≠ none ∧ (Atoi "many").2 ≠ none ∧
    viewDegree zeroIdStub ["abc"] =
      (Response.Success (some (zeroIdBytes "2")), zeroIdStub.withValue "0" (zeroIdBytes "1")) ∧
    invokeDegreeAccess zeroIdStub ["0", "many"] =
      (Response.Success none, zeroIdStub.withValue "0" (zeroIdBytes "2")) ∧
    revokeDegreeAccess zeroIdStub ["abc"] =
      (Response.Success none, zeroIdStub.withValue "0" (zeroIdBytes "0")) := by
  have hgf : zeroIdStub.getFailure (Itoa (Atoi "abc").1) = none := by
    unfold zeroIdStub
    rw [(createDegree_failures id emptyStub _).1]
    rfl
  have hpf : ∀ k v, zeroIdStub.putFailure k v = none := by
    intro k v
    unfold zeroIdStub
    rw [(createDegree_failures id emptyStub _).2]
    rfl
  have hst : zeroIdStub.state (Itoa (Atoi "abc").1) = some (zeroIdBytes "2") := by decide!
  have hdec : Unmarshal (zeroIdBytes "2") =
      Except.ok ⟨"degree", 0, "jane doe", "mit", 4, 2020, ⟨false, 1081711002⟩, 2⟩ := by
    decide!
  refine ⟨by decide!, by decide!, ?_, ?_, ?_⟩
  · rw [viewDegree_success zeroIdStub "abc" _ _ hgf hst hdec (by decide) (hpf _ _)]
    exact Prod.ext rfl (congrArg₂ zeroIdStub.withValue (by decide!) (by decide!))
  · rw [grant_success zeroIdStub "0" "many" [] _ _ hgf hst hdec (hpf _ _)]
    exact Prod.ext rfl (congrArg₂ zeroIdStub.withValue (by decide!) (by decide!))
  · rw [revoke_success zeroIdStub "abc" _ _ hgf hst hdec (hpf _ _)]
    exact Prod.ext rfl (congrArg₂ zeroIdStub.withValue (by decide!) (by decide!))

/-! ## The number of arguments, the dispatch and the keys -/

/-- C15, amended: `createDegree` with other than 7 arguments,
`invokeDegreeAccess` with fewer than 2, and `viewDegree` and
`revokeDegreeAccess` with other than 1 return the fixed message of the
transaction for a wrong number of arguments, whatever the arguments and the
stub are, and return the stub they were given; `invokeDegreeAccess` with more
than 2 arguments does what it does with the first two alone. -/
theorem C15_argument_count (table : Char → Char) (stub : Stub) (args : List String) :
    (args.length ≠ 7 → createDegree table stub args =
      (Response.Error "Incorrect number of arguments. Expecting 7", stub)) ∧
    (args.length < 2 → invokeDegreeAccess stub args =
      (Response.Error "Incorrect number of arguments. Expecting 2", stub)) ∧
    (args.length ≠ 1 →
      viewDegree stub args =
        (Response.Error "Incorrect number of arguments. Expecting ID of the Degree to query",
          stub) ∧
      revokeDegreeAccess stub args =
        (Response.Error "Incorrect number of arguments. Expecting ID of the Degree to query",
          stub)) ∧
    (∀ a0 a1 more, args = a0 :: a1 :: more →
      invokeDegreeAccess stub args = invokeDegreeAccess stub [a0, a1]) := by
  refine ⟨fun h => ?_, fun h => ?_, fun h => ⟨?_, ?_⟩, fun a0 a1 more h => ?_⟩
  · unfold createDegree
    split
    · simp at h
    · rfl
  · rcases args with _ | ⟨a0, _ | ⟨a1, more⟩⟩
    · rfl
    · rfl
    · exact absurd h (by simp only [List.length_cons]; omega)
  · rcases args with _ | ⟨a0, _ | ⟨a1, more⟩⟩
    · rfl
    · simp at h
    · rfl
  · rcases args with _ | ⟨a0, _ | ⟨a1, more⟩⟩
    · rfl
    · simp at h
    · rfl
  · subst h
    rfl

/-- C15 at calls with too few and too many arguments, and at a grant with a
third argument. -/
theorem C15_witness :
    createDegree id janeStub ["1", "Jane Doe", "MIT", "4", "2020", "3.9"] =
      (Response.Error "Incorrect number of arguments. Expecting 7", janeStub) ∧
    invokeDegreeAccess janeStub ["1"] =
      (Response.Error "Incorrect number of arguments. Expecting 2", janeStub) ∧
    viewDegree janeStub ["1", "1"] =
      (Response.Error "Incorrect number of arguments. Expecting ID of the Degree to query",
        janeStub) ∧
    revokeDegreeAccess janeStub [] =
      (Response.Error "Incorrect number of arguments. Expecting ID of the Degree to query",
        janeStub) ∧
    invokeDegreeAccess janeStub ["1", "3", "x"] = invokeDegreeAccess janeStub ["1", "3"] :=
  ⟨(C15_argument_count id janeStub ["1", "Jane Doe", "MIT", "4", "2020", "3.9"]).1 (by decide),
    (C15_argument_count id janeStub ["1"]).2.1 (by decide),
    ((C15_argument_count id janeStub ["1", "1"]).2.2.1 (by decide)).1,
    ((C15_argument_count id janeStub []).2.2.1 (by decide)).2,
    (C15_argument_count id janeStub ["1", "3", "x"]).2.2.2 "1" "3" ["x"] rfl⟩

/-- C15 as stated fails: the message of `viewDegree` for a wrong number of
arguments has no number in it, so it names no position: not every failure of
the count of `viewDegree` answers with a positional message. -/
theorem C15_counterexample :
    ¬ (∀ (stub : Stub) (args : List String), args.length ≠ 1 →
      ∃ m, (viewDegree stub args).1 = Response.Error m ∧ namesPosition m = true) := by
  intro h
  obtain ⟨m, hm, hp⟩ := h emptyStub [] (by decide)
  have hm1 : m = "Incorrect number of arguments. Expecting ID of the Degree to query" := by
    have := hm.symm
    simp only [viewDegree, Response.Error.injEq] at this
    exact this
  subst hm1
  exact absurd hp (by decide)

/-- C16: `Invoke` gives the names `createDegree`, `invokeDegreeAccess`,
`viewDegree` and `revokeAccess` to the transactions that create, grant, view
and revoke, and answers any other name with the error
`Received unknown function invocation`, returning the stub it was given. -/
theorem C16_dispatch_routing (table : Char → Char) (stub : Stub) (args : List String) :
    Invoke table stub "createDegree" args = createDegree table stub args ∧
    Invoke table stub "invokeDegreeAccess" args = invokeDegreeAccess stub args ∧
    Invoke table stub "viewDegree" args = viewDegree stub args ∧
    Invoke table stub "revokeAccess" args = revokeDegreeAccess stub args ∧
    (∀ f : String, f ≠ "createDegree" → f ≠ "invokeDegreeAccess" → f ≠ "viewDegree" →
      f ≠ "revokeAccess" →
      Invoke table stub f args =
        (Response.Error "Received unknown function invocation", stub)) := by
  refine ⟨?_, ?_, ?_, ?_, fun f h1 h2 h3 h4 => ?_⟩
  · unfold Invoke; rw [if_pos rfl]
  · unfold Invoke; rw [if_neg (by decide), if_pos rfl]
  · unfold Invoke; rw [if_neg (by decide), if_neg (by decide), if_pos rfl]
  · unfold Invoke; rw [if_neg (by decide), if_neg (by decide), if_neg (by decide), if_pos rfl]
  · unfold Invoke; rw [if_neg h1, if_neg h2, if_neg h3, if_neg h4]

/-- C16 at names that are not routed: the name of the Go method that revokes,
and a name with another case. -/
theorem C16_witness :
    Invoke id janeStub "revokeDegreeAccess" ["1"] =
      (Response.Error "Received unknown function invocation", janeStub) ∧
    Invoke id janeStub "ViewDegree" ["1"] =
      (Response.Error "Received unknown function invocation", janeStub) :=
  ⟨(C16_dispatch_routing id janeStub ["1"]).2.2.2.2 "revokeDegreeAccess"
      (by decide) (by decide) (by decide) (by decide),
    (C16_dispatch_routing id janeStub ["1"]).2.2.2.2 "ViewDegree"
      (by decide) (by decide) (by decide) (by decide)⟩

/-- C17: the key of an id is its decimal string `strconv.Itoa`: two ids with
the same key are equal, and `strconv.Atoi` of the key of an `int` gives the id
back without an error. -/
theorem C17_key_injective (a b : Int) :
    (Itoa a = Itoa b → a = b) ∧ (inIntRange a → Atoi (Itoa a) = (a, none)) :=
  ⟨Itoa_injective a b, Atoi_Itoa a⟩

/-- C17 at the ids 1 and 10, whose keys differ, and at the key of -7. -/
theorem C17_witness : Itoa 1 ≠ Itoa 10 ∧ Atoi (Itoa (-7)) = (-7, none) :=
  ⟨fun h => absurd ((C17_key_injective 1 10).1 h) (by decide),
    (C17_key_injective (-7) 0).2 (by decide)⟩

/-! ## The codec on all degrees and on bad bytes -/

/-- C18, amended: for every degree that Go can hold (its integers are in the
range of `int`) whose grade point average is finite, `json.Marshal` succeeds and
`json.Unmarshal` of its bytes succeeds and gives the degree back, equal in
every field. -/
theorem C18_codec_roundtrip (d : degree) (hv : d.Valid) :
    ∃ b, Marshal d = Except.ok b ∧ Unmarshal b = Except.ok d :=
  Unmarshal_Marshal d hv

/-- C18 at a degree with quotes, a backslash, a newline, HTML characters,
negative integers and a negative zero. -/
theorem C18_witness :
    ∃ b, Marshal oddDegree = Except.ok b ∧ Unmarshal b = Except.ok oddDegree :=
  C18_codec_roundtrip oddDegree ⟨by decide, by decide, by decide, by decide, by decide⟩

/-- C18 as stated fails at a degree whose grade point average is a NaN:
`json.Marshal` gives an error, so there are no bytes to decode. -/
theorem C18_counterexample :
    Marshal nanDegree = Except.error (JsonError.UnsupportedValueError "NaN") ∧
    ¬ ∃ b, Marshal nanDegree = Except.ok b ∧ Unmarshal b = Except.ok nanDegree := by
  have h : Marshal nanDegree = Except.error (JsonError.UnsupportedValueError "NaN") := by decide
  refine ⟨h, ?_⟩
  rintro ⟨b, hb, _⟩
  rw [h] at hb
  exact absurd hb (by simp)

/-- C19, amended: when the key of the id holds bytes that are not a json text
(the scanner of `encoding/json` reports a syntax error), `json.Unmarshal`
fails with that syntax error; and whenever `json.Unmarshal` rejects the bytes
under the key, `invokeDegreeAccess`, `viewDegree` and `revokeDegreeAccess`
return the message of its error and the stub they were given: nothing is
written. -/
theorem C19_decode_error_surfaced (stub : Stub) (id : Int) (a0 a1 : String)
    (more : List String) (bytes : String) (harg : (Atoi a0).1 = id)
    (hget : stub.GetState (Itoa id) = Except.ok (some bytes)) :
    (∀ msg, checkValid bytes.data = some msg →
      Unmarshal bytes = Except.error (JsonError.SyntaxError msg)) ∧
    (∀ e, Unmarshal bytes = Except.error e →
      invokeDegreeAccess stub (a0 :: a1 :: more) = (Response.Error e.Error, stub) ∧
      viewDegree stub [a0] = (Response.Error e.Error, stub) ∧
      revokeDegreeAccess stub [a0] = (Response.Error e.Error, stub)) := by
  subst harg
  refine ⟨fun msg hmsg => ?_, fun e hdec => ⟨?_, ?_, ?_⟩⟩
  · unfold Unmarshal
    cases hp : parseTop bytes.data with
    | some t =>
      rw [checkValid_of_parseTop _ t hp] at hmsg
      exact absurd hmsg (by simp)
    | none => simp only [hmsg, Option.getD_some]
  · simp only [invokeDegreeAccess, hget, hdec]
  · simp only [viewDegree, hget, hdec]
  · simp only [revokeDegreeAccess, hget, hdec]

set_option maxRecDepth 100000 in
/-- C19 at a text that breaks off inside an object, and at an object whose
`degreeid` is a string. -/
theorem C19_witness :
    (invokeDegreeAccess truncatedStub ["1", "3"] =
        (Response.Error "unexpected end of JSON input", truncatedStub) ∧
      viewDegree truncatedStub ["1"] =
        (Response.Error "unexpected end of JSON input", truncatedStub) ∧
      revokeDegreeAccess truncatedStub ["1"] =
        (Response.Error "unexpected end of JSON input", truncatedStub)) ∧
    (invokeDegreeAccess wrongTypeStub ["1", "3"] =
        (Response.Error
          "json: cannot unmarshal string into Go struct field degree.degreeid of type int",
          wrongTypeStub) ∧
      viewDegree wrongTypeStub ["1"] =
        (Response.Error
          "json: cannot unmarshal string into Go struct field degree.degreeid of type int",
          wrongTypeStub) ∧
      revokeDegreeAccess wrongTypeStub ["1"] =
        (Response.Error
          "json: cannot unmarshal string into Go struct field degree.degreeid of type int",
          wrongTypeStub)) :=
  ⟨(C19_decode_error_surfaced truncatedStub 1 "1" "3" [] truncatedBytes
      (by decide!) (by decide!)).2 (JsonError.SyntaxError "unexpected end of JSON input")
      ((C19_decode_error_surfaced truncatedStub 1 "1" "3" [] truncatedBytes
        (by decide!) (by decide!)).1 "unexpected end of JSON input" (by decide!)),
    (C19_decode_error_surfaced wrongTypeStub 1 "1" "3" [] wrongTypeBytes
      (by decide!) (by decide!)).2 (JsonError.UnmarshalTypeError "string" "degreeid" "int")
      (by decide!)⟩

set_option maxRecDepth 100000 in
/-- C19 as stated fails at an object that lacks six of the eight fields:
`json.Unmarshal` accepts it and leaves the missing fields zero, `viewDegree`
succeeds and writes the degree back with the defaulted fields, and
`revokeDegreeAccess` does likewise. -/
theorem C19_counterexample :
    Unmarshal partialBytes = Except.ok (partialDegree 2) ∧
    viewDegree partialStub ["1"] =
      (Response.Success (some partialBytes), partialStub.withValue "1" (partialWritten "1")) ∧
    revokeDegreeAccess partialStub ["1"] =
      (Response.Success none, partialStub.withValue "1" (partialWritten "0")) := by
  have hdec : Unmarshal partialBytes = Except.ok (partialDegree 2) := by decide!
  have hgf : partialStub.getFailure (Itoa (Atoi "1").1) = none := rfl
  have hst : partialStub.state (Itoa (Atoi "1").1) = some partialBytes := by decide!
  refine ⟨hdec, ?_, ?_⟩
  · rw [viewDegree_success partialStub "1" _ _ hgf hst hdec (by decide) rfl]
    exact Prod.ext rfl (congrArg₂ partialStub.withValue (by decide!) (by decide!))
  · rw [revoke_success partialStub "1" _ _ hgf hst hdec rfl]
    exact Prod.ext rfl (congrArg₂ partialStub.withValue (by decide!) (by decide!))

/-! ## Keys and records stay consistent -/

theorem consistent_withValue (stub : Stub) (key value : String) (r : degree)
    (h : Consistent stub) (hdec : Unmarshal value = Except.ok r)
    (hty : r.ObjectType = "degree") (hid : Itoa r.DegreeId = key) :
    Consistent (stub.withValue key value) := by
  intro k b hb
  by_cases hk : k = key
  · subst hk
    rw [withValue_state_self] at hb
    cases hb
    exact ⟨r, hdec, hty, hid⟩
  · rw [withValue_state_other stub key value k hk] at hb
    exact h k b hb

/-- Writing a degree of a consistent state back under its key with another
number of views keeps the state consistent. -/
theorem consistent_setViews (stub : Stub) (key bytes : String) (r : degree) (n : Int)
    (h : Consistent stub) (hst : stub.state key = some bytes)
    (hdec : Unmarshal bytes = Except.ok r) (hn : inIntRange n) :
    Consistent (stub.withValue key (marshalBytes { r with AllowedViews := n })) := by
  obtain ⟨r0, hdec0, hty, hid⟩ := h key bytes hst
  rw [hdec] at hdec0
  cases hdec0
  exact consistent_withValue stub key _ _ h (Unmarshal_setViews bytes r n hdec hn) hty hid

theorem Marshal_ok_finite (d : degree) (b : String) (h : Marshal d = Except.ok b) :
    d.Cgpa.bits < infBits := by
  unfold Marshal at h
  by_cases hf : d.Cgpa.isFinite = true
  · simpa [Float32.isFinite] using hf
  · rw [if_neg hf] at h
    exact absurd h (by simp)

theorem Invoke_keeps_consistent (table : Char → Char) (stub : Stub) (f : String)
    (args : List String) (h : Consistent stub) : Consistent (Invoke table stub f args).2 := by
  unfold Invoke
  split
  · rcases createDegree_effect table stub args with
      ⟨hs, _⟩ | ⟨a0, a1, a2, a3, a4, a5, a6, bytes, _, _, _, _, hm, _, hs⟩
    · rw [hs]; exact h
    · rw [hs]
      obtain ⟨b, hb, hu⟩ := Unmarshal_Marshal _
        (created_valid table a0 a1 a2 a3 a4 a5 a6 (Marshal_ok_finite _ _ hm))
      rw [hm] at hb
      cases hb
      exact consistent_withValue stub _ _ _ h hu rfl rfl
  · split
    · rcases grant_effect stub args with
        ⟨hs, _⟩ | ⟨a0, a1, more, bytes, r, _, _, hst, hdec, hs⟩
      · rw [hs]; exact h
      · rw [hs]
        exact consistent_setViews stub _ bytes r _ h hst hdec (inIntRange_wrapInt _)
    · split
      · rcases viewDegree_effect stub args with
          ⟨hs, _⟩ | ⟨a0, bytes, r, _, _, hst, hdec, hpos, hs⟩
        · rw [hs]; exact h
        · rw [hs]
          refine consistent_setViews stub _ bytes r _ h hst hdec ?_
          obtain ⟨_, _, _, ⟨h1, h2⟩, _⟩ := Unmarshal_valid bytes r hdec
          constructor <;> omega
      · split
        · rcases revoke_effect stub args with ⟨hs, _⟩ | ⟨a0, bytes, r, _, _, hst, hdec, hs⟩
          · rw [hs]; exact h
          · rw [hs]
            exact consistent_setViews stub _ bytes r _ h hst hdec inIntRange_zero
        · exact h

theorem runCalls_consistent (table : Char → Char) (calls : List (String × List String)) :
    ∀ stub : Stub, Consistent stub → Consistent (runCalls table stub calls) := by
  induction calls with
  | nil => intro stub h; exact h
  | cons call calls ih =>
    intro stub h
    simp only [runCalls]
    exact ih _ (Invoke_keeps_consistent table stub call.1 call.2 h)

/-- C20: after any sequence of `Invoke` calls on a stub whose world state is
empty at the start, whatever the function names and the arguments are and
whether the calls of the stub fail or not, every key that is present holds
bytes that decode to a degree whose `docType` is `degree` and whose id has
that key as its decimal string. -/
theorem C20_key_record_consistency (table : Char → Char) (getFailure : String → Option String)
    (putFailure : String → String → Option String) (calls : List (String × List String))
    (k b : String)
    (hk : (runCalls table ⟨fun _ => none, getFailure, putFailure⟩ calls).state k = some b) :
    ∃ r, Unmarshal b = Except.ok r ∧ r.ObjectType = "degree" ∧ Itoa r.DegreeId = k :=
  runCalls_consistent table calls ⟨fun _ => none, getFailure, putFailure⟩
    (fun _ _ h => absurd h (by simp)) k b hk

set_option maxRecDepth 100000 in
/-- C20 at a run with failing calls: the key 1 holds the degree of the
scenario with one view left. -/
theorem C20_witness :
    (runCalls id ⟨fun _ => none, fun _ => none, fun _ _ => none⟩ sampleCalls).state "1"
      = some (janeBytes "1") ∧
    ∃ r, Unmarshal (janeBytes "1") = Except.ok r ∧ r.ObjectType = "degree" ∧
      Itoa r.DegreeId = "1" :=
  ⟨by decide!, C20_key_record_consistency id (fun _ => none) (fun _ _ => none)
    sampleCalls "1" (janeBytes "1") (by decide!)⟩

end Decentrify
